import Mathlib

/-!
# AnyPang match-3 board core — verification development

Shallow embedding of the grid state machine of the AnyPang match-3 engine
(`Board` in the board entity source, `Tile` in `src/entities/Tile.ts`,
constants in `src/utils/constants.ts`).

Modelling conventions:
* Machine numbers are `Nat`/`Int`; tile types are `Nat` (the source enum
  values `0..TILE_TYPE_COUNT-1`; spawned/initial tiles only ever receive
  values in that range).
* A `Tile` keeps the logically relevant fields `type`, `state`, `row`,
  `col`.  The purely visual interpolation fields (`x`, `y`, `targetX`,
  `targetY`, `scale`, `alpha`, `rotation`, `animationProgress`) are
  excluded: the spec scopes rendering out of the core and no grid
  decision reads them.
* `Math.random()` draws are modelled by a stream `rng : Nat → Nat`
  together with a running draw counter `k`; a draw bounded by `n`
  is `rng k % n`, which ranges over exactly the values
  `Math.floor(Math.random() * n)` can take.
* `setTimeout`-sequenced phases are modelled as explicit sequential
  steps; the frame ticks that complete tile animations before each
  phase timer fires (every timer waits at least the full animation
  duration) are modelled by `finishAnimations`.
* The source's `selectedTile` field is an object reference; we model it
  as the board position of the selected tile and re-point it when the
  referenced tile moves cells, which coincides with reference semantics
  whenever every cell's tile records its own cell (the `Coherent`
  invariant below).
-/

namespace AnyPang

/-- `BOARD_ROWS` from `src/utils/constants.ts`. -/
def BOARD_ROWS : Nat := 8

/-- `BOARD_COLS` from `src/utils/constants.ts`. -/
def BOARD_COLS : Nat := 8

/-- `TILE_TYPE_COUNT` from `src/utils/constants.ts`. -/
def TILE_TYPE_COUNT : Nat := 6

/-- `MIN_MATCH_LENGTH` from `src/utils/constants.ts`. -/
def MIN_MATCH_LENGTH : Nat := 3

/-- `TileState` from `src/utils/types.ts`. -/
inductive TileState where
  | Idle
  | Selected
  | Swapping
  | Falling
  | Destroying
  | Spawning
deriving DecidableEq, Repr

/-- The logical fields of the `Tile` entity (`src/entities/Tile.ts`). -/
structure Tile where
  type : Nat
  state : TileState
  row : Nat
  col : Nat
deriving DecidableEq, Repr

/-- `Tile.isAnimating`: every state except `Idle` and `Selected`. -/
def Tile.isAnimating (t : Tile) : Bool :=
  !(t.state == TileState.Idle || t.state == TileState.Selected)

/-- `Tile.isDestroying`. -/
def Tile.isDestroying (t : Tile) : Bool :=
  t.state == TileState.Destroying

/-- `MatchDirection` from `src/utils/types.ts`. -/
inductive MatchDirection where
  | Horizontal
  | Vertical
deriving DecidableEq, Repr

/-- A detected match (`Match` in `src/utils/types.ts`): board positions
are `(row, col)` pairs. -/
structure Match where
  tiles : List (Nat × Nat)
  direction : MatchDirection
  length : Nat
deriving DecidableEq, Repr

/-- The grid: row-major matrix of optional tiles. -/
abbrev Grid := List (List (Option Tile))

/-- The `Board` entity's logical state: the grid plus the selection
pointer, the `isProcessing` flag and the combo counter. -/
structure Board where
  grid : Grid
  selected : Option (Nat × Nat)
  isProcessing : Bool
  comboCount : Nat
deriving DecidableEq, Repr

/-- Read a grid cell; out-of-range indices give `none` (the source's
arrays simply have no entry there). -/
def gridGet (g : Grid) (r c : Nat) : Option Tile :=
  (((g.get? r).getD []).get? c).getD none

/-- Write a grid cell (in-range writes only, like the source's
`this.grid[row][col] = ...` on an 8×8 grid). -/
def gridSet (g : Grid) (r c : Nat) (v : Option Tile) : Grid :=
  g.set r (((g.get? r).getD []).set c v)

/-- `Board.getTile` (source lines 102-107): `null` for out-of-bounds. -/
def Board.getTile (b : Board) (row col : Int) : Option Tile :=
  if row < 0 || row ≥ (BOARD_ROWS : Int) || col < 0 || col ≥ (BOARD_COLS : Int) then
    none
  else
    gridGet b.grid row.toNat col.toNat

/-- The grid has exactly `BOARD_ROWS` rows of `BOARD_COLS` cells. -/
def WellFormed (b : Board) : Prop :=
  b.grid.length = BOARD_ROWS ∧ ∀ row ∈ b.grid, row.length = BOARD_COLS

/-- Every in-range cell holds a tile. -/
def Full (b : Board) : Prop :=
  ∀ r < BOARD_ROWS, ∀ c < BOARD_COLS, gridGet b.grid r c ≠ none

/-- Position coherence: each occupied cell's tile records that cell in
its own `row`/`col` fields. -/
def Coherent (b : Board) : Prop :=
  ∀ r c t, gridGet b.grid r c = some t → t.row = r ∧ t.col = c

/-! ## Match detection (`Board.findMatches`, source lines 238-309) -/

/-- Read position `i` of a line of cells (a row left-to-right or a
column top-to-bottom); past-the-end reads give `none`, exactly as
`getTile` returns `null` at the loop's final out-of-bounds index. -/
def cellAt (line : List (Option Tile)) (i : Nat) : Option Tile :=
  (line.get? i).getD none

/-- The type at position `i` when a non-animating tile sits there.
This folds the source condition `tile && !tile.isAnimating()` together
with reading `tile.type`. -/
def okCell (line : List (Option Tile)) (i : Nat) : Option Nat :=
  match cellAt line i with
  | some t => if t.isAnimating then none else some t.type
  | none => none

/-- The loop condition at index `i ≥ 1` (source lines 251-252 / 282-283):
current and previous tiles exist, are equal-typed, and neither is
animating. -/
def runStep (line : List (Option Tile)) (i : Nat) : Bool :=
  match okCell line i, okCell line (i - 1) with
  | some a, some b => a == b
  | _, _ => false

/-- Flushing one completed run `(start, len)` (the `matchLength >=
MIN_MATCH_LENGTH` body, source lines 255-266 and 286-301): build the
run's tile list, de-duplicate against `matched` in the vertical pass
(`dedup = true`), push the match — the vertical pass only when some
tile survived de-duplication — and mark the tiles as matched.
The source filters-and-marks one tile at a time; since the run's
positions are pairwise distinct that equals this batch filter. -/
def flushRun (posOf : Nat → Nat × Nat) (dir : MatchDirection) (dedup : Bool)
    (st : List Match × List (Nat × Nat)) (run : Nat × Nat) :
    List Match × List (Nat × Nat) :=
  let tiles0 := (List.range run.2).map (fun k => posOf (run.1 + k))
  let tiles := if dedup then tiles0.filter (fun p => !(st.2.contains p)) else tiles0
  (if dedup && tiles.isEmpty then st.1 else st.1 ++ [⟨tiles, dir, run.2⟩],
   st.2 ++ tiles)

/-- The scanning loop over one line (source lines 247-270 / 278-305),
iterating `i` over `n` successive indices starting at `i0` and carrying
the `matchStart`/`matchLength` registers and the `(matches, matched)`
accumulators. -/
def scanFrom (line : List (Option Tile)) (posOf : Nat → Nat × Nat)
    (dir : MatchDirection) (dedup : Bool) :
    Nat → Nat → Nat → Nat → List Match × List (Nat × Nat) →
    List Match × List (Nat × Nat)
  | _, 0, _, _, st => st
  | i, n + 1, ms, ml, st =>
    if runStep line i then
      scanFrom line posOf dir dedup (i + 1) n ms (ml + 1) st
    else if MIN_MATCH_LENGTH ≤ ml then
      scanFrom line posOf dir dedup (i + 1) n i 1 (flushRun posOf dir dedup st (ms, ml))
    else
      scanFrom line posOf dir dedup (i + 1) n i 1 st

/-- The runs the scan flushes, in emission order: a specification-level
shadow of `scanFrom` that records only the `(matchStart, matchLength)`
pairs of the flushed runs. -/
def runsFrom (line : List (Option Tile)) : Nat → Nat → Nat → Nat → List (Nat × Nat)
  | _, 0, _, _ => []
  | i, n + 1, ms, ml =>
    if runStep line i then
      runsFrom line (i + 1) n ms (ml + 1)
    else if MIN_MATCH_LENGTH ≤ ml then
      (ms, ml) :: runsFrom line (i + 1) n i 1
    else
      runsFrom line (i + 1) n i 1

/-- Row `r` of the board as a line (left to right). -/
def rowLine (b : Board) (r : Nat) : List (Option Tile) :=
  (List.range BOARD_COLS).map (fun c => gridGet b.grid r c)

/-- Column `c` of the board as a line (top to bottom). -/
def colLine (b : Board) (c : Nat) : List (Option Tile) :=
  (List.range BOARD_ROWS).map (fun r => gridGet b.grid r c)

/-- The horizontal pass of `findMatches` (source lines 243-271): scan
every row, accumulating matches and the `matched` marks. -/
def hPass (b : Board) : List Match × List (Nat × Nat) :=
  (List.range BOARD_ROWS).foldl
    (fun st r =>
      scanFrom (rowLine b r) (fun c => (r, c)) MatchDirection.Horizontal false
        1 BOARD_COLS 0 1 st)
    ([], [])

/-- The vertical pass of `findMatches` (source lines 274-306), started
from the horizontal pass's accumulators. -/
def vPass (b : Board) (st : List Match × List (Nat × Nat)) :
    List Match × List (Nat × Nat) :=
  (List.range BOARD_COLS).foldl
    (fun st c =>
      scanFrom (colLine b c) (fun r => (r, c)) MatchDirection.Vertical true
        1 BOARD_ROWS 0 1 st)
    st

/-- `Board.findMatches` (source lines 238-309). -/
def findMatches (b : Board) : List Match :=
  (vPass b (hPass b)).1

/-- `findMatches` as a state-passing call: the source method writes only
its local `matches`/`matched` arrays (lines 239-240) and never assigns
to `this`, so the board after the call is the board before it. -/
def findMatchesS (b : Board) : List Match × Board :=
  (findMatches b, b)

/-! ## Selection and swapping (source lines 112-233) -/

/-- Overwrite the `state` field of the tile at `(r, c)` if one is there
(the effect of mutating `tile.state` through a reference to that cell's
tile). -/
def markStateAt (g : Grid) (r c : Nat) (s : TileState) : Grid :=
  match gridGet g r c with
  | some t => gridSet g r c (some { t with state := s })
  | none => g

/-- `Board.deselectTile` (source lines 127-132): reset the selected
tile's state to `Idle` and clear the selection. -/
def deselectTile (b : Board) : Board :=
  match b.selected with
  | none => b
  | some (r, c) => { b with grid := markStateAt b.grid r c TileState.Idle, selected := none }

/-- `Board.selectTile` (source lines 112-122). -/
def selectTile (b : Board) (row col : Int) : Board :=
  match b.getTile row col with
  | none => b
  | some t =>
    if b.isProcessing then b
    else
      let b1 :=
        match b.selected with
        | some (r, c) => { b with grid := markStateAt b.grid r c TileState.Idle }
        | none => b
      { b1 with
        grid := markStateAt b1.grid t.row t.col TileState.Selected,
        selected := some (t.row, t.col) }

/-- The adjacency test of `trySwap` (source lines 148-153):
`dx = |col1 - col2|`, `dy = |row1 - row2|`, requiring exactly one step
on exactly one axis. -/
def adjacentReq (p1 p2 : Int × Int) : Bool :=
  let dx := (p1.2 - p2.2).natAbs
  let dy := (p1.1 - p2.1).natAbs
  (dx == 1 && dy == 0) || (dx == 0 && dy == 1)

/-- Re-point the selection when the tiles at the two given cells trade
places: the source's `selectedTile` is an object reference and follows
the tile object. -/
def swapSel (sel : Option (Nat × Nat)) (p q : Nat × Nat) : Option (Nat × Nat) :=
  if sel = some p then some q else if sel = some q then some p else sel

/-- `Board.swapTilesLogical` (source lines 210-233): exchange the two
tiles' grid cells — addressed through the tiles' own `row`/`col`
fields — and update those fields.  (The target screen positions it also
refreshes are visual-only and not modelled.) -/
def swapTilesLogical (g : Grid) (t1 t2 : Tile) : Grid :=
  let t1' := { t1 with row := t2.row, col := t2.col }
  let t2' := { t2 with row := t1.row, col := t1.col }
  gridSet (gridSet g t1.row t1.col (some t2')) t2.row t2.col (some t1')

/-- The synchronous body of `Board.trySwap` (source lines 144-205),
returning its boolean result and the board state at return time.  The
deferred `processMatches` / swap-back continuations it schedules are
modelled separately (`cascadeRun`); `startMoveAnimation` on a tile sets
that tile's state to `Swapping`. -/
def trySwap (b : Board) (p1 p2 : Int × Int) : Bool × Board :=
  if b.isProcessing then (false, b)
  else if !(adjacentReq p1 p2) then (false, b)
  else
    match b.getTile p1.1 p1.2, b.getTile p2.1 p2.2 with
    | some t1, some t2 =>
      let b1 : Board :=
        { b with
          grid := swapTilesLogical b.grid t1 t2,
          selected := swapSel b.selected (t1.row, t1.col) (t2.row, t2.col) }
      let ms := findMatches b1
      if ms.isEmpty then
        -- invalid swap: swap straight back (the tile objects now carry
        -- the exchanged positions), then both tiles play the rejected
        -- swap animation
        let t1s := { t1 with row := t2.row, col := t2.col }
        let t2s := { t2 with row := t1.row, col := t1.col }
        let b2 : Board :=
          { b1 with
            grid := swapTilesLogical b1.grid t1s t2s,
            selected := swapSel b1.selected (t1s.row, t1s.col) (t2s.row, t2s.col) }
        let g := markStateAt (markStateAt b2.grid t1.row t1.col TileState.Swapping)
          t2.row t2.col TileState.Swapping
        (false, { b2 with grid := g })
      else
        -- valid swap: commit
        let b2 := deselectTile { b1 with isProcessing := true, comboCount := 0 }
        let g := markStateAt (markStateAt b2.grid t2.row t2.col TileState.Swapping)
          t1.row t1.col TileState.Swapping
        (true, { b2 with grid := g })
    | _, _ => (false, b)

/-! ## Destroy, gravity, spawn, cascade (source lines 314-430) -/

/-- Index-aware cell map over a grid (helper for position-dependent
updates). -/
def gridCellsOnward (f : Nat → Nat → Option Tile → Option Tile) :
    Nat → Grid → Grid
  | _, [] => []
  | r, row :: rest =>
    (List.zipWith (fun c cell => f r c cell) (List.range row.length) row) ::
      gridCellsOnward f (r + 1) rest

/-- Index-aware cell map starting at row 0. -/
def gridMapIdx (f : Nat → Nat → Option Tile → Option Tile) (g : Grid) : Grid :=
  gridCellsOnward f 0 g

/-- The destroy phase of `processMatches` (source lines 322-337): every
position of any match in the pass — the source's de-duplicating
`toDestroy` string set — starts a destroy animation.  Setting a state
per distinct position equals setting it per cell that occurs in the
union. -/
def markDestroy (b : Board) (ms : List Match) : Board :=
  let ps := ms.foldr (fun m acc => m.tiles ++ acc) []
  { b with
    grid := gridMapIdx
      (fun r c cell =>
        if ps.contains (r, c) then
          cell.map (fun t => { t with state := TileState.Destroying })
        else cell)
      b.grid }

/-- One cell of `removeDestroyedTiles`: a destroying tile's cell is
cleared. -/
def removeCell (cell : Option Tile) : Option Tile :=
  match cell with
  | some t => if t.isDestroying then none else some t
  | none => none

/-- `Board.removeDestroyedTiles` (source lines 349-358): clear every
cell whose tile is destroying. -/
def removeDestroyedTiles (b : Board) : Board :=
  { b with grid := b.grid.map (fun row => row.map removeCell) }

/-- The bottom-to-top compaction scan of `applyGravity` for one column
(source lines 366-386).  `cells` is the column listed bottom row first,
`r` the row index of its head cell and `e` the empty-space count so
far.  An encountered tile with `e > 0` empties below it moves down `e`
cells — `setBoardPosition(row + e, col)` and a fall animation — which
lands it directly on top of the tiles already compacted, so the scan
returns the compacted tiles (bottom first) plus the final empty count.
-/
def compactColScan (colIdx : Nat) : List (Option Tile) → Nat → Nat → List Tile × Nat
  | [], _, e => ([], e)
  | none :: rest, r, e => compactColScan colIdx rest (r - 1) (e + 1)
  | some t :: rest, r, e =>
    let t' :=
      if 0 < e then { t with row := r + e, col := colIdx, state := TileState.Falling }
      else t
    (t' :: (compactColScan colIdx rest (r - 1) e).1,
     (compactColScan colIdx rest (r - 1) e).2)

/-- The spawn loop of `applyGravity` for one column (source lines
389-398): the `i`-th spawned tile fills row `e - 1 - i`, with a fresh
uniform random type and a spawn animation.  Listed bottom first (the
order in which they sit on top of the compacted tiles). -/
def spawnTiles (rng : Nat → Nat) (k colIdx e : Nat) : List Tile :=
  (List.range e).map (fun i =>
    { type := rng (k + i) % TILE_TYPE_COUNT
      state := TileState.Spawning
      row := e - 1 - i
      col := colIdx })

/-- Column `c` of a grid, top to bottom. -/
def getCol (g : Grid) (c : Nat) : List (Option Tile) :=
  g.map (fun row => (row.get? c).getD none)

/-- Replace column `c` of a grid (top to bottom). -/
def setCol (g : Grid) (c : Nat) (cells : List (Option Tile)) : Grid :=
  List.zipWith (fun row cell => row.set c cell) g cells

/-- `applyGravity` on one column: compact, then fill the vacated top
cells with spawned tiles.  Returns the new column (top to bottom) and
the number of random draws consumed. -/
def applyGravityCol (rng : Nat → Nat) (k colIdx : Nat)
    (cells : List (Option Tile)) : List (Option Tile) × Nat :=
  let (ts, e) := compactColScan colIdx cells.reverse (BOARD_ROWS - 1) 0
  (((ts ++ spawnTiles rng k colIdx e).map some).reverse, e)

/-- The per-column step of `applyGravity`'s loop, threading the grid and
the random draw counter. -/
def gravityStep (rng : Nat → Nat) (st : Grid × Nat) (c : Nat) : Grid × Nat :=
  (setCol st.1 c (applyGravityCol rng st.2 c (getCol st.1 c)).1,
   st.2 + (applyGravityCol rng st.2 c (getCol st.1 c)).2)

/-- `Board.applyGravity` (source lines 363-399): process the columns
left to right, threading the random draw counter.  (`maxFallDistance`
only sizes the follow-up timer and is not modelled.) -/
def applyGravity (rng : Nat → Nat) (k : Nat) (b : Board) : Board × Nat :=
  let st := (List.range BOARD_COLS).foldl (gravityStep rng) (b.grid, k)
  ({ b with grid := st.1 }, st.2)

/-- `Tile.update` past the end of an animation runs `finishAnimation`,
which returns a non-destroying animating tile to `Idle` (source
`Tile.ts` lines 144-147 and 195-204). -/
def finishTile (t : Tile) : Tile :=
  if t.isAnimating && !t.isDestroying then { t with state := TileState.Idle } else t

/-- A full-duration animation tick over the whole board.  Every phase
timer of the board waits at least the full animation duration, so by
the time it fires the frame ticks have completed the animations. -/
def finishAnimations (b : Board) : Board :=
  { b with grid := b.grid.map (fun row => row.map (Option.map finishTile)) }

/-- One destroy → remove → gravity/spawn phase sequence, ending at the
point where `checkCascade`'s timer fires (animations completed). -/
def cascadePass (rng : Nat → Nat) (k : Nat) (b : Board) (ms : List Match) :
    Board × Nat :=
  let b1 := markDestroy b ms
  let b2 := removeDestroyedTiles b1
  let pr := applyGravity rng k b2
  (finishAnimations pr.1, pr.2)

/-- Result of running the cascade resolution loop. -/
structure CascadeResult where
  board : Board
  events : List (List Match × Bool)
  settled : Bool
  rngIdx : Nat
deriving Repr

/-- The `processMatches` / `checkCascade` loop (source lines 314-344 and
415-430) on a committed swap's matches: each pass increments the combo
counter, emits a match event with the `comboCount > 1` combo flag, runs
the destroy/gravity/spawn phases, re-detects; on no new matches the
board settles (`isProcessing := false`, combo reset).  `fuel` bounds the
number of passes; a run that exhausts it reports `settled = false`. -/
def cascadeRun (rng : Nat → Nat) :
    Nat → Nat → Board → List Match → CascadeResult
  | 0, k, b, _ => ⟨b, [], false, k⟩
  | fuel + 1, k, b, ms =>
    let b0 := { b with comboCount := b.comboCount + 1 }
    let ev := (ms, decide (1 < b0.comboCount))
    let pr := cascadePass rng k b0 ms
    let ms' := findMatches pr.1
    if ms'.isEmpty then
      ⟨{ pr.1 with isProcessing := false, comboCount := 0 }, [ev], true, pr.2⟩
    else
      let r := cascadeRun rng fuel pr.2 pr.1 ms'
      ⟨r.board, ev :: r.events, r.settled, r.rngIdx⟩

/-! ## Valid-move check and reshuffle (source lines 532-627) -/

/-- One directional counting loop of `checkMatchAt` (source lines
583-584 and 590-591): walk from `pos` in direction `step` while the
tile there has type `ty`, counting the steps.  The walk leaves the
board after at most `BOARD_ROWS`/`BOARD_COLS` cells; the fuel covers
that. -/
def countRun (b : Board) (ty : Nat) : Nat → Int × Int → Int × Int → Nat
  | 0, _, _ => 0
  | n + 1, pos, step =>
    match b.getTile pos.1 pos.2 with
    | some t =>
      if t.type == ty then 1 + countRun b ty n (pos.1 + step.1, pos.2 + step.2) step
      else 0
    | none => 0

/-- `Board.checkMatchAt` (source lines 580-594). -/
def checkMatchAt (b : Board) (row col : Nat) (ty : Nat) : Bool :=
  let hCount := 1 + countRun b ty BOARD_COLS ((row : Int), (col : Int) - 1) (0, -1)
    + countRun b ty BOARD_COLS ((row : Int), (col : Int) + 1) (0, 1)
  if MIN_MATCH_LENGTH ≤ hCount then true
  else
    let vCount := 1 + countRun b ty BOARD_ROWS ((row : Int) - 1, (col : Int)) (-1, 0)
      + countRun b ty BOARD_ROWS ((row : Int) + 1, (col : Int)) (1, 0)
    decide (MIN_MATCH_LENGTH ≤ vCount)

/-- `Board.wouldMatchAfterSwap` (source lines 555-575): swap the two
grid cells only (no tile-field update), test both end positions, swap
back — so the board handed back to the caller is the input board. -/
def wouldMatchAfterSwap (b : Board) (p1 p2 : Nat × Nat) : Bool :=
  match gridGet b.grid p1.1 p1.2, gridGet b.grid p2.1 p2.2 with
  | some t1, some t2 =>
    let g := gridSet (gridSet b.grid p1.1 p1.2 (some t2)) p2.1 p2.2 (some t1)
    let b' := { b with grid := g }
    checkMatchAt b' p1.1 p1.2 t2.type || checkMatchAt b' p2.1 p2.2 t1.type
  | _, _ => false

/-- `Board.hasValidMoves` (source lines 532-550): some right- or
down-neighbour swap would produce a match. -/
def hasValidMoves (b : Board) : Bool :=
  (List.range BOARD_ROWS).any (fun row =>
    (List.range BOARD_COLS).any (fun col =>
      (decide (col < BOARD_COLS - 1) && wouldMatchAfterSwap b (row, col) (row, col + 1)) ||
      (decide (row < BOARD_ROWS - 1) && wouldMatchAfterSwap b (row, col) (row + 1, col))))

/-- `hasValidMoves` as a state-passing call: `wouldMatchAfterSwap`
restores the two speculatively swapped cells before returning (source
lines 571-572), so the whole query leaves the board unchanged. -/
def hasValidMovesS (b : Board) : Bool × Board :=
  (hasValidMoves b, b)

/-- Swap two positions of a list (the `[types[i], types[j]] =
[types[j], types[i]]` step of `shuffle`). -/
def swapList (l : List Nat) (a b : Nat) : List Nat :=
  match l[a]?, l[b]? with
  | some x, some y => (l.set a y).set b x
  | _, _ => l

/-- The Fisher–Yates loop of `shuffle` (source lines 612-615), with `i`
counting down and one random draw per iteration. -/
def fisherYates (rng : Nat → Nat) : Nat → Nat → List Nat → List Nat
  | _, 0, l => l
  | k, i + 1, l => fisherYates rng (k + 1) i (swapList l (i + 1) (rng k % (i + 2)))

/-- The type-collection loop of `shuffle` (source lines 601-609):
row-major types of the occupied cells. -/
def collectTypes (g : Grid) : List Nat :=
  (g.map (fun row => row.filterMap (fun cell => cell.map (fun t => t.type)))).flatten

/-- The reassignment loop of `shuffle` (source lines 618-626) on one
row: each occupied cell consumes the next type. -/
def assignRow : List (Option Tile) → List Nat → List (Option Tile) × List Nat
  | [], ts => ([], ts)
  | none :: rest, ts =>
    let (row, ts') := assignRow rest ts
    (none :: row, ts')
  | some t :: rest, ts =>
    let t' := { t with type := ts.headD t.type }
    let (row, ts') := assignRow rest ts.tail
    (some t' :: row, ts')

/-- The reassignment loop over all rows, threading the type list. -/
def assignTypes : Grid → List Nat → Grid
  | [], _ => []
  | row :: rest, ts =>
    let (row', ts') := assignRow row ts
    row' :: assignTypes rest ts'

/-- `Board.shuffle` (source lines 599-627): collect every tile's type,
permute the list, reassign in the same traversal order. -/
def shuffle (rng : Nat → Nat) (k : Nat) (b : Board) : Board :=
  let types := collectTypes b.grid
  let shuffled := fisherYates rng k (types.length - 1) types
  { b with grid := assignTypes b.grid shuffled }

/-! ## Board initialization (source lines 42-97) -/

/-- Cell lookup in the partially built tile matrix. -/
def lookupBuilt (rows : List (List Tile)) (r c : Nat) : Option Tile :=
  (rows.get? r).bind (fun row => row.get? c)

/-- `Board.wouldCreateMatch` (source lines 77-97) during construction:
`rows` are the fully built rows above, `cur` the current row built so
far (the source's partially filled `this.grid[row]`). -/
def wouldCreateMatch (rows : List (List Tile)) (cur : List Tile)
    (row col ty : Nat) : Bool :=
  (decide (2 ≤ col) &&
    (match cur.get? (col - 1), cur.get? (col - 2) with
     | some l1, some l2 => l1.type == ty && l2.type == ty
     | _, _ => false)) ||
  (decide (2 ≤ row) &&
    (match lookupBuilt rows (row - 1) col, lookupBuilt rows (row - 2) col with
     | some u1, some u2 => u1.type == ty && u2.type == ty
     | _, _ => false))

/-- `Board.getRandomTileType` (source lines 57-72), generalized over the
tile-type count `n` (the source reads the constant `TILE_TYPE_COUNT`):
pick uniformly among the types that create no match; if every type
would create a match — possible only for degenerate `n` — fall back to
an unconstrained uniform pick. -/
def getRandomTileTypeGen (n : Nat) (rows : List (List Tile)) (cur : List Tile)
    (row col : Nat) (rng : Nat → Nat) (k : Nat) : Nat :=
  let avail := (List.range n).filter (fun ty => !wouldCreateMatch rows cur row col ty)
  if avail.isEmpty then rng k % n
  else avail.getD (rng k % avail.length) 0

/-- `getRandomTileType` at the source's `TILE_TYPE_COUNT`. -/
def getRandomTileType (rows : List (List Tile)) (cur : List Tile)
    (row col : Nat) (rng : Nat → Nat) (k : Nat) : Nat :=
  getRandomTileTypeGen TILE_TYPE_COUNT rows cur row col rng k

/-- The inner column loop of `initializeBoard` (source lines 47-50):
extend the current row cell by cell; `cur.length` is the column being
filled. -/
def buildRowAux (rng : Nat → Nat) (rows : List (List Tile)) (row : Nat) :
    Nat → Nat → List Tile → List Tile × Nat
  | k, 0, cur => (cur, k)
  | k, n + 1, cur =>
    let col := cur.length
    let ty := getRandomTileType rows cur row col rng k
    buildRowAux rng rows row (k + 1) n (cur ++ [⟨ty, TileState.Idle, row, col⟩])

/-- The outer row loop of `initializeBoard` (source lines 45-51). -/
def buildRowsAux (rng : Nat → Nat) : Nat → Nat → List (List Tile) →
    List (List Tile) × Nat
  | k, 0, rows => (rows, k)
  | k, n + 1, rows =>
    let pr := buildRowAux rng rows rows.length k BOARD_COLS []
    buildRowsAux rng pr.2 n (rows ++ [pr.1])

/-- `Board.initializeBoard` (source lines 42-52): the freshly generated
tile matrix. -/
def initializeBoard (rng : Nat → Nat) : List (List Tile) :=
  (buildRowsAux rng 0 BOARD_ROWS []).1

/-- The board produced by the constructor (source lines 34-37). -/
def initBoard (rng : Nat → Nat) : Board :=
  ⟨(initializeBoard rng).map (fun row => row.map some), none, false, 0⟩

/-! ## Concrete boards for witnesses and counterexamples -/

/-- An idle, coherent 8×8 board whose cell `(r, c)` has type `f r c`. -/
def mkBoard (f : Nat → Nat → Nat) : Board :=
  ⟨(List.range BOARD_ROWS).map (fun r =>
      (List.range BOARD_COLS).map (fun c => some ⟨f r c, TileState.Idle, r, c⟩)),
    none, false, 0⟩

/-- A run-free background type pattern: horizontal neighbours differ by
1 mod 3 and vertical neighbours by 2 mod 3, so no two adjacent cells
are equal. -/
def baseTy (r c : Nat) : Nat := 3 + (2 * r + c) % 3

/-- Background with a horizontal 3-run and a vertical 3-run of type 0
crossing at `(0, 0)`. -/
def crossBoard : Board :=
  mkBoard (fun r c => if (r = 0 ∧ c < 3) ∨ (c = 0 ∧ r < 3) then 0 else baseTy r c)

/-- Background with a maximal horizontal run of exactly 4 (type 0, row
2, columns 1–4). -/
def fourRunBoard : Board :=
  mkBoard (fun r c => if r = 2 ∧ 1 ≤ c ∧ c ≤ 4 then 0 else baseTy r c)

/-- Background with a horizontal 3-run of type 0 on the bottom row. -/
def bottomRunBoard : Board :=
  mkBoard (fun r c => if r = 7 ∧ c < 3 then 0 else baseTy r c)

/-- Random stream for the two-pass cascade scenario: the first three
spawns are all type 0 (creating one follow-up match), later spawns take
distinct non-matching types. -/
def rngTwoPass : Nat → Nat := fun k => if k < 3 then 0 else 3 + k % 3

/-- Random stream for the one-pass cascade scenario: the three spawned
tiles take three distinct types, so the board settles after a single
pass. -/
def rngOnePass : Nat → Nat := fun k => k % 3

/-! ## C6: detection is pure and idempotent -/

/-- C6: calling `findMatches` twice in succession on the same grid with
no intervening mutation returns identical match lists, and the call
leaves the board (grid and all tiles) unchanged.  Purity is established
by the translation: the source method only writes its local `matches`
and `matched` arrays. -/
theorem findMatches_pure_idempotent (b : Board) :
    (findMatchesS b).2 = b ∧
      (findMatchesS (findMatchesS b).2).1 = (findMatchesS b).1 :=
  ⟨rfl, rfl⟩

/-! ## C3: rejected swap requests mutate nothing -/

/-- C3: when the request is made while processing, the two positions
are not exactly one step apart on a single axis, or either position
holds no tile (in particular when it is out of bounds), `trySwap`
returns `false` with the board — grid, selection, combo counter,
processing flag — exactly as it was. -/
theorem trySwap_reject (b : Board) (p1 p2 : Int × Int)
    (h : b.isProcessing = true ∨ adjacentReq p1 p2 = false ∨
      b.getTile p1.1 p1.2 = none ∨ b.getTile p2.1 p2.2 = none) :
    trySwap b p1 p2 = (false, b) := by
  unfold trySwap
  rcases h with h | h | h | h
  · simp [h]
  · cases hp : b.isProcessing
    · simp [h]
    · simp
  · cases hp : b.isProcessing
    · cases ha : adjacentReq p1 p2
      · simp [ha]
      · simp [ha, h]
    · simp
  · cases hp : b.isProcessing
    · cases ha : adjacentReq p1 p2
      · simp [ha]
      · cases h1 : b.getTile p1.1 p1.2 <;> simp [ha, h, h1]
    · simp

/-- Witness for C3: an out-of-bounds request (row −1) on a concrete
board is rejected without any state change. -/
theorem trySwap_reject_witness :
    crossBoard.getTile (-1) 0 = none ∧
      trySwap crossBoard (-1, 0) (0, 0) = (false, crossBoard) :=
  ⟨by decide,
   trySwap_reject crossBoard (-1, 0) (0, 0) (Or.inr (Or.inr (Or.inl (by decide))))⟩

/-! ## C9: gravity compaction conserves each column's tiles -/

theorem compactColScan_types (colIdx : Nat) :
    ∀ (cells : List (Option Tile)) (r e : Nat),
      (compactColScan colIdx cells r e).1.map Tile.type
        = (cells.filterMap id).map Tile.type := by
  intro cells
  induction cells with
  | nil => intro r e; rfl
  | cons cell rest ih =>
    intro r e
    cases cell with
    | none => simpa [compactColScan] using ih (r - 1) (e + 1)
    | some t =>
      by_cases he : 0 < e <;>
        simp [compactColScan, he, ih (r - 1) e]

theorem getCol_removeDestroyed (b : Board) (c : Nat) :
    getCol (removeDestroyedTiles b).grid c = (getCol b.grid c).map removeCell := by
  unfold removeDestroyedTiles getCol
  simp only [List.map_map]
  refine List.map_congr_left (fun row _ => ?_)
  simp only [Function.comp]
  rw [List.get?_map]
  cases row.get? c with
  | none => simp [removeCell]
  | some cell => simp

theorem filterMap_removeCell (l : List (Option Tile)) :
    (l.map removeCell).filterMap id
      = (l.filterMap id).filter (fun t => !t.isDestroying) := by
  induction l with
  | nil => rfl
  | cons cell rest ih =>
    cases cell with
    | none => simpa [removeCell] using ih
    | some t => cases h : t.isDestroying <;> simp [removeCell, h, ih]

/-- C9: for every column, after destroyed tiles are removed and the
gravity compaction scan has run — but before spawn-fill — the multiset
of tile types in the column equals the multiset of the column's
non-destroyed tiles from before: tiles are only reordered, none is
altered in type, created, or lost.  (`r`, `e` are the scan's starting
row index and empty count; the pipeline uses `BOARD_ROWS - 1` and 0.) -/
theorem gravity_conserves_column_types (b : Board) (c r e : Nat) :
    ((compactColScan c (getCol (removeDestroyedTiles b).grid c).reverse r e).1.map
        Tile.type).Perm
      ((((getCol b.grid c).filterMap id).filter (fun t => !t.isDestroying)).map
        Tile.type) := by
  rw [compactColScan_types, getCol_removeDestroyed, List.filterMap_reverse,
    filterMap_removeCell, List.map_reverse]
  exact List.reverse_perm _

/-! ## C7: shuffle permutes types only -/

theorem cons_set_perm (x : Nat) :
    ∀ (t : List Nat) (n y : Nat), t[n]? = some y →
      (y :: t.set n x).Perm (x :: t) := by
  intro t
  induction t with
  | nil => intro n y h; cases h
  | cons z s ih =>
    intro n y h
    cases n with
    | zero =>
      rw [List.getElem?_cons_zero] at h
      cases h
      exact List.Perm.swap _ _ _
    | succ n =>
      rw [List.getElem?_cons_succ] at h
      have step1 : (y :: z :: s.set n x).Perm (z :: y :: s.set n x) :=
        List.Perm.swap z y _
      have step2 : (z :: y :: s.set n x).Perm (z :: x :: s) :=
        List.Perm.cons z (ih n y h)
      have step3 : (z :: x :: s).Perm (x :: z :: s) := List.Perm.swap x z _
      exact (step1.trans step2).trans step3

theorem swapList_perm : ∀ (l : List Nat) (a b : Nat), (swapList l a b).Perm l := by
  intro l
  induction l with
  | nil => intro a b; cases a <;> cases b <;> exact List.Perm.refl _
  | cons x t ih =>
    intro a b
    cases a with
    | zero =>
      cases b with
      | zero =>
        unfold swapList
        simp
      | succ n =>
        unfold swapList
        cases h : t[n]? with
        | none => simp [h]
        | some y => simpa [h] using cons_set_perm x t n y h
    | succ m =>
      cases b with
      | zero =>
        unfold swapList
        cases h : t[m]? with
        | none => simp [h]
        | some y => simpa [h] using cons_set_perm x t m y h
      | succ n =>
        have hstep : swapList (x :: t) (m + 1) (n + 1) = x :: swapList t m n := by
          unfold swapList
          cases h1 : t[m]? <;> cases h2 : t[n]? <;> simp [h1, h2]
        rw [hstep]
        exact List.Perm.cons x (ih m n)

theorem fisherYates_perm (rng : Nat → Nat) :
    ∀ (i k : Nat) (l : List Nat), (fisherYates rng k i l).Perm l := by
  intro i
  induction i with
  | zero => intro k l; exact List.Perm.refl _
  | succ i ih =>
    intro k l
    exact (ih (k + 1) _).trans (swapList_perm l (i + 1) (rng k % (i + 2)))

/-- A tile with its type forgotten: what `shuffle` must leave alone. -/
def Tile.shape (t : Tile) : Tile := { t with type := 0 }

/-- The types of one row's occupied cells, in order. -/
def rowTypes (row : List (Option Tile)) : List Nat :=
  row.filterMap (fun cell => cell.map Tile.type)

theorem collectTypes_eq (g : Grid) : collectTypes g = (g.map rowTypes).flatten := rfl

theorem assignRow_spec :
    ∀ (row : List (Option Tile)) (ts : List Nat),
      (rowTypes row).length ≤ ts.length →
      rowTypes (assignRow row ts).1 = ts.take (rowTypes row).length ∧
        (assignRow row ts).2 = ts.drop (rowTypes row).length ∧
        ((assignRow row ts).1.map (Option.map Tile.shape) = row.map (Option.map Tile.shape)) := by
  intro row
  induction row with
  | nil => intro ts h; exact ⟨rfl, rfl, rfl⟩
  | cons cell rest ih =>
    intro ts h
    cases cell with
    | none =>
      have := ih ts (by simpa [rowTypes] using h)
      simp only [assignRow, rowTypes, List.filterMap_cons] at *
      exact ⟨this.1, this.2.1, by simp [this.2.2]⟩
    | some t =>
      cases ts with
      | nil => simp [rowTypes] at h
      | cons u ts' =>
        have hlen : (rowTypes rest).length ≤ ts'.length := by
          simpa [rowTypes] using h
        have := ih ts' hlen
        refine ⟨?_, ?_, ?_⟩
        · simp [assignRow, rowTypes, List.filterMap_cons, this.1, rowTypes] at *
          simp [this.1]
        · simpa [assignRow, rowTypes, List.filterMap_cons] using this.2.1
        · simp [assignRow, Tile.shape, this.2.2]

theorem assignTypes_spec :
    ∀ (g : Grid) (ts : List Nat),
      (collectTypes g).length ≤ ts.length →
      collectTypes (assignTypes g ts) = ts.take (collectTypes g).length ∧
        ((assignTypes g ts).map (fun row => row.map (Option.map Tile.shape))
          = g.map (fun row => row.map (Option.map Tile.shape))) := by
  intro g
  induction g with
  | nil => intro ts h; exact ⟨rfl, rfl⟩
  | cons row rest ih =>
    intro ts h
    have hrow : (rowTypes row).length ≤ ts.length := by
      have : (rowTypes row).length ≤ (collectTypes (row :: rest)).length := by
        simp [collectTypes_eq]
      omega
    obtain ⟨h1, h2, h3⟩ := assignRow_spec row ts hrow
    have hrest : (collectTypes rest).length ≤ ((assignRow row ts).2).length := by
      rw [h2]
      have : (collectTypes (row :: rest)).length
          = (rowTypes row).length + (collectTypes rest).length := by
        simp [collectTypes_eq]
      simp only [List.length_drop]
      omega
    obtain ⟨ih1, ih2⟩ := ih _ hrest
    constructor
    · simp only [assignTypes, collectTypes_eq, List.map_cons, List.flatten_cons] at *
      rw [h1, ih1, h2, ← List.take_add]
      simp [List.length_append]
    · simp only [assignTypes, List.map_cons]
      rw [h3, ih2]

/-- C7: `shuffle` permutes only the type fields: the multiset of tile
types over the whole grid is unchanged, and every tile keeps its cell,
row, col (and state) — the grid with types forgotten is unchanged, as
are selection, processing flag and combo counter. -/
theorem shuffle_permutes_types_only (b : Board) (rng : Nat → Nat) (k : Nat) :
    (collectTypes (shuffle rng k b).grid).Perm (collectTypes b.grid) ∧
      (shuffle rng k b).grid.map (fun row => row.map (Option.map Tile.shape))
        = b.grid.map (fun row => row.map (Option.map Tile.shape)) ∧
      (shuffle rng k b).selected = b.selected ∧
      (shuffle rng k b).isProcessing = b.isProcessing ∧
      (shuffle rng k b).comboCount = b.comboCount := by
  have hperm := fisherYates_perm rng ((collectTypes b.grid).length - 1) k
    (collectTypes b.grid)
  have hlen : (collectTypes b.grid).length
      ≤ (fisherYates rng k ((collectTypes b.grid).length - 1)
          (collectTypes b.grid)).length := le_of_eq hperm.length_eq.symm
  obtain ⟨h1, h2⟩ := assignTypes_spec b.grid _ hlen
  refine ⟨?_, h2, rfl, rfl, rfl⟩
  show (collectTypes (assignTypes b.grid _)).Perm _
  rw [h1, List.take_of_length_le (le_of_eq hperm.length_eq)]
  exact hperm

/-! ## C5: initialization produces a full, match-free board -/

/-- `len` adjacent cells of a line starting at `c0` all hold tiles of
one common type (animation state irrelevant): a type run. -/
def RunOfTypes (line : List (Option Tile)) (c0 len : Nat) : Prop :=
  ∃ ty, ∀ k < len, ∃ t, cellAt line (c0 + k) = some t ∧ t.type = ty

theorem getRandomTileTypeGen_fallback (n : Nat) (rows : List (List Tile))
    (cur : List Tile) (row col : Nat) (rng : Nat → Nat) (k : Nat)
    (h : (List.range n).filter (fun ty => !wouldCreateMatch rows cur row col ty) = []) :
    getRandomTileTypeGen n rows cur row col rng k = rng k % n := by
  unfold getRandomTileTypeGen
  simp [h]

theorem getRandomTileTypeGen_mem (n : Nat) (rows : List (List Tile))
    (cur : List Tile) (row col : Nat) (rng : Nat → Nat) (k : Nat)
    (h : (List.range n).filter (fun ty => !wouldCreateMatch rows cur row col ty) ≠ []) :
    getRandomTileTypeGen n rows cur row col rng k
      ∈ (List.range n).filter (fun ty => !wouldCreateMatch rows cur row col ty) := by
  unfold getRandomTileTypeGen
  set avail := (List.range n).filter (fun ty => !wouldCreateMatch rows cur row col ty)
    with havail
  have hlen : 0 < avail.length := List.length_pos.mpr h
  have hidx : rng k % avail.length < avail.length := Nat.mod_lt _ hlen
  simp only [List.isEmpty_iff, h, if_neg]
  rw [List.getD_eq_getElem _ _ hidx]
  exact List.getElem_mem _

theorem wouldCreateMatch_excluded (rows : List (List Tile)) (cur : List Tile)
    (row col : Nat) :
    ∃ x y, ∀ ty, wouldCreateMatch rows cur row col ty = true → ty = x ∨ ty = y := by
  refine ⟨(cur.get? (col - 1)).elim 0 Tile.type,
    (lookupBuilt rows (row - 1) col).elim 0 Tile.type, ?_⟩
  intro ty h
  unfold wouldCreateMatch at h
  rcases Bool.or_eq_true_iff.mp h with h | h
  · left
    obtain ⟨-, h⟩ := Bool.and_eq_true_iff.mp h
    cases h1 : cur.get? (col - 1) with
    | none => rw [h1] at h; cases h2 : cur.get? (col - 2) <;> rw [h2] at h <;> cases h
    | some l1 =>
      rw [h1] at h
      cases h2 : cur.get? (col - 2) with
      | none => rw [h2] at h; cases h
      | some l2 =>
        rw [h2] at h
        obtain ⟨h3, -⟩ := Bool.and_eq_true_iff.mp h
        simp only [Option.elim]
        exact (beq_iff_eq.mp h3).symm
  · right
    obtain ⟨-, h⟩ := Bool.and_eq_true_iff.mp h
    cases h1 : lookupBuilt rows (row - 1) col with
    | none => rw [h1] at h; cases h2 : lookupBuilt rows (row - 2) col <;> rw [h2] at h <;> cases h
    | some u1 =>
      rw [h1] at h
      cases h2 : lookupBuilt rows (row - 2) col with
      | none => rw [h2] at h; cases h
      | some u2 =>
        rw [h2] at h
        obtain ⟨h3, -⟩ := Bool.and_eq_true_iff.mp h
        simp only [Option.elim]
        exact (beq_iff_eq.mp h3).symm

theorem avail_nonempty (rows : List (List Tile)) (cur : List Tile) (row col : Nat) :
    (List.range TILE_TYPE_COUNT).filter
      (fun ty => !wouldCreateMatch rows cur row col ty) ≠ [] := by
  obtain ⟨x, y, hxy⟩ := wouldCreateMatch_excluded rows cur row col
  have hex : ∃ t, t < TILE_TYPE_COUNT ∧ t ≠ x ∧ t ≠ y := by
    by_cases c0 : 0 ≠ x ∧ 0 ≠ y
    · exact ⟨0, by norm_num [TILE_TYPE_COUNT], c0.1, c0.2⟩
    by_cases c1 : 1 ≠ x ∧ 1 ≠ y
    · exact ⟨1, by norm_num [TILE_TYPE_COUNT], c1.1, c1.2⟩
    push_neg at c0 c1
    refine ⟨2, by norm_num [TILE_TYPE_COUNT], ?_, ?_⟩ <;> omega
  obtain ⟨t, ht, htx, hty⟩ := hex
  have hw : wouldCreateMatch rows cur row col t = false := by
    cases hb : wouldCreateMatch rows cur row col t with
    | false => rfl
    | true => rcases hxy t hb with h | h <;> [exact absurd h htx; exact absurd h hty]
  exact List.ne_nil_of_mem (List.mem_filter.mpr ⟨List.mem_range.mpr ht, by simp [hw]⟩)

theorem getRandomTileType_avoids (rows : List (List Tile)) (cur : List Tile)
    (row col : Nat) (rng : Nat → Nat) (k : Nat) :
    wouldCreateMatch rows cur row col (getRandomTileType rows cur row col rng k) = false := by
  have h := getRandomTileTypeGen_mem TILE_TYPE_COUNT rows cur row col rng k
    (avail_nonempty rows cur row col)
  have := (List.mem_filter.mp h).2
  simpa using this

theorem buildRowAux_append (rng : Nat → Nat) (rows : List (List Tile)) (row : Nat) :
    ∀ (n k : Nat) (cur : List Tile),
      ∃ ext, (buildRowAux rng rows row k n cur).1 = cur ++ ext := by
  intro n
  induction n with
  | zero => intro k cur; exact ⟨[], by simp [buildRowAux]⟩
  | succ n ih =>
    intro k cur
    obtain ⟨ext, hext⟩ := ih (k + 1)
      (cur ++ [⟨getRandomTileType rows cur row cur.length rng k, TileState.Idle, row, cur.length⟩])
    exact ⟨_, by rw [buildRowAux, hext, List.append_assoc]⟩

theorem buildRowAux_length (rng : Nat → Nat) (rows : List (List Tile)) (row : Nat) :
    ∀ (n k : Nat) (cur : List Tile),
      (buildRowAux rng rows row k n cur).1.length = cur.length + n := by
  intro n
  induction n with
  | zero => intro k cur; simp [buildRowAux]
  | succ n ih =>
    intro k cur
    rw [buildRowAux, ih]
    simp
    omega

theorem buildRowAux_cell (rng : Nat → Nat) (rows : List (List Tile)) (row : Nat) :
    ∀ (n k : Nat) (cur : List Tile) (j : Nat), cur.length ≤ j → j < cur.length + n →
      ∃ t, (buildRowAux rng rows row k n cur).1.get? j = some t ∧ t.row = row ∧
        t.col = j ∧ t.state = TileState.Idle ∧
        wouldCreateMatch rows ((buildRowAux rng rows row k n cur).1.take j) row j
          t.type = false := by
  intro n
  induction n with
  | zero => intro k cur j h1 h2; omega
  | succ n ih =>
    intro k cur j h1 h2
    rw [buildRowAux]
    set t0 : Tile :=
      ⟨getRandomTileType rows cur row cur.length rng k, TileState.Idle, row, cur.length⟩
      with ht0
    rcases Nat.eq_or_lt_of_le h1 with heq | hlt
    · obtain ⟨ext, hext⟩ := buildRowAux_append rng rows row n (k + 1) (cur ++ [t0])
      refine ⟨t0, ?_, rfl, heq, rfl, ?_⟩
      · rw [hext, ← heq, List.append_assoc, List.get?_append_right (le_refl _)]
        simp
      · rw [hext, ← heq, List.append_assoc, List.take_left]
        exact getRandomTileType_avoids rows cur row cur.length rng k
    · have hcur : (cur ++ [t0]).length ≤ j := by simp; omega
      have hbound : j < (cur ++ [t0]).length + n := by simp; omega
      exact ih (k + 1) (cur ++ [t0]) j hcur hbound

theorem buildRowsAux_append (rng : Nat → Nat) :
    ∀ (n k : Nat) (rows : List (List Tile)),
      ∃ ext, (buildRowsAux rng k n rows).1 = rows ++ ext := by
  intro n
  induction n with
  | zero => intro k rows; exact ⟨[], by simp [buildRowsAux]⟩
  | succ n ih =>
    intro k rows
    rw [buildRowsAux]
    obtain ⟨ext, hext⟩ := ih (buildRowAux rng rows rows.length k BOARD_COLS []).2
      (rows ++ [(buildRowAux rng rows rows.length k BOARD_COLS []).1])
    exact ⟨_, by rw [hext, List.append_assoc]⟩

theorem buildRowsAux_row (rng : Nat → Nat) :
    ∀ (n k : Nat) (rows : List (List Tile)) (i : Nat), rows.length ≤ i →
      i < rows.length + n →
      ∃ k', (buildRowsAux rng k n rows).1.get? i
        = some (buildRowAux rng ((buildRowsAux rng k n rows).1.take i) i k'
            BOARD_COLS []).1 := by
  intro n
  induction n with
  | zero => intro k rows i h1 h2; omega
  | succ n ih =>
    intro k rows i h1 h2
    rw [buildRowsAux]
    set r0 := (buildRowAux rng rows rows.length k BOARD_COLS []).1 with hr0
    rcases Nat.eq_or_lt_of_le h1 with heq | hlt
    · obtain ⟨ext, hext⟩ := buildRowsAux_append rng n
        (buildRowAux rng rows rows.length k BOARD_COLS []).2 (rows ++ [r0])
      refine ⟨k, ?_⟩
      rw [hext, ← heq, List.append_assoc, List.get?_append_right (le_refl _),
        List.take_left]
      simp [hr0, heq]
    · have hcur : (rows ++ [r0]).length ≤ i := by simp; omega
      have hbound : i < (rows ++ [r0]).length + n := by simp; omega
      exact ih _ (rows ++ [r0]) i hcur hbound

theorem buildRowsAux_rows_len (rng : Nat → Nat) :
    ∀ (n k : Nat) (rows : List (List Tile)),
      (∀ r ∈ rows, r.length = BOARD_COLS) →
      (buildRowsAux rng k n rows).1.length = rows.length + n ∧
        ∀ r ∈ (buildRowsAux rng k n rows).1, r.length = BOARD_COLS := by
  intro n
  induction n with
  | zero => intro k rows h; exact ⟨by simp [buildRowsAux], by simpa [buildRowsAux] using h⟩
  | succ n ih =>
    intro k rows h
    rw [buildRowsAux]
    have hnew : ∀ r ∈ rows ++ [(buildRowAux rng rows rows.length k BOARD_COLS []).1],
        r.length = BOARD_COLS := by
      intro r hr
      rcases List.mem_append.mp hr with hr | hr
      · exact h r hr
      · rcases List.mem_singleton.mp hr with rfl
        simpa using buildRowAux_length rng rows rows.length BOARD_COLS k []
    obtain ⟨hl, hm⟩ := ih _ (rows ++ [(buildRowAux rng rows rows.length k BOARD_COLS []).1]) hnew
    refine ⟨?_, hm⟩
    rw [hl]
    simp
    omega

theorem get?_some_lt {α : Type} {l : List α} {n : Nat} {a : α}
    (h : l.get? n = some a) : n < l.length := by
  rcases List.get?_eq_some.mp h with ⟨h1, -⟩
  exact h1

theorem gridGet_initBoard (rng : Nat → Nat) (r c : Nat) :
    gridGet (initBoard rng).grid r c = lookupBuilt (initializeBoard rng) r c := by
  unfold initBoard gridGet lookupBuilt
  simp only [List.get?_map]
  cases h : (initializeBoard rng).get? r with
  | none => simp
  | some row =>
    simp only [Option.map_some, Option.getD_some, Option.some_bind, List.get?_map]
    cases hx : row[c]? with
    | none => simp [List.get?_eq_getElem?, hx]
    | some t => simp [List.get?_eq_getElem?, hx]

theorem initializeBoard_cell (rng : Nat → Nat) (r c : Nat)
    (hr : r < BOARD_ROWS) (hc : c < BOARD_COLS) :
    ∃ row t k', (initializeBoard rng).get? r = some row ∧
      row = (buildRowAux rng ((initializeBoard rng).take r) r k' BOARD_COLS []).1 ∧
      row.get? c = some t ∧ t.row = r ∧ t.col = c ∧ t.state = TileState.Idle ∧
      wouldCreateMatch ((initializeBoard rng).take r) (row.take c) r c t.type = false := by
  obtain ⟨k', hk'⟩ := buildRowsAux_row rng BOARD_ROWS 0 [] r (Nat.zero_le r) (by simpa)
  obtain ⟨t, ht, htr, htc, hts, htw⟩ :=
    buildRowAux_cell rng ((initializeBoard rng).take r) r BOARD_COLS k' []
      c (Nat.zero_le c) (by simpa)
  exact ⟨_, t, k', hk', rfl, ht, htr, htc, hts, htw⟩

theorem initializeBoard_no_htriple (rng : Nat → Nat) (r c : Nat) (hc2 : 2 ≤ c)
    (t t1 t2 : Tile)
    (h0 : lookupBuilt (initializeBoard rng) r c = some t)
    (h1 : lookupBuilt (initializeBoard rng) r (c - 1) = some t1)
    (h2 : lookupBuilt (initializeBoard rng) r (c - 2) = some t2) :
    ¬(t1.type = t.type ∧ t2.type = t.type) := by
  set R := initializeBoard rng with hR
  obtain ⟨row, hrow⟩ : ∃ row, R.get? r = some row := by
    unfold lookupBuilt at h0
    cases hx : R.get? r with
    | none => rw [hx] at h0; cases h0
    | some row => exact ⟨row, rfl⟩
  have hr : r < BOARD_ROWS := by
    have hlen : R.length = BOARD_ROWS := by
      simpa using (buildRowsAux_rows_len rng BOARD_ROWS 0 [] (by simp)).1
    have := get?_some_lt hrow
    omega
  have hcell : row.get? c = some t := by
    unfold lookupBuilt at h0
    rw [hrow] at h0
    exact h0
  have hc : c < BOARD_COLS := by
    have hlen : row.length = BOARD_COLS := by
      exact (buildRowsAux_rows_len rng BOARD_ROWS 0 [] (by simp)).2 row
        (List.get?_mem hrow)
    have := get?_some_lt hcell
    omega
  obtain ⟨row', t', k', hrow', -, hcell', -, -, -, htw⟩ :=
    initializeBoard_cell rng r c hr hc
  rw [hrow] at hrow'
  cases hrow'
  rw [hcell] at hcell'
  cases hcell'
  -- unfold the horizontal component of wouldCreateMatch
  unfold wouldCreateMatch at htw
  have hhor := (Bool.or_eq_false_iff.mp htw).1
  have hget1 : (row.take c).get? (c - 1) = some t1 := by
    rw [List.get?_take (by omega)]
    unfold lookupBuilt at h1
    rw [hrow] at h1
    exact h1
  have hget2 : (row.take c).get? (c - 2) = some t2 := by
    rw [List.get?_take (by omega)]
    unfold lookupBuilt at h2
    rw [hrow] at h2
    exact h2
  rw [hget1, hget2] at hhor
  intro hcon
  simp [hc2, hcon.1, hcon.2] at hhor

theorem initializeBoard_no_vtriple (rng : Nat → Nat) (r c : Nat) (hr2 : 2 ≤ r)
    (t u1 u2 : Tile)
    (h0 : lookupBuilt (initializeBoard rng) r c = some t)
    (h1 : lookupBuilt (initializeBoard rng) (r - 1) c = some u1)
    (h2 : lookupBuilt (initializeBoard rng) (r - 2) c = some u2) :
    ¬(u1.type = t.type ∧ u2.type = t.type) := by
  set R := initializeBoard rng with hR
  obtain ⟨row, hrow⟩ : ∃ row, R.get? r = some row := by
    unfold lookupBuilt at h0
    cases hx : R.get? r with
    | none => rw [hx] at h0; cases h0
    | some row => exact ⟨row, rfl⟩
  have hr : r < BOARD_ROWS := by
    have hlen : R.length = BOARD_ROWS := by
      simpa using (buildRowsAux_rows_len rng BOARD_ROWS 0 [] (by simp)).1
    have := get?_some_lt hrow
    omega
  have hcell : row.get? c = some t := by
    unfold lookupBuilt at h0
    rw [hrow] at h0
    exact h0
  have hc : c < BOARD_COLS := by
    have hlen : row.length = BOARD_COLS := by
      exact (buildRowsAux_rows_len rng BOARD_ROWS 0 [] (by simp)).2 row
        (List.get?_mem hrow)
    have := get?_some_lt hcell
    omega
  obtain ⟨row', t', k', hrow', -, hcell', -, -, -, htw⟩ :=
    initializeBoard_cell rng r c hr hc
  rw [hrow] at hrow'
  cases hrow'
  rw [hcell] at hcell'
  cases hcell'
  unfold wouldCreateMatch at htw
  have hver := (Bool.or_eq_false_iff.mp htw).2
  have hget1 : lookupBuilt (R.take r) (r - 1) c = some u1 := by
    unfold lookupBuilt at h1 ⊢
    rw [List.get?_take (by omega)]
    exact h1
  have hget2 : lookupBuilt (R.take r) (r - 2) c = some u2 := by
    unfold lookupBuilt at h2 ⊢
    rw [List.get?_take (by omega)]
    exact h2
  rw [hget1, hget2] at hver
  intro hcon
  simp [hr2, hcon.1, hcon.2] at hver

theorem cellAt_rowLine (b : Board) (r i : Nat) :
    cellAt (rowLine b r) i = if i < BOARD_COLS then gridGet b.grid r i else none := by
  unfold cellAt rowLine
  rw [List.get?_map]
  by_cases h : i < BOARD_COLS
  · rw [List.get?_range h]; simp [h]
  · rw [List.get?_eq_none.mpr (by simpa using Nat.le_of_not_lt h)]
    simp [h]

theorem cellAt_colLine (b : Board) (c i : Nat) :
    cellAt (colLine b c) i = if i < BOARD_ROWS then gridGet b.grid i c else none := by
  unfold cellAt colLine
  rw [List.get?_map]
  by_cases h : i < BOARD_ROWS
  · rw [List.get?_range h]; simp [h]
  · rw [List.get?_eq_none.mpr (by simpa using Nat.le_of_not_lt h)]
    simp [h]

theorem initBoard_row_run_free (rng : Nat → Nat) (r c0 len : Nat) (hlen : 3 ≤ len) :
    ¬ RunOfTypes (rowLine (initBoard rng) r) c0 len := by
  rintro ⟨ty, hty⟩
  obtain ⟨t0, h0, ht0⟩ := hty 0 (by omega)
  obtain ⟨t1, h1, ht1⟩ := hty 1 (by omega)
  obtain ⟨t2, h2, ht2⟩ := hty 2 (by omega)
  rw [cellAt_rowLine] at h0 h1 h2
  by_cases hb : c0 + 2 < BOARD_COLS
  · have hb0 : c0 + 0 < BOARD_COLS := by omega
    have hb1 : c0 + 1 < BOARD_COLS := by omega
    rw [if_pos hb0] at h0
    rw [if_pos hb1] at h1
    rw [if_pos hb] at h2
    rw [gridGet_initBoard] at h0 h1 h2
    refine initializeBoard_no_htriple rng r (c0 + 2) (by omega) t2 t1 t0 h2 ?_ ?_
      ⟨?_, ?_⟩
    · simpa using h1
    · simpa using h0
    · rw [ht1, ht2]
    · rw [ht0, ht2]
  · rw [if_neg hb] at h2
    cases h2

theorem initBoard_col_run_free (rng : Nat → Nat) (c r0 len : Nat) (hlen : 3 ≤ len) :
    ¬ RunOfTypes (colLine (initBoard rng) c) r0 len := by
  rintro ⟨ty, hty⟩
  obtain ⟨t0, h0, ht0⟩ := hty 0 (by omega)
  obtain ⟨t1, h1, ht1⟩ := hty 1 (by omega)
  obtain ⟨t2, h2, ht2⟩ := hty 2 (by omega)
  rw [cellAt_colLine] at h0 h1 h2
  by_cases hb : r0 + 2 < BOARD_ROWS
  · have hb0 : r0 + 0 < BOARD_ROWS := by omega
    have hb1 : r0 + 1 < BOARD_ROWS := by omega
    rw [if_pos hb0] at h0
    rw [if_pos hb1] at h1
    rw [if_pos hb] at h2
    rw [gridGet_initBoard] at h0 h1 h2
    refine initializeBoard_no_vtriple rng (r0 + 2) c (by omega) t2 t1 t0 h2 ?_ ?_
      ⟨?_, ?_⟩
    · simpa using h1
    · simpa using h0
    · rw [ht1, ht2]
    · rw [ht0, ht2]
  · rw [if_neg hb] at h2
    cases h2

/-- C5: `initializeBoard` produces a fully populated 8×8 grid with no
pre-existing horizontal or vertical run of ≥ 3 equal-type tiles; every
placed type is chosen among the types that would not complete such a
run with the already-placed left and above neighbours, and when every
type would create a match (degenerate type counts) the generator falls
back to one unconstrained uniform random pick instead of looping. -/
theorem initializeBoard_correct (rng : Nat → Nat) :
    WellFormed (initBoard rng) ∧ Full (initBoard rng) ∧
      (∀ r c0 len, 3 ≤ len → ¬ RunOfTypes (rowLine (initBoard rng) r) c0 len) ∧
      (∀ c r0 len, 3 ≤ len → ¬ RunOfTypes (colLine (initBoard rng) c) r0 len) ∧
      (∀ n rows cur row col k,
        (List.range n).filter (fun ty => !wouldCreateMatch rows cur row col ty) = [] →
        getRandomTileTypeGen n rows cur row col rng k = rng k % n) ∧
      (∀ rows cur row col k,
        wouldCreateMatch rows cur row col (getRandomTileType rows cur row col rng k)
          = false) := by
  have hshape := buildRowsAux_rows_len rng BOARD_ROWS 0 [] (by simp)
  refine ⟨⟨by simpa [initBoard] using hshape.1, ?_⟩, ?_, ?_, ?_, ?_, ?_⟩
  · intro row hrow
    simp only [initBoard] at hrow
    obtain ⟨r0, hr0, rfl⟩ := List.mem_map.mp hrow
    simpa using hshape.2 r0 hr0
  · intro r hr c hc
    obtain ⟨row, t, k', hrow, -, hcell, -, -, -, -⟩ := initializeBoard_cell rng r c hr hc
    rw [gridGet_initBoard]
    unfold lookupBuilt
    rw [hrow]
    simp only [Option.some_bind]
    rw [hcell]
    simp
  · intro r c0 len hlen
    exact initBoard_row_run_free rng r c0 len hlen
  · intro c r0 len hlen
    exact initBoard_col_run_free rng c r0 len hlen
  · intro n rows cur row col k h
    exact getRandomTileTypeGen_fallback n rows cur row col rng k h
  · intro rows cur row col k
    exact getRandomTileType_avoids rows cur row col rng k

/-- Witness for C5 at a concrete random stream: also exercises the
degenerate fallback (one tile type, both left neighbours matching) and
one run-freedom instance. -/
theorem initializeBoard_correct_witness :
    (List.range 1).filter
        (fun ty => !wouldCreateMatch []
          [⟨0, TileState.Idle, 0, 0⟩, ⟨0, TileState.Idle, 0, 1⟩] 0 2 ty) = [] ∧
      getRandomTileTypeGen 1 []
          [⟨0, TileState.Idle, 0, 0⟩, ⟨0, TileState.Idle, 0, 1⟩] 0 2 (fun _ => 0) 7
        = (fun _ => 0) 7 % 1 ∧
      (3 : Nat) ≤ 3 ∧
      ¬ RunOfTypes (rowLine (initBoard (fun _ => 0)) 0) 0 3 :=
  ⟨by decide,
   (initializeBoard_correct (fun _ => 0)).2.2.2.2.1 1 []
     [⟨0, TileState.Idle, 0, 0⟩, ⟨0, TileState.Idle, 0, 1⟩] 0 2 7 (by decide),
   by norm_num,
   (initializeBoard_correct (fun _ => 0)).2.2.1 0 0 3 (by norm_num)⟩

/-! ## Characterizing the scanning loop

`scanFrom` flushes exactly the maximal runs of non-animating equal-type
tiles, in left-to-right order.  `MaxRun line c0 len` is the
specification-side notion of such a maximal run. -/

/-- A maximal run: `len` cells from `c0` all hold non-animating tiles
of one type `ty`, and the run extends neither left nor right. -/
def MaxRun (line : List (Option Tile)) (c0 len : Nat) : Prop :=
  ∃ ty, (∀ k < len, okCell line (c0 + k) = some ty) ∧ 1 ≤ len ∧
    (c0 = 0 ∨ okCell line (c0 - 1) ≠ some ty) ∧
    okCell line (c0 + len) ≠ some ty

theorem okCell_none_of_le (line : List (Option Tile)) (i : Nat)
    (h : line.length ≤ i) : okCell line i = none := by
  unfold okCell cellAt
  rw [List.get?_eq_none.mpr h]
  rfl

theorem okCell_some_lt {line : List (Option Tile)} {i : Nat} {ty : Nat}
    (h : okCell line i = some ty) : i < line.length := by
  by_contra hcon
  rw [okCell_none_of_le line i (Nat.le_of_not_lt hcon)] at h
  cases h

theorem runStep_iff (line : List (Option Tile)) (i : Nat) :
    runStep line i = true ↔
      ∃ ty, okCell line i = some ty ∧ okCell line (i - 1) = some ty := by
  unfold runStep
  cases h1 : okCell line i <;> cases h2 : okCell line (i - 1) <;> simp [h1, h2]
  exact eq_comm

theorem runStep_false_of_none (line : List (Option Tile)) (i : Nat)
    (h : okCell line i = none) : runStep line i = false := by
  unfold runStep
  rw [h]

/-- The state registers of the scanning loop: `matchLength ≥ 1`, the run
register covers exactly `[matchStart, i)`, that stretch is an unbroken
run, and it cannot extend to the left. -/
def ScanInv (line : List (Option Tile)) (i ms ml : Nat) : Prop :=
  1 ≤ ml ∧ ms + ml = i ∧
    (∀ k, ms < k → k < i → runStep line k = true) ∧
    (ms = 0 ∨ runStep line ms = false)

theorem scanInv_init (line : List (Option Tile)) : ScanInv line 1 0 1 := by
  refine ⟨le_refl 1, rfl, ?_, Or.inl rfl⟩
  intro k h1 h2
  exact absurd h2 (by omega)

/-- Inside the register stretch, all cells share one type: the type of
the cell at `matchStart`. -/
theorem scanInv_common_type (line : List (Option Tile)) (i ms ml : Nat)
    (inv : ScanInv line i ms ml) (hml : 2 ≤ ml) :
    ∃ ty, ∀ k < ml, okCell line (ms + k) = some ty := by
  obtain ⟨-, hsum, hseg, -⟩ := inv
  have h1 : runStep line (ms + 1) = true := hseg (ms + 1) (by omega) (by omega)
  obtain ⟨a, ha1, ha0⟩ := (runStep_iff line (ms + 1)).mp h1
  have ha0' : okCell line ms = some a := by simpa using ha0
  refine ⟨a, ?_⟩
  intro k
  induction k with
  | zero => intro hk; simpa using ha0'
  | succ k ih =>
    intro hk
    have hk' : k < ml := by omega
    have hstep : runStep line (ms + k + 1) = true := hseg (ms + k + 1) (by omega) (by omega)
    obtain ⟨b, hb1, hb0⟩ := (runStep_iff line (ms + k + 1)).mp hstep
    have hb0' : okCell line (ms + k) = some b := by simpa using hb0
    have := ih hk'
    rw [this] at hb0'
    cases hb0'
    exact hb1

/-- At a flush point the register stretch is a maximal run. -/
theorem scanInv_maxRun (line : List (Option Tile)) (i ms ml : Nat)
    (inv : ScanInv line i ms ml) (hml : 2 ≤ ml)
    (hstep : runStep line i = false) : MaxRun line ms ml := by
  obtain ⟨ty, hty⟩ := scanInv_common_type line i ms ml inv hml
  obtain ⟨hml1, hsum, hseg, hleft⟩ := inv
  refine ⟨ty, hty, by omega, ?_, ?_⟩
  · rcases hleft with h | h
    · exact Or.inl h
    · right
      intro hcon
      have : runStep line ms = true := (runStep_iff line ms).mpr
        ⟨ty, hty 0 (by omega), hcon⟩
      rw [h] at this
      cases this
  · intro hcon
    have hprev : okCell line (i - 1) = some ty := by
      have := hty (ml - 1) (by omega)
      have heq : ms + (ml - 1) = i - 1 := by omega
      rwa [heq] at this
    have : runStep line i = true := (runStep_iff line i).mpr
      ⟨ty, by rwa [show ms + ml = i from hsum] at hcon, hprev⟩
    rw [hstep] at this
    cases this

/-- At a flush point, a maximal run starting at `matchStart` has exactly
the register's length. -/
theorem scanInv_maxRun_len (line : List (Option Tile)) (i ms ml len : Nat)
    (inv : ScanInv line i ms ml) (hstep : runStep line i = false)
    (hrun : MaxRun line ms len) : len = ml := by
  obtain ⟨hml1, hsum, hseg, -⟩ := inv
  obtain ⟨ty, hty, hlen1, -, hright⟩ := hrun
  rcases Nat.lt_trichotomy len ml with h | h | h
  · exfalso
    have hs : runStep line (ms + len) = true := hseg (ms + len) (by omega) (by omega)
    obtain ⟨b, hb1, hb0⟩ := (runStep_iff line (ms + len)).mp hs
    have hb0' : okCell line (ms + len - 1) = some b := hb0
    have hlast : okCell line (ms + (len - 1)) = some ty := hty (len - 1) (by omega)
    have heq : ms + (len - 1) = ms + len - 1 := by omega
    rw [heq] at hlast
    rw [hlast] at hb0'
    cases hb0'
    exact hright hb1
  · exact h
  · exfalso
    have hcur : okCell line (ms + ml) = some ty := hty ml (by omega)
    have hprev : okCell line (ms + ml - 1) = some ty := by
      have := hty (ml - 1) (by omega)
      have heq : ms + (ml - 1) = ms + ml - 1 := by omega
      rwa [heq] at this
    have : runStep line i = true := (runStep_iff line i).mpr
      ⟨ty, by rwa [hsum] at hcur, by rwa [hsum] at hprev⟩
    rw [hstep] at this
    cases this

/-- No maximal run starts strictly inside the register stretch. -/
theorem scanInv_no_inner_start (line : List (Option Tile)) (i ms ml c0 len : Nat)
    (inv : ScanInv line i ms ml) (hlo : ms < c0) (hhi : c0 < i)
    (hrun : MaxRun line c0 len) : False := by
  obtain ⟨-, -, hseg, -⟩ := inv
  obtain ⟨ty, hty, hlen1, hleft, -⟩ := hrun
  have hs : runStep line c0 = true := hseg c0 hlo hhi
  obtain ⟨b, hb1, hb0⟩ := (runStep_iff line c0).mp hs
  have h0 : okCell line c0 = some ty := by simpa using hty 0 (by omega)
  rw [h0] at hb1
  cases hb1
  rcases hleft with h | h
  · omega
  · exact h hb0

/-- The scan's flushed runs are exactly the maximal runs of length at
least `MIN_MATCH_LENGTH` that start at or after `matchStart`. -/
theorem runsFrom_mem (line : List (Option Tile)) :
    ∀ (n i ms ml : Nat), ScanInv line i ms ml → i + n = line.length + 1 →
      ∀ c0 len, ((c0, len) ∈ runsFrom line i n ms ml ↔
        MaxRun line c0 len ∧ MIN_MATCH_LENGTH ≤ len ∧ ms ≤ c0) := by
  intro n
  induction n with
  | zero =>
    intro i ms ml inv hend c0 len
    simp only [runsFrom, List.not_mem_nil, false_iff]
    rintro ⟨hrun, hlen3, hms⟩
    obtain ⟨hml1, hsum, hseg, -⟩ := inv
    obtain ⟨ty, hty, hlen1, -, -⟩ := hrun
    have hc0lt : c0 < line.length :=
      okCell_some_lt (show okCell line (c0 + 0) = some ty from hty 0 (by omega))
    have hmsge : line.length ≤ ms := by
      by_contra hcon
      have h1 : runStep line line.length = true :=
        hseg line.length (Nat.lt_of_not_le hcon) (by omega)
      rw [runStep_false_of_none line line.length
        (okCell_none_of_le line line.length (le_refl _))] at h1
      cases h1
    omega
  | succ n ih =>
    intro i ms ml inv hend c0 len
    rw [runsFrom]
    by_cases hstep : runStep line i = true
    · rw [if_pos hstep]
      have inv' : ScanInv line (i + 1) ms (ml + 1) := by
        obtain ⟨hml1, hsum, hseg, hleft⟩ := inv
        refine ⟨by omega, by omega, ?_, hleft⟩
        intro k h1 h2
        rcases Nat.lt_or_ge k i with h | h
        · exact hseg k h1 h
        · have hk : k = i := by omega
          subst hk
          exact hstep
      exact ih (i + 1) ms (ml + 1) inv' (by omega) c0 len
    · rw [if_neg hstep]
      replace hstep : runStep line i = false := by
        cases h : runStep line i with
        | false => rfl
        | true => exact absurd h hstep
      have inv' : ScanInv line (i + 1) i 1 := by
        refine ⟨le_refl 1, by omega, ?_, Or.inr hstep⟩
        intro k h1 h2
        exact absurd h2 (by omega)
      have ihx := ih (i + 1) i 1 inv' (by omega)
      have hmsi : ms < i := by
        obtain ⟨hml1, hsum, -, -⟩ := inv
        omega
      by_cases hml3 : MIN_MATCH_LENGTH ≤ ml
      · rw [if_pos hml3]
        simp only [List.mem_cons]
        constructor
        · rintro (heq | hmem)
          · rw [Prod.mk.injEq] at heq
            obtain ⟨rfl, rfl⟩ := heq
            have h3 : (3 : Nat) ≤ len := hml3
            exact ⟨scanInv_maxRun line i c0 len inv (by omega) hstep, hml3, le_refl _⟩
          · obtain ⟨hrun, hlen3, hge⟩ := (ihx c0 len).mp hmem
            exact ⟨hrun, hlen3, by omega⟩
        · rintro ⟨hrun, hlen3, hge⟩
          rcases Nat.lt_or_ge c0 i with hlt | hgei
          · have hc0 : c0 = ms := by
              rcases Nat.eq_or_lt_of_le hge with h | h
              · exact h.symm
              · exact (scanInv_no_inner_start line i ms ml c0 len inv h hlt hrun).elim
            subst hc0
            have hleneq : len = ml := scanInv_maxRun_len line i c0 ml len inv hstep hrun
            left
            rw [hleneq]
          · right
            exact (ihx c0 len).mpr ⟨hrun, hlen3, hgei⟩
      · rw [if_neg hml3]
        constructor
        · intro hmem
          obtain ⟨hrun, hlen3, hge⟩ := (ihx c0 len).mp hmem
          exact ⟨hrun, hlen3, by omega⟩
        · rintro ⟨hrun, hlen3, hge⟩
          rcases Nat.lt_or_ge c0 i with hlt | hgei
          · exfalso
            have hc0 : c0 = ms := by
              rcases Nat.eq_or_lt_of_le hge with h | h
              · exact h.symm
              · exact (scanInv_no_inner_start line i ms ml c0 len inv h hlt hrun).elim
            subst hc0
            have hleneq : len = ml := scanInv_maxRun_len line i c0 ml len inv hstep hrun
            omega
          · exact (ihx c0 len).mpr ⟨hrun, hlen3, hgei⟩

/-- Two maximal runs that share a cell are the same run. -/
theorem maxRun_unique (line : List (Option Tile)) (c0 len c0' len' j : Nat)
    (h : MaxRun line c0 len) (h' : MaxRun line c0' len')
    (hj1 : c0 ≤ j) (hj2 : j < c0 + len) (hj1' : c0' ≤ j) (hj2' : j < c0' + len') :
    c0 = c0' ∧ len = len' := by
  obtain ⟨ty, hty, hlen1, hleft, hright⟩ := h
  obtain ⟨ty', hty', hlen1', hleft', hright'⟩ := h'
  have hcell : ∀ k, c0 ≤ k → k < c0 + len → okCell line k = some ty := by
    intro k h1 h2
    have := hty (k - c0) (by omega)
    rwa [show c0 + (k - c0) = k by omega] at this
  have hcell' : ∀ k, c0' ≤ k → k < c0' + len' → okCell line k = some ty' := by
    intro k h1 h2
    have := hty' (k - c0') (by omega)
    rwa [show c0' + (k - c0') = k by omega] at this
  have htyeq : ty = ty' := by
    have h1 := hcell j hj1 hj2
    have h2 := hcell' j hj1' hj2'
    rw [h1] at h2
    injection h2
  subst htyeq
  have hstart : c0 = c0' := by
    rcases Nat.lt_trichotomy c0 c0' with hlt | he | hgt
    · exfalso
      have hmem : okCell line (c0' - 1) = some ty := hcell (c0' - 1) (by omega) (by omega)
      rcases hleft' with h0 | hne
      · omega
      · exact hne hmem
    · exact he
    · exfalso
      have hmem : okCell line (c0 - 1) = some ty := hcell' (c0 - 1) (by omega) (by omega)
      rcases hleft with h0 | hne
      · omega
      · exact hne hmem
  subst hstart
  refine ⟨rfl, ?_⟩
  rcases Nat.lt_trichotomy len len' with hlt | he | hgt
  · exact absurd (hcell' (c0 + len) (by omega) (by omega)) hright
  · exact he
  · exact absurd (hcell (c0 + len') (by omega) (by omega)) hright'

theorem run_extend_left (line : List (Option Tile)) (ty : Nat) :
    ∀ j, okCell line j = some ty →
      ∃ c0, c0 ≤ j ∧ (∀ k, c0 ≤ k → k ≤ j → okCell line k = some ty) ∧
        (c0 = 0 ∨ okCell line (c0 - 1) ≠ some ty) := by
  intro j
  induction j with
  | zero =>
    intro h
    refine ⟨0, le_refl 0, ?_, Or.inl rfl⟩
    intro k h1 h2
    have hk : k = 0 := by omega
    subst hk
    exact h
  | succ j ih =>
    intro h
    by_cases hp : okCell line j = some ty
    · obtain ⟨c0, hc1, hc2, hc3⟩ := ih hp
      refine ⟨c0, by omega, ?_, hc3⟩
      intro k h1 h2
      rcases Nat.lt_or_ge k (j + 1) with hk | hk
      · exact hc2 k h1 (by omega)
      · have : k = j + 1 := by omega
        subst this
        exact h
    · refine ⟨j + 1, le_refl _, ?_, Or.inr (by simpa using hp)⟩
      intro k h1 h2
      have : k = j + 1 := by omega
      subst this
      exact h

theorem run_extend_right (line : List (Option Tile)) (ty : Nat) :
    ∀ m j, line.length ≤ j + m → okCell line j = some ty →
      ∃ e, j < e ∧ (∀ k, j ≤ k → k < e → okCell line k = some ty) ∧
        okCell line e ≠ some ty := by
  intro m
  induction m with
  | zero =>
    intro j hlen h
    exact absurd (okCell_some_lt h) (by omega)
  | succ m ih =>
    intro j hlen h
    by_cases hn : okCell line (j + 1) = some ty
    · obtain ⟨e, he1, he2, he3⟩ := ih (j + 1) (by omega) hn
      refine ⟨e, by omega, ?_, he3⟩
      intro k h1 h2
      rcases Nat.eq_or_lt_of_le h1 with hk | hk
      · rw [← hk]; exact h
      · exact he2 k (by omega) h2
    · refine ⟨j + 1, by omega, ?_, hn⟩
      intro k h1 h2
      have : k = j := by omega
      subst this
      exact h

/-- Every non-animating occupied cell lies inside a unique maximal run;
this constructs it. -/
theorem maxRun_through (line : List (Option Tile)) (j ty : Nat)
    (h : okCell line j = some ty) :
    ∃ c0 len, MaxRun line c0 len ∧ c0 ≤ j ∧ j < c0 + len ∧
      (∀ k, c0 ≤ k → k < c0 + len → okCell line k = some ty) := by
  obtain ⟨c0, hc1, hc2, hc3⟩ := run_extend_left line ty j h
  obtain ⟨e, he1, he2, he3⟩ := run_extend_right line ty line.length j (by omega) h
  have hseg : ∀ k, c0 ≤ k → k < c0 + (e - c0) → okCell line k = some ty := by
    intro k h1 h2
    rcases le_or_lt k j with hle | hlt
    · exact hc2 k h1 hle
    · exact he2 k (by omega) (by omega)
  refine ⟨c0, e - c0, ⟨ty, ?_, by omega, hc3, ?_⟩, hc1, by omega, hseg⟩
  · intro k hk
    exact hseg (c0 + k) (by omega) (by omega)
  · rwa [show c0 + (e - c0) = e by omega]

/-- The scanning loop is the fold of the flush step over the flushed
runs. -/
theorem scanFrom_eq_foldl (line : List (Option Tile)) (posOf : Nat → Nat × Nat)
    (dir : MatchDirection) (dedup : Bool) :
    ∀ (n i ms ml : Nat) (st : List Match × List (Nat × Nat)),
      scanFrom line posOf dir dedup i n ms ml st
        = (runsFrom line i n ms ml).foldl (flushRun posOf dir dedup) st := by
  intro n
  induction n with
  | zero => intro i ms ml st; rfl
  | succ n ih =>
    intro i ms ml st
    rw [scanFrom, runsFrom]
    by_cases h : runStep line i = true
    · rw [if_pos h, if_pos h, ih]
    · rw [if_neg h, if_neg h]
      by_cases h3 : MIN_MATCH_LENGTH ≤ ml
      · rw [if_pos h3, if_pos h3, List.foldl_cons, ih]
      · rw [if_neg h3, if_neg h3, ih]

/-- The cells of one run, through the line's position map. -/
def runCells (posOf : Nat → Nat × Nat) (run : Nat × Nat) : List (Nat × Nat) :=
  (List.range run.2).map (fun k => posOf (run.1 + k))

/-- The match one run flushes when no de-duplication applies. -/
def mkMatch (posOf : Nat → Nat × Nat) (dir : MatchDirection) (run : Nat × Nat) :
    Match :=
  ⟨runCells posOf run, dir, run.2⟩

theorem flushRun_false (posOf : Nat → Nat × Nat) (dir : MatchDirection)
    (st : List Match × List (Nat × Nat)) (run : Nat × Nat) :
    flushRun posOf dir false st run
      = (st.1 ++ [mkMatch posOf dir run], st.2 ++ runCells posOf run) := by
  unfold flushRun mkMatch runCells
  simp

theorem flushRun_fst_extend (posOf : Nat → Nat × Nat) (dir : MatchDirection)
    (dedup : Bool) (st : List Match × List (Nat × Nat)) (run : Nat × Nat) :
    ∃ e, (flushRun posOf dir dedup st run).1 = st.1 ++ e := by
  cases dedup with
  | false => exact ⟨[mkMatch posOf dir run], by rw [flushRun_false]⟩
  | true =>
    unfold flushRun
    dsimp only
    by_cases h : (List.filter (fun p => !st.2.contains p)
        ((List.range run.2).map (fun k => posOf (run.1 + k)))).isEmpty = true
    · refine ⟨[], ?_⟩
      rw [List.append_nil]
      simp only [Bool.true_and, if_true]
      rw [if_pos h]
    · refine ⟨[⟨(List.filter (fun p => !st.2.contains p)
        ((List.range run.2).map (fun k => posOf (run.1 + k)))), dir, run.2⟩], ?_⟩
      simp only [Bool.true_and, if_true]
      rw [if_neg h]

theorem flushRun_snd_extend (posOf : Nat → Nat × Nat) (dir : MatchDirection)
    (dedup : Bool) (st : List Match × List (Nat × Nat)) (run : Nat × Nat) :
    ∃ e, (flushRun posOf dir dedup st run).2 = st.2 ++ e :=
  ⟨_, rfl⟩

theorem foldl_flushRun_extend (posOf : Nat → Nat × Nat) (dir : MatchDirection)
    (dedup : Bool) :
    ∀ (runs : List (Nat × Nat)) (st : List Match × List (Nat × Nat)),
      ∃ ext extM, runs.foldl (flushRun posOf dir dedup) st
        = (st.1 ++ ext, st.2 ++ extM) := by
  intro runs
  induction runs with
  | nil => intro st; exact ⟨[], [], by simp⟩
  | cons run rest ih =>
    intro st
    obtain ⟨ext, extM, hex⟩ := ih (flushRun posOf dir dedup st run)
    obtain ⟨e1, he1⟩ := flushRun_fst_extend posOf dir dedup st run
    obtain ⟨e2, he2⟩ := flushRun_snd_extend posOf dir dedup st run
    rw [List.foldl_cons, hex, he1, he2]
    exact ⟨e1 ++ ext, e2 ++ extM, by simp⟩

theorem foldl_flushRun_false (posOf : Nat → Nat × Nat) (dir : MatchDirection) :
    ∀ (runs : List (Nat × Nat)) (st : List Match × List (Nat × Nat)),
      runs.foldl (flushRun posOf dir false) st
        = (st.1 ++ runs.map (mkMatch posOf dir),
           st.2 ++ (runs.map (runCells posOf)).flatten) := by
  intro runs
  induction runs with
  | nil => intro st; simp
  | cons run rest ih =>
    intro st
    rw [List.foldl_cons, flushRun_false, ih]
    simp

/-- The flushed runs appear in strictly increasing, non-overlapping
order. -/
theorem runsFrom_sorted (line : List (Option Tile)) :
    ∀ (n i ms ml : Nat), ScanInv line i ms ml → i + n = line.length + 1 →
      (runsFrom line i n ms ml).Pairwise
        (fun a b => a.1 < b.1 ∧ a.1 + a.2 ≤ b.1) := by
  intro n
  induction n with
  | zero => intro i ms ml inv hend; simp [runsFrom]
  | succ n ih =>
    intro i ms ml inv hend
    rw [runsFrom]
    by_cases hstep : runStep line i = true
    · rw [if_pos hstep]
      have inv' : ScanInv line (i + 1) ms (ml + 1) := by
        obtain ⟨hml1, hsum, hseg, hleft⟩ := inv
        refine ⟨by omega, by omega, ?_, hleft⟩
        intro k h1 h2
        rcases Nat.lt_or_ge k i with h | h
        · exact hseg k h1 h
        · have hk : k = i := by omega
          subst hk
          exact hstep
      exact ih (i + 1) ms (ml + 1) inv' (by omega)
    · rw [if_neg hstep]
      replace hstep : runStep line i = false := by
        cases h : runStep line i with
        | false => rfl
        | true => exact absurd h hstep
      have inv' : ScanInv line (i + 1) i 1 := by
        refine ⟨le_refl 1, by omega, ?_, Or.inr hstep⟩
        intro k h1 h2
        exact absurd h2 (by omega)
      have hrest := ih (i + 1) i 1 inv' (by omega)
      by_cases hml3 : MIN_MATCH_LENGTH ≤ ml
      · rw [if_pos hml3]
        refine List.Pairwise.cons ?_ hrest
        intro b hb
        obtain ⟨-, -, hge⟩ := (runsFrom_mem line n (i + 1) i 1 inv' (by omega) b.1 b.2).mp hb
        obtain ⟨hml1, hsum, -, -⟩ := inv
        exact ⟨by omega, by omega⟩
      · rw [if_neg hml3]
        exact hrest

/-! ## Structure of `findMatches` -/

/-- The runs the horizontal pass flushes in row `r`. -/
def hRuns (b : Board) (r : Nat) : List (Nat × Nat) :=
  runsFrom (rowLine b r) 1 BOARD_COLS 0 1

/-- The runs the vertical pass flushes in column `c`. -/
def vRuns (b : Board) (c : Nat) : List (Nat × Nat) :=
  runsFrom (colLine b c) 1 BOARD_ROWS 0 1

/-- The matches row `r` contributes to the horizontal pass. -/
def hMatchesRow (b : Board) (r : Nat) : List Match :=
  (hRuns b r).map (mkMatch (fun c => (r, c)) MatchDirection.Horizontal)

/-- The `matched` marks row `r` contributes. -/
def hCellsRow (b : Board) (r : Nat) : List (Nat × Nat) :=
  ((hRuns b r).map (runCells (fun c => (r, c)))).flatten

theorem rowLine_length (b : Board) (r : Nat) : (rowLine b r).length = BOARD_COLS := by
  simp [rowLine]

theorem colLine_length (b : Board) (c : Nat) : (colLine b c).length = BOARD_ROWS := by
  simp [colLine]

theorem hRuns_mem (b : Board) (r c0 len : Nat) :
    (c0, len) ∈ hRuns b r ↔
      MaxRun (rowLine b r) c0 len ∧ MIN_MATCH_LENGTH ≤ len := by
  have h := runsFrom_mem (rowLine b r) BOARD_COLS 1 0 1 (scanInv_init _)
    (by rw [rowLine_length]; omega) c0 len
  unfold hRuns
  rw [h]
  simp

theorem vRuns_mem (b : Board) (c r0 len : Nat) :
    (r0, len) ∈ vRuns b c ↔
      MaxRun (colLine b c) r0 len ∧ MIN_MATCH_LENGTH ≤ len := by
  have h := runsFrom_mem (colLine b c) BOARD_ROWS 1 0 1 (scanInv_init _)
    (by rw [colLine_length]; omega) r0 len
  unfold vRuns
  rw [h]
  simp

theorem hRuns_sorted (b : Board) (r : Nat) :
    (hRuns b r).Pairwise (fun a b => a.1 < b.1 ∧ a.1 + a.2 ≤ b.1) :=
  runsFrom_sorted (rowLine b r) BOARD_COLS 1 0 1 (scanInv_init _)
    (by rw [rowLine_length]; omega)

theorem vRuns_sorted (b : Board) (c : Nat) :
    (vRuns b c).Pairwise (fun a b => a.1 < b.1 ∧ a.1 + a.2 ≤ b.1) :=
  runsFrom_sorted (colLine b c) BOARD_ROWS 1 0 1 (scanInv_init _)
    (by rw [colLine_length]; omega)

theorem hPass_eq (b : Board) :
    hPass b = (((List.range BOARD_ROWS).map (hMatchesRow b)).flatten,
      ((List.range BOARD_ROWS).map (hCellsRow b)).flatten) := by
  unfold hPass
  have step : ∀ (l : List Nat) (st : List Match × List (Nat × Nat)),
      l.foldl (fun st r => scanFrom (rowLine b r) (fun c => (r, c))
          MatchDirection.Horizontal false 1 BOARD_COLS 0 1 st) st
        = (st.1 ++ (l.map (hMatchesRow b)).flatten,
           st.2 ++ (l.map (hCellsRow b)).flatten) := by
    intro l
    induction l with
    | nil => intro st; simp
    | cons r rest ih =>
      intro st
      rw [List.foldl_cons, scanFrom_eq_foldl, foldl_flushRun_false, ih]
      simp [hMatchesRow, hCellsRow, hRuns]
  rw [step]
  simp

theorem runCells_mem (posOf : Nat → Nat × Nat) (run : Nat × Nat) (p : Nat × Nat) :
    p ∈ runCells posOf run ↔ ∃ k < run.2, p = posOf (run.1 + k) := by
  simp [runCells, eq_comm]

theorem hCellsRow_mem (b : Board) (r : Nat) (p : Nat × Nat) :
    p ∈ hCellsRow b r ↔ ∃ run ∈ hRuns b r, p ∈ runCells (fun c => (r, c)) run := by
  simp only [hCellsRow, List.mem_flatten, List.mem_map]
  constructor
  · rintro ⟨l, ⟨run, hmem, rfl⟩, hp⟩
    exact ⟨run, hmem, hp⟩
  · rintro ⟨run, hmem, hp⟩
    exact ⟨_, ⟨run, hmem, rfl⟩, hp⟩

theorem hPass_fst_mem (b : Board) (m : Match) :
    m ∈ (hPass b).1 ↔ ∃ r < BOARD_ROWS, m ∈ hMatchesRow b r := by
  rw [hPass_eq]
  simp

theorem hPass_snd_mem (b : Board) (p : Nat × Nat) :
    p ∈ (hPass b).2 ↔ ∃ r < BOARD_ROWS, p ∈ hCellsRow b r := by
  rw [hPass_eq]
  simp

/-- A cell is horizontally matched: it lies in some maximal
qualifying-length run of its row. -/
def HMatchedAt (b : Board) (r c : Nat) : Prop :=
  ∃ c0 len, MIN_MATCH_LENGTH ≤ len ∧ MaxRun (rowLine b r) c0 len ∧
    c0 ≤ c ∧ c < c0 + len

/-- The `matched` set after the horizontal pass is exactly the set of
horizontally matched in-range cells. -/
theorem hPass_snd_iff (b : Board) (p : Nat × Nat) :
    p ∈ (hPass b).2 ↔ p.1 < BOARD_ROWS ∧ HMatchedAt b p.1 p.2 := by
  rw [hPass_snd_mem]
  constructor
  · rintro ⟨r, hr, hmem⟩
    rw [hCellsRow_mem] at hmem
    obtain ⟨run, hrun, hcell⟩ := hmem
    rw [runCells_mem] at hcell
    obtain ⟨k, hk, rfl⟩ := hcell
    obtain ⟨hmax, hlen⟩ := (hRuns_mem b r run.1 run.2).mp (by
      have : run = (run.1, run.2) := rfl
      rwa [this] at hrun)
    exact ⟨hr, run.1, run.2, hlen, hmax, by omega, by omega⟩
  · rintro ⟨h1, c0, len, h3, hrun, hc1, hc2⟩
    refine ⟨p.1, h1, ?_⟩
    rw [hCellsRow_mem]
    refine ⟨(c0, len), (hRuns_mem b p.1 c0 len).mpr ⟨hrun, h3⟩, ?_⟩
    rw [runCells_mem]
    refine ⟨p.2 - c0, by omega, ?_⟩
    have heq : c0 + (p.2 - c0) = p.2 := by omega
    rw [heq]

/-! ## The vertical pass -/

/-- `vPass`'s per-column step. -/
def vStep (b : Board) (st : List Match × List (Nat × Nat)) (c : Nat) :
    List Match × List (Nat × Nat) :=
  scanFrom (colLine b c) (fun r => (r, c)) MatchDirection.Vertical true
    1 BOARD_ROWS 0 1 st

theorem vPass_eq_foldl (b : Board) (st : List Match × List (Nat × Nat)) :
    vPass b st = (List.range BOARD_COLS).foldl (vStep b) st := rfl

theorem flushRun_true (posOf : Nat → Nat × Nat) (dir : MatchDirection)
    (st : List Match × List (Nat × Nat)) (run : Nat × Nat) :
    flushRun posOf dir true st run
      = (if ((runCells posOf run).filter (fun p => !(st.2.contains p))).isEmpty then
          st.1
        else
          st.1 ++ [⟨(runCells posOf run).filter (fun p => !(st.2.contains p)),
            dir, run.2⟩],
        st.2 ++ (runCells posOf run).filter (fun p => !(st.2.contains p))) := by
  unfold flushRun runCells
  simp

theorem foldl_flushRunT_no_push (posOf : Nat → Nat × Nat) (dir : MatchDirection) :
    ∀ (runs : List (Nat × Nat)) (st : List Match × List (Nat × Nat)),
      (runs.foldl (flushRun posOf dir true) st).1 = [] →
      st.1 = [] ∧ (runs.foldl (flushRun posOf dir true) st).2 = st.2 ∧
        ∀ run ∈ runs,
          (runCells posOf run).filter (fun p => !(st.2.contains p)) = [] := by
  intro runs
  induction runs with
  | nil => intro st h; exact ⟨h, rfl, by simp⟩
  | cons run rest ih =>
    intro st h
    rw [List.foldl_cons] at h
    obtain ⟨h1, h2, h3⟩ := ih _ h
    by_cases hemp : ((runCells posOf run).filter
        (fun p => !(st.2.contains p))).isEmpty = true
    · have htiles : (runCells posOf run).filter (fun p => !(st.2.contains p)) = [] :=
        List.isEmpty_iff.mp hemp
      have hfr : flushRun posOf dir true st run = (st.1, st.2) := by
        rw [flushRun_true, htiles]
        simp
      rw [hfr] at h1 h2 h3
      refine ⟨h1, ?_, ?_⟩
      · rw [List.foldl_cons, hfr]
        exact h2
      · intro r hr
        rcases List.mem_cons.mp hr with hr | hr
        · subst hr; exact htiles
        · exact h3 r hr
    · exfalso
      rw [flushRun_true] at h1
      rw [if_neg hemp] at h1
      simp at h1

theorem foldl_vStep_extend (b : Board) :
    ∀ (cols : List Nat) (st : List Match × List (Nat × Nat)),
      ∃ e1 e2, cols.foldl (vStep b) st = (st.1 ++ e1, st.2 ++ e2) := by
  intro cols
  induction cols with
  | nil => intro st; exact ⟨[], [], by simp⟩
  | cons c rest ih =>
    intro st
    rw [List.foldl_cons]
    obtain ⟨e1, e2, hev⟩ := ih (vStep b st c)
    have hs : ∃ f1 f2, vStep b st c = (st.1 ++ f1, st.2 ++ f2) := by
      unfold vStep
      rw [scanFrom_eq_foldl]
      exact foldl_flushRun_extend _ _ _ _ st
    obtain ⟨f1, f2, hf⟩ := hs
    rw [hev, hf]
    exact ⟨f1 ++ e1, f2 ++ e2, by simp⟩

theorem foldl_vStep_no_push (b : Board) :
    ∀ (cols : List Nat) (st : List Match × List (Nat × Nat)),
      (cols.foldl (vStep b) st).1 = [] →
      st.1 = [] ∧ (cols.foldl (vStep b) st).2 = st.2 ∧
        ∀ c ∈ cols, ∀ run ∈ vRuns b c,
          (runCells (fun r => (r, c)) run).filter (fun p => !(st.2.contains p)) = [] := by
  intro cols
  induction cols with
  | nil => intro st h; exact ⟨h, rfl, by simp⟩
  | cons c rest ih =>
    intro st h
    rw [List.foldl_cons] at h
    obtain ⟨h1, h2, h3⟩ := ih _ h
    have hvs : vStep b st c = (vRuns b c).foldl
        (flushRun (fun r => (r, c)) MatchDirection.Vertical true) st := by
      unfold vStep vRuns
      rw [scanFrom_eq_foldl]
    rw [hvs] at h1 h2 h3
    obtain ⟨hst1, hsnd, hruns⟩ := foldl_flushRunT_no_push _ _ (vRuns b c) st h1
    refine ⟨hst1, ?_, ?_⟩
    · rw [List.foldl_cons, hvs, h2, hsnd]
    · intro c' hc' run hrun
      rcases List.mem_cons.mp hc' with hc' | hc'
      · subst hc'
        exact hruns run hrun
      · have := h3 c' hc' run hrun
        rwa [hsnd] at this

theorem hPass_empty_cells (b : Board) (h : (hPass b).1 = []) : (hPass b).2 = [] := by
  rw [hPass_eq] at h ⊢
  simp only [List.flatten_eq_nil_iff] at h ⊢
  intro l hl
  obtain ⟨r, hr, rfl⟩ := List.mem_map.mp hl
  have hrow := h (hMatchesRow b r) (List.mem_map.mpr ⟨r, hr, rfl⟩)
  unfold hMatchesRow at hrow
  have hempty : hRuns b r = [] := List.map_eq_nil_iff.mp hrow
  unfold hCellsRow
  rw [hempty]
  rfl

theorem findMatches_ne_of_maxRun_row (b : Board) (r c0 len : Nat)
    (hr : r < BOARD_ROWS) (hrun : MaxRun (rowLine b r) c0 len)
    (hlen : MIN_MATCH_LENGTH ≤ len) : findMatches b ≠ [] := by
  have hm : mkMatch (fun c => (r, c)) MatchDirection.Horizontal (c0, len)
      ∈ (hPass b).1 := by
    rw [hPass_fst_mem]
    refine ⟨r, hr, ?_⟩
    unfold hMatchesRow
    exact List.mem_map.mpr ⟨(c0, len), (hRuns_mem b r c0 len).mpr ⟨hrun, hlen⟩, rfl⟩
  unfold findMatches
  rw [vPass_eq_foldl]
  obtain ⟨e1, e2, hev⟩ := foldl_vStep_extend b (List.range BOARD_COLS) (hPass b)
  rw [hev]
  intro hcon
  simp only [List.append_eq_nil] at hcon
  rw [hcon.1] at hm
  cases hm

theorem findMatches_ne_of_maxRun_col (b : Board) (c cv0 lenV : Nat)
    (hc : c < BOARD_COLS) (hrun : MaxRun (colLine b c) cv0 lenV)
    (hlen : MIN_MATCH_LENGTH ≤ lenV) : findMatches b ≠ [] := by
  intro hcon
  unfold findMatches at hcon
  rw [vPass_eq_foldl] at hcon
  obtain ⟨h1, h2, h3⟩ := foldl_vStep_no_push b (List.range BOARD_COLS) (hPass b) hcon
  have hcells := h3 c (List.mem_range.mpr hc) (cv0, lenV)
    ((vRuns_mem b c cv0 lenV).mpr ⟨hrun, hlen⟩)
  have hempty2 : (hPass b).2 = [] := hPass_empty_cells b h1
  rw [hempty2] at hcells
  have hall : runCells (fun r => (r, c)) (cv0, lenV) = [] := by
    simpa using hcells
  have hlenc : (runCells (fun r => (r, c)) (cv0, lenV)).length = lenV := by
    simp [runCells]
  rw [hall] at hlenc
  simp at hlenc
  have h3' : (3 : Nat) ≤ lenV := hlen
  omega

/-! ## Gravity: shape, fullness, coherence per column -/

theorem compactColScan_length (colIdx : Nat) :
    ∀ (cells : List (Option Tile)) (r e : Nat),
      (compactColScan colIdx cells r e).1.length + (compactColScan colIdx cells r e).2
        = cells.length + e := by
  intro cells
  induction cells with
  | nil => intro r e; simp [compactColScan]
  | cons cell rest ih =>
    intro r e
    cases cell with
    | none =>
      have := ih (r - 1) (e + 1)
      simp only [compactColScan]
      simp only [List.length_cons]
      omega
    | some t =>
      have := ih (r - 1) e
      simp only [compactColScan]
      simp only [List.length_cons]
      omega

/-- Coherence of one column, listed top to bottom. -/
def ColCoherent (cells : List (Option Tile)) (c : Nat) : Prop :=
  ∀ r t, cells.get? r = some (some t) → t.row = r ∧ t.col = c

theorem compactColScan_e_mono (colIdx : Nat) :
    ∀ (cells : List (Option Tile)) (r e : Nat),
      e ≤ (compactColScan colIdx cells r e).2 := by
  intro cells
  induction cells with
  | nil => intro r e; exact le_refl e
  | cons cell rest ih =>
    intro r e
    cases cell with
    | none => exact le_trans (by omega) (ih (r - 1) (e + 1))
    | some t => exact ih (r - 1) e

theorem compactColScan_tiles_le (colIdx : Nat) (cells : List (Option Tile))
    (r e : Nat) : (compactColScan colIdx cells r e).1.length ≤ cells.length := by
  have h1 := compactColScan_length colIdx cells r e
  have h2 := compactColScan_e_mono colIdx cells r e
  omega

/-- The compaction scan places the `i`-th surviving tile (bottom first)
at row `r + e - i`, with correct position fields, provided the input
column was coherent (bottom-first cell `j` sits at row `r - j`). -/
theorem compactColScan_coherent (colIdx : Nat) :
    ∀ (cells : List (Option Tile)) (r e : Nat),
      cells.length ≤ r + 1 →
      (∀ j t, cells.get? j = some (some t) → t.row = r - j ∧ t.col = colIdx) →
      ∀ i t, (compactColScan colIdx cells r e).1.get? i = some t →
        t.row = r + e - i ∧ t.col = colIdx ∧ i ≤ r + e := by
  intro cells
  induction cells with
  | nil => intro r e hlen hco i t h; cases h
  | cons cell rest ih =>
    intro r e hlen hco i t h
    have hlen' : rest.length ≤ (r - 1) + 1 := by
      simp only [List.length_cons] at hlen
      omega
    have hco' : ∀ j t, rest.get? j = some (some t) →
        t.row = (r - 1) - j ∧ t.col = colIdx := by
      intro j t hj
      have hx := hco (j + 1) t hj
      exact ⟨by omega, hx.2⟩
    cases cell with
    | none =>
      simp only [compactColScan] at h
      have hr1 : rest ≠ [] → 1 ≤ r := by
        intro hne
        have : 1 ≤ rest.length := List.length_pos.mpr hne
        simp only [List.length_cons] at hlen
        omega
      have hme := ih (r - 1) (e + 1) hlen' hco' i t h
      have hne : rest ≠ [] := by
        intro hnil
        subst hnil
        cases h
      have hr := hr1 hne
      exact ⟨by omega, hme.2.1, by omega⟩
    | some t0 =>
      simp only [compactColScan] at h
      cases i with
      | zero =>
        rw [List.get?_cons_zero] at h
        injection h with h
        subst h
        have h0 := hco 0 t0 (by simp)
        by_cases he : 0 < e
        · rw [if_pos he]
          refine ⟨?_, rfl, by omega⟩
          simp
        · rw [if_neg he]
          refine ⟨?_, h0.2, by omega⟩
          have : e = 0 := by omega
          subst this
          simpa using h0.1
      | succ i =>
        rw [List.get?_cons_succ] at h
        have hne : rest ≠ [] := by
          intro hnil
          subst hnil
          cases h
        have hr : 1 ≤ r := by
          have : 1 ≤ rest.length := List.length_pos.mpr hne
          simp only [List.length_cons] at hlen
          omega
        have hme := ih (r - 1) e hlen' hco' i t h
        exact ⟨by omega, hme.2.1, by omega⟩

/-- The compacted tiles keep their original states or fall. -/
theorem compactColScan_states (colIdx : Nat) :
    ∀ (cells : List (Option Tile)) (r e : Nat),
      ∀ t ∈ (compactColScan colIdx cells r e).1,
        t.state = TileState.Falling ∨ ∃ t0, some t0 ∈ cells ∧ t.state = t0.state := by
  intro cells
  induction cells with
  | nil => intro r e t h; cases h
  | cons cell rest ih =>
    intro r e t h
    cases cell with
    | none =>
      simp only [compactColScan] at h
      rcases ih (r - 1) (e + 1) t h with h | ⟨t0, h1, h2⟩
      · exact Or.inl h
      · exact Or.inr ⟨t0, List.mem_cons_of_mem _ h1, h2⟩
    | some t0 =>
      simp only [compactColScan] at h
      rcases List.mem_cons.mp h with h | h
      · subst h
        by_cases he : 0 < e
        · rw [if_pos he]
          exact Or.inl rfl
        · rw [if_neg he]
          exact Or.inr ⟨t0, List.mem_cons_self _ _, rfl⟩
      · rcases ih (r - 1) e t h with h | ⟨t1, h1, h2⟩
        · exact Or.inl h
        · exact Or.inr ⟨t1, List.mem_cons_of_mem _ h1, h2⟩

theorem gridGet_eq_getCol (g : Grid) (r c : Nat) :
    gridGet g r c = ((getCol g c).get? r).getD none := by
  unfold gridGet getCol
  rw [List.get?_map]
  cases g.get? r <;> simp

theorem getCol_setCol_same (c : Nat) :
    ∀ (g : Grid) (cells : List (Option Tile)),
      (∀ row ∈ g, c < row.length) → cells.length = g.length →
      getCol (setCol g c cells) c = cells := by
  intro g
  induction g with
  | nil =>
    intro cells hrows hlen
    have : cells = [] := List.length_eq_zero.mp (by simpa using hlen)
    subst this
    rfl
  | cons row rest ih =>
    intro cells hrows hlen
    cases cells with
    | nil => simp at hlen
    | cons x xs =>
      unfold setCol getCol
      simp only [List.zipWith_cons_cons, List.map_cons]
      have hx : ((row.set c x).get? c).getD none = x := by
        rw [List.get?_set_eq_of_lt _ (hrows row (List.mem_cons_self _ _))]
        rfl
      rw [hx]
      have := ih xs (fun r hr => hrows r (List.mem_cons_of_mem _ hr)) (by simpa using hlen)
      unfold setCol getCol at this
      rw [this]

theorem getCol_setCol_other (c c' : Nat) (hne : c' ≠ c) :
    ∀ (g : Grid) (cells : List (Option Tile)), g.length ≤ cells.length →
      getCol (setCol g c cells) c' = getCol g c' := by
  intro g
  induction g with
  | nil => intro cells hlen; rfl
  | cons row rest ih =>
    intro cells hlen
    cases cells with
    | nil => simp at hlen
    | cons x xs =>
      unfold setCol getCol
      simp only [List.zipWith_cons_cons, List.map_cons]
      rw [List.get?_set_ne _ _ (fun h => hne h.symm)]
      have := ih xs (by simpa using hlen)
      unfold setCol getCol at this
      rw [this]

theorem setCol_shape (c : Nat) :
    ∀ (g : Grid) (cells : List (Option Tile)), cells.length = g.length →
      (setCol g c cells).length = g.length ∧
        ∀ row' ∈ setCol g c cells, ∃ row ∈ g, row'.length = row.length := by
  intro g
  induction g with
  | nil => intro cells hlen; exact ⟨by simp [setCol], by simp [setCol]⟩
  | cons row rest ih =>
    intro cells hlen
    cases cells with
    | nil => simp at hlen
    | cons x xs =>
      obtain ⟨ih1, ih2⟩ := ih xs (by simpa using hlen)
      constructor
      · simp only [setCol, List.zipWith_cons_cons, List.length_cons]
        unfold setCol at ih1
        rw [ih1]
      · intro row' hrow'
        simp only [setCol, List.zipWith_cons_cons, List.mem_cons] at hrow'
        rcases hrow' with h | h
        · exact ⟨row, List.mem_cons_self _ _, by rw [h, List.length_set]⟩
        · obtain ⟨r0, hr0, hlen0⟩ := ih2 row' h
          exact ⟨r0, List.mem_cons_of_mem _ hr0, hlen0⟩

theorem applyGravityCol_length (rng : Nat → Nat) (k colIdx : Nat)
    (cells : List (Option Tile)) :
    (applyGravityCol rng k colIdx cells).1.length = cells.length := by
  unfold applyGravityCol spawnTiles
  have h := compactColScan_length colIdx cells.reverse (BOARD_ROWS - 1) 0
  simp only [List.length_reverse, List.length_map, List.length_append,
    List.length_range] at h ⊢
  omega

theorem applyGravityCol_full (rng : Nat → Nat) (k colIdx : Nat)
    (cells : List (Option Tile)) :
    ∀ x ∈ (applyGravityCol rng k colIdx cells).1, x ≠ none := by
  unfold applyGravityCol
  intro x hx
  rw [List.mem_reverse] at hx
  obtain ⟨t, -, rfl⟩ := List.mem_map.mp hx
  simp

theorem applyGravityCol_coherent (rng : Nat → Nat) (k colIdx : Nat)
    (cells : List (Option Tile)) (hlen : cells.length = BOARD_ROWS)
    (hco : ∀ j t, cells.get? j = some (some t) → t.row = j ∧ t.col = colIdx) :
    ColCoherent (applyGravityCol rng k colIdx cells).1 colIdx := by
  intro r t h
  have houtlen : (applyGravityCol rng k colIdx cells).1.length = BOARD_ROWS := by
    rw [applyGravityCol_length, hlen]
  have hr : r < BOARD_ROWS := by
    have := get?_some_lt h
    omega
  unfold applyGravityCol at h
  set ts := (compactColScan colIdx cells.reverse (BOARD_ROWS - 1) 0).1 with hts
  set e := (compactColScan colIdx cells.reverse (BOARD_ROWS - 1) 0).2 with he
  have hlensum : ts.length + e = BOARD_ROWS := by
    rw [hts, he]
    have := compactColScan_length colIdx cells.reverse (BOARD_ROWS - 1) 0
    rw [List.length_reverse, hlen] at this
    omega
  have hmaplen : ((ts ++ spawnTiles rng k colIdx e).map some).length = BOARD_ROWS := by
    simp [spawnTiles]
    omega
  rw [List.get?_reverse (by rw [hmaplen]; exact hr)] at h
  rw [hmaplen] at h
  rw [List.get?_map] at h
  set m := BOARD_ROWS - 1 - r with hm
  cases hx : (ts ++ spawnTiles rng k colIdx e).get? m with
  | none => rw [hx] at h; cases h
  | some t' =>
    rw [hx] at h
    have h' : some (some t') = some (some t) := h
    injection h' with h'
    injection h' with h'
    subst h'
    have hrevco : ∀ j t, cells.reverse.get? j = some (some t) →
        t.row = (BOARD_ROWS - 1) - j ∧ t.col = colIdx := by
      intro j t ht
      have hj : j < cells.length := by
        have := get?_some_lt ht
        rwa [List.length_reverse] at this
      rw [List.get?_reverse hj] at ht
      have := hco (cells.length - 1 - j) t ht
      rw [hlen] at this
      exact this
    rcases Nat.lt_or_ge m ts.length with hlt | hge
    · have hts' : ts.get? m = some t' := by
        rw [← List.get?_append hlt]
        exact hx
      obtain ⟨hrow, hcol, hmle⟩ := compactColScan_coherent colIdx cells.reverse
        (BOARD_ROWS - 1) 0 (by rw [List.length_reverse, hlen]; decide) hrevco m t' hts'
      refine ⟨?_, hcol⟩
      rw [hrow]
      omega
    · have hsp : (spawnTiles rng k colIdx e).get? (m - ts.length) = some t' := by
        rw [← List.get?_append_right hge]
        exact hx
      have hi0 : m - ts.length < e := by
        have hmlt : m < BOARD_ROWS := by omega
        omega
      unfold spawnTiles at hsp
      rw [List.get?_map, List.get?_range hi0] at hsp
      have hsp' : some (Tile.mk (rng (k + (m - ts.length)) % TILE_TYPE_COUNT)
          TileState.Spawning (e - 1 - (m - ts.length)) colIdx) = some t' := hsp
      injection hsp' with hsp'
      subst hsp'
      constructor
      · show e - 1 - (m - ts.length) = r
        omega
      · rfl

/-- No tile of the grid is in the `Destroying` state. -/
def NoDestroying (b : Board) : Prop :=
  ∀ r c t, gridGet b.grid r c = some t → t.isDestroying = false

/-- No tile of the grid is animating. -/
def NoAnimating (b : Board) : Prop :=
  ∀ r c t, gridGet b.grid r c = some t → t.isAnimating = false

theorem applyGravityCol_states (rng : Nat → Nat) (k colIdx : Nat)
    (cells : List (Option Tile))
    (h : ∀ t : Tile, some t ∈ cells → t.isDestroying = false) :
    ∀ t : Tile, some t ∈ (applyGravityCol rng k colIdx cells).1 →
      t.isDestroying = false := by
  unfold applyGravityCol
  intro t ht
  rw [List.mem_reverse] at ht
  obtain ⟨t0, hmem, hinj⟩ := List.mem_map.mp ht
  injection hinj with hinj
  subst hinj
  rcases List.mem_append.mp hmem with hm | hm
  · rcases compactColScan_states colIdx cells.reverse _ _ t0 hm with hs | ⟨t1, h1, h2⟩
    · unfold Tile.isDestroying
      rw [hs]
      rfl
    · have := h t1 (List.mem_reverse.mp h1)
      unfold Tile.isDestroying at *
      rw [h2]
      exact this
  · unfold spawnTiles at hm
    obtain ⟨i, -, rfl⟩ := List.mem_map.mp hm
    rfl

theorem getCol_length (g : Grid) (c : Nat) : (getCol g c).length = g.length := by
  simp [getCol]

theorem gravityFold_spec (rng : Nat → Nat) :
    ∀ (cols : List Nat) (g : Grid) (k : Nat),
      g.length = BOARD_ROWS → (∀ row ∈ g, row.length = BOARD_COLS) →
      (∀ c ∈ cols, c < BOARD_COLS) → cols.Nodup →
      (cols.foldl (gravityStep rng) (g, k)).1.length = BOARD_ROWS ∧
        (∀ row ∈ (cols.foldl (gravityStep rng) (g, k)).1, row.length = BOARD_COLS) ∧
        (∀ c, c ∉ cols →
          getCol (cols.foldl (gravityStep rng) (g, k)).1 c = getCol g c) ∧
        (∀ c ∈ cols, ∃ k', getCol (cols.foldl (gravityStep rng) (g, k)).1 c
          = (applyGravityCol rng k' c (getCol g c)).1) := by
  intro cols
  induction cols with
  | nil =>
    intro g k h1 h2 h3 h4
    exact ⟨h1, h2, fun c _ => rfl, fun c hc => absurd hc (List.not_mem_nil c)⟩
  | cons c rest ih =>
    intro g k h1 h2 h3 h4
    have hc8 : c < BOARD_COLS := h3 c (List.mem_cons_self _ _)
    have hnewlen : (applyGravityCol rng k c (getCol g c)).1.length = g.length := by
      rw [applyGravityCol_length, getCol_length]
    obtain ⟨hs1, hs2⟩ := setCol_shape c g (applyGravityCol rng k c (getCol g c)).1 hnewlen
    have hg'1 : (gravityStep rng (g, k) c).1.length = BOARD_ROWS := by
      unfold gravityStep
      rw [hs1, h1]
    have hg'2 : ∀ row ∈ (gravityStep rng (g, k) c).1, row.length = BOARD_COLS := by
      intro row hrow
      obtain ⟨r0, hr0, hlen0⟩ := hs2 row hrow
      rw [hlen0]
      exact h2 r0 hr0
    have hrest3 : ∀ c' ∈ rest, c' < BOARD_COLS := fun c' hc' =>
      h3 c' (List.mem_cons_of_mem _ hc')
    have hrest4 : rest.Nodup := h4.of_cons
    have hcnotin : c ∉ rest := by
      have := List.nodup_cons.mp h4
      exact this.1
    have hstep1 : (gravityStep rng (g, k) c).1
        = setCol g c (applyGravityCol rng k c (getCol g c)).1 := rfl
    have hother : ∀ c', c' ≠ c → getCol (gravityStep rng (g, k) c).1 c' = getCol g c' := by
      intro c' hne
      rw [hstep1]
      exact getCol_setCol_other c c' hne g _ (le_of_eq hnewlen.symm)
    have hsame : getCol (gravityStep rng (g, k) c).1 c
        = (applyGravityCol rng k c (getCol g c)).1 := by
      rw [hstep1]
      exact getCol_setCol_same c g _
        (fun row hrow => by rw [h2 row hrow]; exact hc8) hnewlen
    have hfold : (c :: rest).foldl (gravityStep rng) (g, k)
        = rest.foldl (gravityStep rng) (gravityStep rng (g, k) c) := rfl
    obtain ⟨i1, i2, i3, i4⟩ := ih (gravityStep rng (g, k) c).1
      (gravityStep rng (g, k) c).2 hg'1 hg'2 hrest3 hrest4
    rw [hfold]
    have hpair : rest.foldl (gravityStep rng) (gravityStep rng (g, k) c)
        = rest.foldl (gravityStep rng)
            ((gravityStep rng (g, k) c).1, (gravityStep rng (g, k) c).2) := rfl
    rw [hpair]
    refine ⟨i1, i2, ?_, ?_⟩
    · intro c' hc'
      have hne : c' ≠ c := fun h => hc' (h ▸ List.mem_cons_self _ _)
      have hnr : c' ∉ rest := fun h => hc' (List.mem_cons_of_mem _ h)
      rw [i3 c' hnr, hother c' hne]
    · intro c' hc'
      rcases List.mem_cons.mp hc' with hc' | hc'
      · subst hc'
        rw [i3 c' hcnotin, hsame]
        exact ⟨k, rfl⟩
      · obtain ⟨k', hk'⟩ := i4 c' hc'
        have hne : c' ≠ c := fun h => hcnotin (h ▸ hc')
        rw [hk', hother c' hne]
        exact ⟨k', rfl⟩

theorem applyGravity_grid (rng : Nat → Nat) (k : Nat) (b : Board) :
    (applyGravity rng k b).1.grid
      = ((List.range BOARD_COLS).foldl (gravityStep rng) (b.grid, k)).1 := rfl

theorem applyGravity_flags (rng : Nat → Nat) (k : Nat) (b : Board) :
    (applyGravity rng k b).1.selected = b.selected ∧
      (applyGravity rng k b).1.isProcessing = b.isProcessing ∧
      (applyGravity rng k b).1.comboCount = b.comboCount :=
  ⟨rfl, rfl, rfl⟩

theorem applyGravity_spec (rng : Nat → Nat) (k : Nat) (b : Board)
    (hW : WellFormed b) :
    WellFormed (applyGravity rng k b).1 ∧ Full (applyGravity rng k b).1 ∧
      (Coherent b → Coherent (applyGravity rng k b).1) ∧
      (NoDestroying b → NoDestroying (applyGravity rng k b).1) := by
  obtain ⟨hW1, hW2⟩ := hW
  obtain ⟨g1, g2, g3, g4⟩ := gravityFold_spec rng (List.range BOARD_COLS) b.grid k
    hW1 hW2 (fun c hc => List.mem_range.mp hc) (List.nodup_range _)
  have hWnew : WellFormed (applyGravity rng k b).1 := by
    constructor
    · rw [applyGravity_grid]; exact g1
    · rw [applyGravity_grid]; exact g2
  refine ⟨hWnew, ?_, ?_, ?_⟩
  · intro r hr c hc
    obtain ⟨k', hk'⟩ := g4 c (List.mem_range.mpr hc)
    rw [applyGravity_grid, gridGet_eq_getCol, hk']
    have hlen : (applyGravityCol rng k' c (getCol b.grid c)).1.length = BOARD_ROWS := by
      rw [applyGravityCol_length, getCol_length, hW1]
    cases hx : (applyGravityCol rng k' c (getCol b.grid c)).1.get? r with
    | none =>
      have := List.get?_eq_none.mp hx
      omega
    | some x =>
      have hne := applyGravityCol_full rng k' c (getCol b.grid c) x
        (List.get?_mem hx)
      simp only [Option.getD_some]
      exact hne
  · intro hco r c t h
    rw [applyGravity_grid, gridGet_eq_getCol] at h
    by_cases hc : c < BOARD_COLS
    · obtain ⟨k', hk'⟩ := g4 c (List.mem_range.mpr hc)
      rw [hk'] at h
      have hcol := applyGravityCol_coherent rng k' c (getCol b.grid c)
        (by rw [getCol_length, hW1])
        (fun j t ht => hco j c t (by rw [gridGet_eq_getCol, ht]; rfl))
      cases hx : (applyGravityCol rng k' c (getCol b.grid c)).1.get? r with
      | none => rw [hx] at h; cases h
      | some x =>
        rw [hx] at h
        simp only [Option.getD_some] at h
        subst h
        exact hcol r t (by rw [hx])
    · exfalso
      rw [g3 c (fun hmem => hc (List.mem_range.mp hmem))] at h
      cases hx : (getCol b.grid c).get? r with
      | none => rw [hx] at h; cases h
      | some x =>
        rw [hx] at h
        simp only [Option.getD_some] at h
        subst h
        have hmem := List.get?_mem hx
        unfold getCol at hmem
        obtain ⟨row, hrow, hrow2⟩ := List.mem_map.mp hmem
        cases hy : row.get? c with
        | none => rw [hy] at hrow2; simp at hrow2
        | some y =>
          rw [hy] at hrow2
          simp only [Option.getD_some] at hrow2
          have := get?_some_lt hy
          rw [hW2 row hrow] at this
          omega
  · intro hnd r c t h
    rw [applyGravity_grid, gridGet_eq_getCol] at h
    by_cases hc : c < BOARD_COLS
    · obtain ⟨k', hk'⟩ := g4 c (List.mem_range.mpr hc)
      rw [hk'] at h
      cases hx : (applyGravityCol rng k' c (getCol b.grid c)).1.get? r with
      | none => rw [hx] at h; cases h
      | some x =>
        rw [hx] at h
        simp only [Option.getD_some] at h
        subst h
        refine applyGravityCol_states rng k' c (getCol b.grid c) ?_ t
          (List.get?_mem hx)
        intro t' ht'
        unfold getCol at ht'
        obtain ⟨row, hrow, hrow2⟩ := List.mem_map.mp ht'
        cases hy : row.get? c with
        | none => rw [hy] at hrow2; cases hrow2
        | some y =>
          rw [hy] at hrow2
          simp only [Option.getD_some] at hrow2
          subst hrow2
          obtain ⟨j, hj⟩ := List.get?_of_mem hrow
          refine hnd j c t' ?_
          unfold gridGet
          rw [hj]
          show (row.get? c).getD none = some t'
          rw [hy]
          rfl
    · rw [g3 c (fun hmem => hc (List.mem_range.mp hmem))] at h
      refine hnd r c t ?_
      rw [gridGet_eq_getCol]
      exact h

/-! ## Cell-map operations: removal, animation completion, destroy marks -/

theorem gridGet_cellMap (f : Option Tile → Option Tile) (hf : f none = none)
    (g : Grid) (r c : Nat) :
    gridGet (g.map (fun row => row.map f)) r c = f (gridGet g r c) := by
  unfold gridGet
  rw [List.get?_map]
  cases hx : g.get? r with
  | none => simp [hf]
  | some row =>
    show ((row.map f).get? c).getD none = f ((row.get? c).getD none)
    rw [List.get?_map]
    cases hy : row.get? c with
    | none => simp [hf]
    | some cell => simp

theorem cellMap_wellFormed (f : Option Tile → Option Tile) (b : Board)
    (hW : WellFormed b) :
    WellFormed { b with grid := b.grid.map (fun row => row.map f) } := by
  obtain ⟨h1, h2⟩ := hW
  constructor
  · simpa using h1
  · intro row hrow
    obtain ⟨r0, hr0, rfl⟩ := List.mem_map.mp hrow
    simpa using h2 r0 hr0

theorem removeDestroyedTiles_grid (b : Board) (r c : Nat) :
    gridGet (removeDestroyedTiles b).grid r c = removeCell (gridGet b.grid r c) :=
  gridGet_cellMap removeCell rfl b.grid r c

theorem removeDestroyedTiles_noDestroying (b : Board) :
    NoDestroying (removeDestroyedTiles b) := by
  intro r c t h
  rw [removeDestroyedTiles_grid] at h
  cases hx : gridGet b.grid r c with
  | none =>
    rw [hx] at h
    have h' : (none : Option Tile) = some t := h
    cases h'
  | some t0 =>
    rw [hx] at h
    have h' : (if t0.isDestroying then none else some t0) = some t := h
    by_cases hd : t0.isDestroying = true
    · rw [if_pos hd] at h'
      cases h'
    · rw [if_neg hd] at h'
      injection h' with h'
      subst h'
      simpa using hd

theorem removeDestroyedTiles_wellFormed (b : Board) (hW : WellFormed b) :
    WellFormed (removeDestroyedTiles b) :=
  cellMap_wellFormed removeCell b hW

theorem removeDestroyedTiles_coherent (b : Board) (hco : Coherent b) :
    Coherent (removeDestroyedTiles b) := by
  intro r c t h
  rw [removeDestroyedTiles_grid] at h
  cases hx : gridGet b.grid r c with
  | none =>
    rw [hx] at h
    have h' : (none : Option Tile) = some t := h
    cases h'
  | some t0 =>
    rw [hx] at h
    have h' : (if t0.isDestroying then none else some t0) = some t := h
    by_cases hd : t0.isDestroying = true
    · rw [if_pos hd] at h'
      cases h'
    · rw [if_neg hd] at h'
      injection h' with h'
      subst h'
      exact hco r c t0 hx

theorem finishAnimations_grid (b : Board) (r c : Nat) :
    gridGet (finishAnimations b).grid r c
      = (gridGet b.grid r c).map finishTile :=
  gridGet_cellMap (Option.map finishTile) rfl b.grid r c

theorem finishTile_row (t : Tile) : (finishTile t).row = t.row := by
  unfold finishTile
  by_cases h : (t.isAnimating && !t.isDestroying) = true <;> simp [h]

theorem finishTile_col (t : Tile) : (finishTile t).col = t.col := by
  unfold finishTile
  by_cases h : (t.isAnimating && !t.isDestroying) = true <;> simp [h]

theorem finishAnimations_wellFormed (b : Board) (hW : WellFormed b) :
    WellFormed (finishAnimations b) :=
  cellMap_wellFormed (Option.map finishTile) b hW

theorem finishAnimations_full (b : Board) (hF : Full b) :
    Full (finishAnimations b) := by
  intro r hr c hc
  rw [finishAnimations_grid]
  have := hF r hr c hc
  cases hx : gridGet b.grid r c with
  | none => exact absurd hx this
  | some t => simp

theorem finishAnimations_coherent (b : Board) (hco : Coherent b) :
    Coherent (finishAnimations b) := by
  intro r c t h
  rw [finishAnimations_grid] at h
  cases hx : gridGet b.grid r c with
  | none => rw [hx] at h; cases h
  | some t0 =>
    rw [hx] at h
    have h' : some (finishTile t0) = some t := h
    injection h' with h'
    subst h'
    have := hco r c t0 hx
    rw [finishTile_row, finishTile_col]
    exact this

theorem finishAnimations_noAnimating (b : Board) (hnd : NoDestroying b) :
    NoAnimating (finishAnimations b) := by
  intro r c t h
  rw [finishAnimations_grid] at h
  cases hx : gridGet b.grid r c with
  | none => rw [hx] at h; cases h
  | some t0 =>
    rw [hx] at h
    have h' : some (finishTile t0) = some t := h
    injection h' with h'
    subst h'
    have hnd0 := hnd r c t0 hx
    unfold finishTile
    by_cases ha : t0.isAnimating = true
    · rw [if_pos (by rw [ha, hnd0]; rfl)]
      rfl
    · rw [if_neg (by rw [Bool.not_eq_true] at ha; rw [ha]; simp)]
      simpa using ha

theorem gridCellsOnward_length (f : Nat → Nat → Option Tile → Option Tile) :
    ∀ (g : Grid) (r0 : Nat), (gridCellsOnward f r0 g).length = g.length := by
  intro g
  induction g with
  | nil => intro r0; rfl
  | cons row rest ih =>
    intro r0
    simp only [gridCellsOnward, List.length_cons, ih]

theorem gridCellsOnward_rows (f : Nat → Nat → Option Tile → Option Tile) :
    ∀ (g : Grid) (r0 : Nat) (row' : List (Option Tile)),
      row' ∈ gridCellsOnward f r0 g → ∃ row ∈ g, row'.length = row.length := by
  intro g
  induction g with
  | nil => intro r0 row' h; cases h
  | cons row rest ih =>
    intro r0 row' h
    rcases List.mem_cons.mp h with h | h
    · subst h
      refine ⟨row, List.mem_cons_self _ _, ?_⟩
      simp
    · obtain ⟨r1, hr1, hlen1⟩ := ih (r0 + 1) row' h
      exact ⟨r1, List.mem_cons_of_mem _ hr1, hlen1⟩

theorem gridCellsOnward_get (f : Nat → Nat → Option Tile → Option Tile) :
    ∀ (g : Grid) (r0 r c : Nat),
      gridGet (gridCellsOnward f r0 g) r c
        = if c < ((g.get? r).getD []).length then f (r0 + r) c (gridGet g r c)
          else none := by
  intro g
  induction g with
  | nil =>
    intro r0 r c
    unfold gridGet
    simp [gridCellsOnward, List.get?_eq_getElem?]
  | cons row rest ih =>
    intro r0 r c
    cases r with
    | zero =>
      show (((List.zipWith (fun c cell => f r0 c cell)
        (List.range row.length) row).get? c).getD none) = _
      rw [List.get?_zipWith']
      by_cases hc : c < row.length
      · rw [List.get?_range hc]
        cases hx : row.get? c with
        | none =>
          exfalso
          have := List.get?_eq_none.mp hx
          omega
        | some cell =>
          rw [if_pos (by simpa using hc)]
          show f r0 c cell = f (r0 + 0) c (gridGet (row :: rest) 0 c)
          have hg : gridGet (row :: rest) 0 c = cell := by
            unfold gridGet
            show ((row.get? c).getD none) = cell
            rw [hx]
            rfl
          rw [hg]
          rfl
      · have hr1 : (List.range row.length).get? c = none :=
          List.get?_eq_none.mpr (by simpa using Nat.le_of_not_lt hc)
        rw [hr1]
        rw [if_neg (by simpa using hc)]
        rfl
    | succ r =>
      show gridGet (gridCellsOnward f (r0 + 1) rest) r c = _
      rw [ih (r0 + 1) r c]
      have heq : r0 + 1 + r = r0 + (r + 1) := by omega
      rw [heq]
      rfl

theorem gridMapIdx_get (f : Nat → Nat → Option Tile → Option Tile) (g : Grid)
    (r c : Nat) :
    gridGet (gridMapIdx f g) r c
      = if c < ((g.get? r).getD []).length then f r c (gridGet g r c)
        else none := by
  have h := gridCellsOnward_get f g 0 r c
  simpa [gridMapIdx] using h

theorem gridMapIdx_wellFormed (f : Nat → Nat → Option Tile → Option Tile)
    (b : Board) (hW : WellFormed b) :
    WellFormed { b with grid := gridMapIdx f b.grid } := by
  obtain ⟨h1, h2⟩ := hW
  constructor
  · show (gridMapIdx f b.grid).length = BOARD_ROWS
    unfold gridMapIdx
    rw [gridCellsOnward_length]
    exact h1
  · intro row hrow
    have hrow' : row ∈ gridCellsOnward f 0 b.grid := hrow
    obtain ⟨row0, hrow0, hlen⟩ := gridCellsOnward_rows f b.grid 0 row hrow'
    rw [hlen]
    exact h2 row0 hrow0

theorem markDestroy_grid (b : Board) (ms : List Match) (r c : Nat) :
    gridGet (markDestroy b ms).grid r c
      = if (ms.foldr (fun m acc => m.tiles ++ acc) []).contains (r, c) then
          (gridGet b.grid r c).map (fun t => { t with state := TileState.Destroying })
        else gridGet b.grid r c := by
  show gridGet (gridMapIdx _ b.grid) r c = _
  rw [gridMapIdx_get]
  by_cases hcl : c < ((b.grid.get? r).getD []).length
  · rw [if_pos hcl]
  · rw [if_neg hcl]
    have hz : gridGet b.grid r c = none := by
      unfold gridGet
      rw [List.get?_eq_none.mpr (Nat.le_of_not_lt hcl)]
      rfl
    rw [hz]
    by_cases hp : ((ms.foldr (fun m acc => m.tiles ++ acc) []).contains (r, c)) = true
    · rw [if_pos hp]
      rfl
    · rw [if_neg hp]

theorem markDestroy_wellFormed (b : Board) (ms : List Match) (hW : WellFormed b) :
    WellFormed (markDestroy b ms) :=
  gridMapIdx_wellFormed _ b hW

theorem markDestroy_full (b : Board) (ms : List Match) (hF : Full b) :
    Full (markDestroy b ms) := by
  intro r hr c hc
  rw [markDestroy_grid]
  have hne := hF r hr c hc
  by_cases hp : ((ms.foldr (fun m acc => m.tiles ++ acc) []).contains (r, c)) = true
  · rw [if_pos hp]
    cases hx : gridGet b.grid r c with
    | none => exact absurd hx hne
    | some t => simp
  · rw [if_neg hp]
    exact hne

theorem markDestroy_coherent (b : Board) (ms : List Match) (hco : Coherent b) :
    Coherent (markDestroy b ms) := by
  intro r c t h
  rw [markDestroy_grid] at h
  by_cases hp : ((ms.foldr (fun m acc => m.tiles ++ acc) []).contains (r, c)) = true
  · rw [if_pos hp] at h
    cases hx : gridGet b.grid r c with
    | none =>
      rw [hx] at h
      cases h
    | some t0 =>
      rw [hx] at h
      have h' : some { t0 with state := TileState.Destroying } = some t := h
      injection h' with h'
      subst h'
      exact hco r c t0 hx
  · rw [if_neg hp] at h
    exact hco r c t h

/-! ## The destroy-remove-gravity-finish phase sequence -/

theorem cascadePass_flags (rng : Nat → Nat) (k : Nat) (b : Board)
    (ms : List Match) :
    (cascadePass rng k b ms).1.selected = b.selected ∧
      (cascadePass rng k b ms).1.isProcessing = b.isProcessing ∧
      (cascadePass rng k b ms).1.comboCount = b.comboCount :=
  ⟨rfl, rfl, rfl⟩

theorem cascadePass_spec (rng : Nat → Nat) (k : Nat) (b : Board)
    (ms : List Match) (hW : WellFormed b) :
    WellFormed (cascadePass rng k b ms).1 ∧ Full (cascadePass rng k b ms).1 ∧
      NoAnimating (cascadePass rng k b ms).1 ∧
      (Coherent b → Coherent (cascadePass rng k b ms).1) := by
  have hW1 : WellFormed (markDestroy b ms) := markDestroy_wellFormed b ms hW
  have hW2 : WellFormed (removeDestroyedTiles (markDestroy b ms)) :=
    removeDestroyedTiles_wellFormed _ hW1
  have hnd2 : NoDestroying (removeDestroyedTiles (markDestroy b ms)) :=
    removeDestroyedTiles_noDestroying _
  obtain ⟨hW3, hF3, hco3, hnd3⟩ :=
    applyGravity_spec rng k (removeDestroyedTiles (markDestroy b ms)) hW2
  refine ⟨?_, ?_, ?_, ?_⟩
  · exact finishAnimations_wellFormed _ hW3
  · exact finishAnimations_full _ hF3
  · exact finishAnimations_noAnimating _ (hnd3 hnd2)
  · intro hco
    exact finishAnimations_coherent _
      (hco3 (removeDestroyedTiles_coherent _ (markDestroy_coherent b ms hco)))

/-! ## Unfolding one cascade pass of the processMatches/checkCascade loop -/

theorem cascadeRun_succ (rng : Nat → Nat) (fuel k : Nat) (b : Board)
    (ms : List Match) :
    cascadeRun rng (fuel + 1) k b ms
      = if (findMatches (cascadePass rng k { b with comboCount := b.comboCount + 1 } ms).1).isEmpty then
          ⟨{ (cascadePass rng k { b with comboCount := b.comboCount + 1 } ms).1 with
              isProcessing := false, comboCount := 0 },
            [(ms, decide (1 < b.comboCount + 1))], true,
            (cascadePass rng k { b with comboCount := b.comboCount + 1 } ms).2⟩
        else
          ⟨(cascadeRun rng fuel
              (cascadePass rng k { b with comboCount := b.comboCount + 1 } ms).2
              (cascadePass rng k { b with comboCount := b.comboCount + 1 } ms).1
              (findMatches (cascadePass rng k { b with comboCount := b.comboCount + 1 } ms).1)).board,
            (ms, decide (1 < b.comboCount + 1)) ::
              (cascadeRun rng fuel
                (cascadePass rng k { b with comboCount := b.comboCount + 1 } ms).2
                (cascadePass rng k { b with comboCount := b.comboCount + 1 } ms).1
                (findMatches (cascadePass rng k { b with comboCount := b.comboCount + 1 } ms).1)).events,
            (cascadeRun rng fuel
              (cascadePass rng k { b with comboCount := b.comboCount + 1 } ms).2
              (cascadePass rng k { b with comboCount := b.comboCount + 1 } ms).1
              (findMatches (cascadePass rng k { b with comboCount := b.comboCount + 1 } ms).1)).settled,
            (cascadeRun rng fuel
              (cascadePass rng k { b with comboCount := b.comboCount + 1 } ms).2
              (cascadePass rng k { b with comboCount := b.comboCount + 1 } ms).1
              (findMatches (cascadePass rng k { b with comboCount := b.comboCount + 1 } ms).1)).rngIdx⟩
      := rfl

theorem cascadeRun_succ_board (rng : Nat → Nat) (fuel k : Nat) (b : Board)
    (ms : List Match) :
    (cascadeRun rng (fuel + 1) k b ms).board
      = if (findMatches (cascadePass rng k { b with comboCount := b.comboCount + 1 } ms).1).isEmpty then
          { (cascadePass rng k { b with comboCount := b.comboCount + 1 } ms).1 with
              isProcessing := false, comboCount := 0 }
        else
          (cascadeRun rng fuel
            (cascadePass rng k { b with comboCount := b.comboCount + 1 } ms).2
            (cascadePass rng k { b with comboCount := b.comboCount + 1 } ms).1
            (findMatches (cascadePass rng k { b with comboCount := b.comboCount + 1 } ms).1)).board := by
  rw [cascadeRun_succ, apply_ite CascadeResult.board]

theorem cascadeRun_succ_settled (rng : Nat → Nat) (fuel k : Nat) (b : Board)
    (ms : List Match) :
    (cascadeRun rng (fuel + 1) k b ms).settled
      = if (findMatches (cascadePass rng k { b with comboCount := b.comboCount + 1 } ms).1).isEmpty then
          true
        else
          (cascadeRun rng fuel
            (cascadePass rng k { b with comboCount := b.comboCount + 1 } ms).2
            (cascadePass rng k { b with comboCount := b.comboCount + 1 } ms).1
            (findMatches (cascadePass rng k { b with comboCount := b.comboCount + 1 } ms).1)).settled := by
  rw [cascadeRun_succ, apply_ite CascadeResult.settled]

theorem cascadeRun_succ_events (rng : Nat → Nat) (fuel k : Nat) (b : Board)
    (ms : List Match) :
    (cascadeRun rng (fuel + 1) k b ms).events
      = if (findMatches (cascadePass rng k { b with comboCount := b.comboCount + 1 } ms).1).isEmpty then
          [(ms, decide (1 < b.comboCount + 1))]
        else
          (ms, decide (1 < b.comboCount + 1)) ::
            (cascadeRun rng fuel
              (cascadePass rng k { b with comboCount := b.comboCount + 1 } ms).2
              (cascadePass rng k { b with comboCount := b.comboCount + 1 } ms).1
              (findMatches (cascadePass rng k { b with comboCount := b.comboCount + 1 } ms).1)).events := by
  rw [cascadeRun_succ, apply_ite CascadeResult.events]

/-! ## No-run invariant at settle points -/

theorem cellAt_some_lt (line : List (Option Tile)) (i : Nat) (t : Tile)
    (h : cellAt line i = some t) : i < line.length := by
  by_contra hcon
  unfold cellAt at h
  rw [List.get?_eq_none.mpr (Nat.le_of_not_lt hcon)] at h
  cases h

theorem maxRun_of_seg (line : List (Option Tile)) (ty c0 len : Nat)
    (hlen : 1 ≤ len) (hok : ∀ k < len, okCell line (c0 + k) = some ty) :
    ∃ c0' len', MaxRun line c0' len' ∧ len ≤ len' := by
  have h0 : okCell line c0 = some ty := by
    have h := hok 0 (by omega)
    simpa using h
  obtain ⟨c0', len', hmax, h1, h2, hseg⟩ := maxRun_through line c0 ty h0
  refine ⟨c0', len', hmax, ?_⟩
  obtain ⟨ty2, hall2, hlen2, hleft2, hright2⟩ := hmax
  have hty2 : ty2 = ty := by
    have ha := hall2 0 (by omega)
    have hb := hseg c0' (le_refl _) (by omega)
    rw [show c0' + 0 = c0' from by omega] at ha
    rw [ha] at hb
    injection hb with hb
  subst hty2
  by_contra hcon
  push_neg at hcon
  have he2 : c0' + len' < c0 + len := by omega
  have hcell := hok (c0' + len' - c0) (by omega)
  rw [show c0 + (c0' + len' - c0) = c0' + len' from by omega] at hcell
  exact hright2 hcell

/-- No row or column of the board contains a run of `MIN_MATCH_LENGTH`
or more adjacent equal-type tiles. -/
def NoTypeRuns (b : Board) : Prop :=
  (∀ r < BOARD_ROWS, ∀ c0 len, MIN_MATCH_LENGTH ≤ len →
      ¬ RunOfTypes (rowLine b r) c0 len) ∧
  (∀ c < BOARD_COLS, ∀ r0 len, MIN_MATCH_LENGTH ≤ len →
      ¬ RunOfTypes (colLine b c) r0 len)

theorem noTypeRuns_of_empty (b : Board) (hna : NoAnimating b)
    (hempty : findMatches b = []) : NoTypeRuns b := by
  constructor
  · intro r hr c0 len hlen hrun
    obtain ⟨ty, hty⟩ := hrun
    have hok : ∀ k < len, okCell (rowLine b r) (c0 + k) = some ty := by
      intro k hk
      obtain ⟨t, hcell, htty⟩ := hty k hk
      have hlt : c0 + k < BOARD_COLS := by
        have h := cellAt_some_lt _ _ _ hcell
        rw [rowLine_length] at h
        exact h
      have hga : gridGet b.grid r (c0 + k) = some t := by
        have h := cellAt_rowLine b r (c0 + k)
        rw [if_pos hlt] at h
        rw [← h]
        exact hcell
      have hani := hna r (c0 + k) t hga
      unfold okCell
      rw [hcell]
      show (if t.isAnimating = true then none else some t.type) = some ty
      rw [if_neg (by simp [hani])]
      rw [htty]
    obtain ⟨c0', len', hmax, hlele⟩ := maxRun_of_seg (rowLine b r) ty c0 len
      (by have h3 : (3 : Nat) ≤ len := hlen; omega) hok
    exact findMatches_ne_of_maxRun_row b r c0' len' hr hmax
      (le_trans hlen hlele) hempty
  · intro c hc r0 len hlen hrun
    obtain ⟨ty, hty⟩ := hrun
    have hok : ∀ k < len, okCell (colLine b c) (r0 + k) = some ty := by
      intro k hk
      obtain ⟨t, hcell, htty⟩ := hty k hk
      have hlt : r0 + k < BOARD_ROWS := by
        have h := cellAt_some_lt _ _ _ hcell
        rw [colLine_length] at h
        exact h
      have hga : gridGet b.grid (r0 + k) c = some t := by
        have h := cellAt_colLine b c (r0 + k)
        rw [if_pos hlt] at h
        rw [← h]
        exact hcell
      have hani := hna (r0 + k) c t hga
      unfold okCell
      rw [hcell]
      show (if t.isAnimating = true then none else some t.type) = some ty
      rw [if_neg (by simp [hani])]
      rw [htty]
    obtain ⟨r0', len', hmax, hlele⟩ := maxRun_of_seg (colLine b c) ty r0 len
      (by have h3 : (3 : Nat) ≤ len := hlen; omega) hok
    exact findMatches_ne_of_maxRun_col b c r0' len' hc hmax
      (le_trans hlen hlele) hempty

/-- C2: at every settle point — a cascade resolution that ends by
emitting the settled event and returning `isProcessing` to `false` —
the resulting grid is fully populated (all 8x8 cells non-empty) and no
row or column contains a run of `MIN_MATCH_LENGTH` (3) or more adjacent
equal-type tiles. -/
theorem settle_point_invariant (rng : Nat → Nat) (fuel : Nat) :
    ∀ (k : Nat) (b : Board) (ms : List Match), WellFormed b →
      (cascadeRun rng fuel k b ms).settled = true →
      WellFormed (cascadeRun rng fuel k b ms).board ∧
        Full (cascadeRun rng fuel k b ms).board ∧
        NoTypeRuns (cascadeRun rng fuel k b ms).board ∧
        (cascadeRun rng fuel k b ms).board.isProcessing = false := by
  induction fuel with
  | zero =>
    intro k b ms hW hs
    exact Bool.noConfusion hs
  | succ fuel ih =>
    intro k b ms hW hs
    have hWp := (cascadePass_spec rng k { b with comboCount := b.comboCount + 1 } ms hW).1
    by_cases hemp :
        (findMatches (cascadePass rng k { b with comboCount := b.comboCount + 1 } ms).1).isEmpty = true
    · rw [cascadeRun_succ_board, if_pos hemp]
      obtain ⟨hWq, hFq, hNAq, _⟩ :=
        cascadePass_spec rng k { b with comboCount := b.comboCount + 1 } ms hW
      have hfme :
          findMatches (cascadePass rng k { b with comboCount := b.comboCount + 1 } ms).1 = [] :=
        List.isEmpty_iff.mp hemp
      exact ⟨hWq, hFq, noTypeRuns_of_empty _ hNAq hfme, rfl⟩
    · rw [cascadeRun_succ_board, if_neg hemp]
      rw [cascadeRun_succ_settled, if_neg hemp] at hs
      exact ih (cascadePass rng k { b with comboCount := b.comboCount + 1 } ms).2
        (cascadePass rng k { b with comboCount := b.comboCount + 1 } ms).1
        (findMatches (cascadePass rng k { b with comboCount := b.comboCount + 1 } ms).1)
        hWp hs

/-- Witness for the settle invariant: a concrete one-pass cascade on the
bottom-run board settles, and the theorem yields fullness and the no-run
invariant there. -/
theorem settle_point_invariant_witness :
    (cascadeRun rngOnePass 3 0 bottomRunBoard (findMatches bottomRunBoard)).settled = true ∧
      Full (cascadeRun rngOnePass 3 0 bottomRunBoard (findMatches bottomRunBoard)).board ∧
      NoTypeRuns (cascadeRun rngOnePass 3 0 bottomRunBoard (findMatches bottomRunBoard)).board :=
  ⟨by decide,
   (settle_point_invariant rngOnePass 3 0 bottomRunBoard (findMatches bottomRunBoard)
      ⟨rfl, by decide⟩ (by decide)).2.1,
   (settle_point_invariant rngOnePass 3 0 bottomRunBoard (findMatches bottomRunBoard)
      ⟨rfl, by decide⟩ (by decide)).2.2.1⟩

/-! ## C8: combo accounting over a two-pass cascade -/

/-- C8: from a committed swap (combo counter reset to 0), a cascade
resolution that settles after exactly two sequential destroy passes
emits exactly two match events; the first carries `isCombo = false` and
the second `isCombo = true`, where `isCombo` is `comboCount > 1` and
the counter is incremented once per pass. -/
theorem combo_two_pass_events (rng : Nat → Nat) (fuel k : Nat) (b : Board)
    (ms : List Match) (hc : b.comboCount = 0)
    (hs : (cascadeRun rng (fuel + 1 + 1) k b ms).settled = true)
    (hlen : (cascadeRun rng (fuel + 1 + 1) k b ms).events.length = 2) :
    ∃ msB, (cascadeRun rng (fuel + 1 + 1) k b ms).events
      = [(ms, false), (msB, true)] := by
  rw [cascadeRun_succ_events] at hlen ⊢
  by_cases h1 :
      (findMatches (cascadePass rng k { b with comboCount := b.comboCount + 1 } ms).1).isEmpty = true
  · rw [if_pos h1] at hlen
    simp at hlen
  · rw [if_neg h1] at hlen ⊢
    set b1 := (cascadePass rng k { b with comboCount := b.comboCount + 1 } ms).1 with hb1
    set k1 := (cascadePass rng k { b with comboCount := b.comboCount + 1 } ms).2 with hk1
    set ms1 := findMatches b1 with hms1
    rw [cascadeRun_succ_events] at hlen ⊢
    have e1 : decide (1 < b.comboCount + 1) = false := by
      rw [hc]
      rfl
    have e2 : decide (1 < b1.comboCount + 1) = true := by
      have hb1c : b1.comboCount = b.comboCount + 1 := by
        rw [hb1]
        rfl
      rw [hb1c, hc]
      rfl
    by_cases h2 :
        (findMatches (cascadePass rng k1 { b1 with comboCount := b1.comboCount + 1 } ms1).1).isEmpty = true
    · rw [if_pos h2] at hlen ⊢
      refine ⟨ms1, ?_⟩
      rw [e1, e2]
    · rw [if_neg h2] at hlen ⊢
      simp only [List.length_cons] at hlen
      have h0 : (cascadeRun rng fuel
          (cascadePass rng k1 { b1 with comboCount := b1.comboCount + 1 } ms1).2
          (cascadePass rng k1 { b1 with comboCount := b1.comboCount + 1 } ms1).1
          (findMatches (cascadePass rng k1 { b1 with comboCount := b1.comboCount + 1 } ms1).1)).events
          = [] := by
        rw [← List.length_eq_zero]
        omega
      rw [h0]
      refine ⟨ms1, ?_⟩
      rw [e1, e2]

/-- Witness for the combo accounting: the bottom-run board under the
two-pass random stream settles in exactly two passes with event flags
`[false, true]`. -/
theorem combo_two_pass_events_witness :
    bottomRunBoard.comboCount = 0 ∧
      (cascadeRun rngTwoPass (0 + 1 + 1) 0 bottomRunBoard (findMatches bottomRunBoard)).settled = true ∧
      (cascadeRun rngTwoPass (0 + 1 + 1) 0 bottomRunBoard (findMatches bottomRunBoard)).events.length = 2 ∧
      ∃ msB, (cascadeRun rngTwoPass (0 + 1 + 1) 0 bottomRunBoard (findMatches bottomRunBoard)).events
        = [(findMatches bottomRunBoard, false), (msB, true)] :=
  ⟨rfl, by decide, by decide,
   combo_two_pass_events rngTwoPass 0 0 bottomRunBoard (findMatches bottomRunBoard)
     rfl (by decide) (by decide)⟩

/-! ## C4: a maximal run of four yields one match of length four -/

theorem flushRun_fst_extend_dir (posOf : Nat → Nat × Nat) (dir : MatchDirection)
    (dedup : Bool) (st : List Match × List (Nat × Nat)) (run : Nat × Nat) :
    ∃ e, (flushRun posOf dir dedup st run).1 = st.1 ++ e ∧
      ∀ m ∈ e, m.direction = dir := by
  cases dedup with
  | false =>
    refine ⟨[mkMatch posOf dir run], by rw [flushRun_false], ?_⟩
    intro m hm
    rcases List.mem_singleton.mp hm with rfl
    rfl
  | true =>
    unfold flushRun
    dsimp only
    by_cases h : (List.filter (fun p => !st.2.contains p)
        ((List.range run.2).map (fun k => posOf (run.1 + k)))).isEmpty = true
    · refine ⟨[], ?_, by intro m hm; cases hm⟩
      rw [List.append_nil]
      simp only [Bool.true_and, if_true]
      rw [if_pos h]
    · refine ⟨[⟨(List.filter (fun p => !st.2.contains p)
        ((List.range run.2).map (fun k => posOf (run.1 + k)))), dir, run.2⟩], ?_, ?_⟩
      · simp only [Bool.true_and, if_true]
        rw [if_neg h]
      · intro m hm
        rcases List.mem_singleton.mp hm with rfl
        rfl

theorem foldl_flushRun_extend_dir (posOf : Nat → Nat × Nat) (dir : MatchDirection)
    (dedup : Bool) :
    ∀ (runs : List (Nat × Nat)) (st : List Match × List (Nat × Nat)),
      ∃ e, (runs.foldl (flushRun posOf dir dedup) st).1 = st.1 ++ e ∧
        ∀ m ∈ e, m.direction = dir := by
  intro runs
  induction runs with
  | nil => intro st; exact ⟨[], by simp, by intro m hm; cases hm⟩
  | cons run rest ih =>
    intro st
    obtain ⟨e, he, hd⟩ := ih (flushRun posOf dir dedup st run)
    obtain ⟨f, hf, hfd⟩ := flushRun_fst_extend_dir posOf dir dedup st run
    rw [List.foldl_cons]
    refine ⟨f ++ e, ?_, ?_⟩
    · rw [he, hf, List.append_assoc]
    · intro m hm
      rcases List.mem_append.mp hm with hm | hm
      · exact hfd m hm
      · exact hd m hm

theorem foldl_vStep_extend_dir (b : Board) :
    ∀ (cols : List Nat) (st : List Match × List (Nat × Nat)),
      ∃ e, (cols.foldl (vStep b) st).1 = st.1 ++ e ∧
        ∀ m ∈ e, m.direction = MatchDirection.Vertical := by
  intro cols
  induction cols with
  | nil => intro st; exact ⟨[], by simp, by intro m hm; cases hm⟩
  | cons c rest ih =>
    intro st
    obtain ⟨e, he, hd⟩ := ih (vStep b st c)
    have hvs : vStep b st c = (vRuns b c).foldl
        (flushRun (fun r => (r, c)) MatchDirection.Vertical true) st := by
      unfold vStep vRuns
      rw [scanFrom_eq_foldl]
    obtain ⟨f, hf, hfd⟩ :=
      foldl_flushRun_extend_dir (fun r => (r, c)) MatchDirection.Vertical true
        (vRuns b c) st
    rw [List.foldl_cons]
    refine ⟨f ++ e, ?_, ?_⟩
    · rw [he, hvs, hf, List.append_assoc]
    · intro m hm
      rcases List.mem_append.mp hm with hm | hm
      · exact hfd m hm
      · exact hd m hm

theorem filter_eq_single_of_uniq {α : Type} (l : List α) (p : α → Bool) (a : α)
    (hnd : l.Nodup) (ha : a ∈ l) (hpa : p a = true)
    (huniq : ∀ x ∈ l, p x = true → x = a) :
    l.filter p = [a] := by
  induction l with
  | nil => cases ha
  | cons x xs ih =>
    rcases List.mem_cons.mp ha with rfl | hxs
    · rw [List.filter_cons_of_pos hpa]
      have hrest : xs.filter p = [] := by
        rw [List.filter_eq_nil_iff]
        intro y hy hpy
        have hya : y = a := huniq y (List.mem_cons_of_mem _ hy) hpy
        subst hya
        exact (List.nodup_cons.mp hnd).1 hy
      rw [hrest]
    · have hpx : p x = false := by
        cases hx : p x with
        | false => rfl
        | true =>
          have : x = a := huniq x (List.mem_cons_self _ _) hx
          subst this
          exact absurd hxs (List.nodup_cons.mp hnd).1
      rw [List.filter_cons_of_neg (by simp [hpx])]
      exact ih (List.nodup_cons.mp hnd).2 hxs
        (fun y hy hpy => huniq y (List.mem_cons_of_mem _ hy) hpy)

theorem flatten_map_single (f : Nat → List Match) (x : Match) (r : Nat) :
    ∀ (l : List Nat), l.Nodup → r ∈ l →
      (∀ r' ∈ l, f r' = if r' = r then [x] else []) →
      (l.map f).flatten = [x] := by
  intro l
  induction l with
  | nil => intro _ h; cases h
  | cons a rest ih =>
    intro hnd hmem hf
    rw [List.map_cons, List.flatten_cons]
    rcases List.mem_cons.mp hmem with rfl | hrest
    · rw [hf r (List.mem_cons_self _ _), if_pos rfl]
      have hrest0 : (rest.map f).flatten = [] := by
        rw [List.flatten_eq_nil_iff]
        intro ys hys
        obtain ⟨r', hr', rfl⟩ := List.mem_map.mp hys
        rw [hf r' (List.mem_cons_of_mem _ hr')]
        rw [if_neg ?_]
        intro hcon
        subst hcon
        exact (List.nodup_cons.mp hnd).1 hr'
      rw [hrest0]
      rfl
    · have ha : f a = [] := by
        rw [hf a (List.mem_cons_self _ _)]
        rw [if_neg ?_]
        intro hcon
        subst hcon
        exact (List.nodup_cons.mp hnd).1 hrest
      rw [ha, List.nil_append]
      exact ih (List.nodup_cons.mp hnd).2 hrest
        (fun r' hr' => hf r' (List.mem_cons_of_mem _ hr'))

/-- C4: a row holding a maximal run of exactly four adjacent equal-type
non-animating tiles produces exactly one reported horizontal match
touching those cells: the single match of length 4 covering all four
cells — not two overlapping length-3 matches. -/
theorem four_run_single_match (b : Board) (r c0 : Nat) (hr : r < BOARD_ROWS)
    (hrun : MaxRun (rowLine b r) c0 4) :
    (findMatches b).filter
        (fun m => m.direction == MatchDirection.Horizontal
          && m.tiles.any (fun p => (runCells (fun c => (r, c)) (c0, 4)).contains p))
      = [⟨runCells (fun c => (r, c)) (c0, 4), MatchDirection.Horizontal, 4⟩] := by
  have hsplit : ∃ e1, findMatches b = (hPass b).1 ++ e1 ∧
      ∀ m ∈ e1, m.direction = MatchDirection.Vertical := by
    obtain ⟨e, he, hd⟩ := foldl_vStep_extend_dir b (List.range BOARD_COLS) (hPass b)
    refine ⟨e, ?_, hd⟩
    unfold findMatches
    rw [vPass_eq_foldl]
    exact he
  obtain ⟨e1, hfm, hdir⟩ := hsplit
  rw [hfm, List.filter_append]
  have hv : e1.filter
      (fun m => m.direction == MatchDirection.Horizontal
        && m.tiles.any (fun p => (runCells (fun c => (r, c)) (c0, 4)).contains p))
      = [] := by
    rw [List.filter_eq_nil_iff]
    intro m hm
    simp [hdir m hm]
  rw [hv, List.append_nil]
  have hp1 : (hPass b).1 = ((List.range BOARD_ROWS).map (hMatchesRow b)).flatten := by
    rw [hPass_eq]
  rw [hp1, List.filter_flatten, List.map_map]
  apply flatten_map_single _ _ r (List.range BOARD_ROWS) (List.nodup_range _)
    (List.mem_range.mpr hr)
  intro rr hrr0
  by_cases hrr : rr = r
  · subst hrr
    rw [if_pos rfl]
    show (hMatchesRow b rr).filter _ = _
    unfold hMatchesRow
    rw [List.filter_map]
    have hnd : (hRuns b rr).Nodup :=
      (hRuns_sorted b rr).imp (fun h => by
        intro he
        subst he
        exact absurd h.1 (lt_irrefl _))
    have hmem0 : ((rr, c0) : Nat × Nat) ∈ runCells (fun c => (rr, c)) (c0, 4) :=
      (runCells_mem _ _ _).mpr ⟨0, by exact Nat.succ_pos 3, by simp⟩
    have hsingle : (hRuns b rr).filter
        ((fun m => m.direction == MatchDirection.Horizontal
          && m.tiles.any (fun p => (runCells (fun c => (rr, c)) (c0, 4)).contains p))
          ∘ mkMatch (fun c => (rr, c)) MatchDirection.Horizontal) = [(c0, 4)] := by
      apply filter_eq_single_of_uniq _ _ _ hnd
        ((hRuns_mem b rr c0 4).mpr ⟨hrun, by decide⟩)
      · show (MatchDirection.Horizontal == MatchDirection.Horizontal
          && (runCells (fun c => (rr, c)) (c0, 4)).any
            (fun p => (runCells (fun c => (rr, c)) (c0, 4)).contains p)) = true
        have hany : (runCells (fun c => (rr, c)) (c0, 4)).any
            (fun p => (runCells (fun c => (rr, c)) (c0, 4)).contains p) = true :=
          List.any_eq_true.mpr ⟨(rr, c0), hmem0, List.elem_eq_true_of_mem hmem0⟩
        rw [hany]
        rfl
      · intro run hmemr hp
        obtain ⟨hmax, hlen⟩ := (hRuns_mem b rr run.1 run.2).mp hmemr
        have hp0 : ((mkMatch (fun c => (rr, c)) MatchDirection.Horizontal run).direction
            == MatchDirection.Horizontal
            && (mkMatch (fun c => (rr, c)) MatchDirection.Horizontal run).tiles.any
              (fun p => (runCells (fun c => (rr, c)) (c0, 4)).contains p)) = true := hp
        rw [Bool.and_eq_true] at hp0
        have hany := hp0.2
        obtain ⟨pc, hpc, hcont⟩ := List.any_eq_true.mp hany
        obtain ⟨k, hk, rfl⟩ := (runCells_mem _ _ _).mp hpc
        have hmem2 := List.mem_of_elem_eq_true hcont
        obtain ⟨j, hj, hpj⟩ := (runCells_mem _ _ _).mp hmem2
        have hsnd : run.1 + k = c0 + j := congrArg Prod.snd hpj
        obtain ⟨ha1, ha2⟩ := maxRun_unique (rowLine b rr) run.1 run.2 c0 4
          (run.1 + k) hmax hrun (by omega) (by omega) (by omega) (by omega)
        have hpe : run = (run.1, run.2) := rfl
        rw [hpe, ha1, ha2]
    rw [hsingle]
    rfl
  · rw [if_neg hrr]
    show (hMatchesRow b rr).filter _ = _
    rw [List.filter_eq_nil_iff]
    intro m hm
    unfold hMatchesRow at hm
    obtain ⟨run, hrunm, rfl⟩ := List.mem_map.mp hm
    intro hcon
    rw [Bool.and_eq_true] at hcon
    have hany := hcon.2
    obtain ⟨pc, hpc, hcont⟩ := List.any_eq_true.mp hany
    obtain ⟨k, hk, rfl⟩ := (runCells_mem _ _ _).mp hpc
    have hmem2 := List.mem_of_elem_eq_true hcont
    obtain ⟨j, hj, hpj⟩ := (runCells_mem _ _ _).mp hmem2
    exact hrr (congrArg Prod.fst hpj)

/-- Witness for the four-run case: on the concrete board whose row 2,
columns 1-4, holds four equal tiles, the single reported horizontal
match is the length-4 one. -/
theorem four_run_single_match_witness :
    (findMatches fourRunBoard).filter
        (fun m => m.direction == MatchDirection.Horizontal
          && m.tiles.any (fun p => (runCells (fun c => (2, c)) (1, 4)).contains p))
      = [⟨runCells (fun c => (2, c)) (1, 4), MatchDirection.Horizontal, 4⟩] :=
  four_run_single_match fourRunBoard 2 1 (by decide) ⟨0, by decide⟩

/-! ## C1: overlap of a horizontal and a vertical run -/

/-- The tiles the vertical pass reports for one flushed run of column
`c`, given the `matched` marks `base` accumulated by the horizontal
pass: the run's cells except the ones already claimed. -/
def vTilesOf (base : List (Nat × Nat)) (c : Nat) (run : Nat × Nat) :
    List (Nat × Nat) :=
  (runCells (fun r => (r, c)) run).filter (fun p => !(base.contains p))

/-- The match the vertical pass reports for one flushed run of column
`c` (none when every cell was already claimed); its `length` is the
full run length regardless of the omitted cells. -/
def vMatchOf (base : List (Nat × Nat)) (c : Nat) (run : Nat × Nat) :
    Option Match :=
  if (vTilesOf base c run).isEmpty then none
  else some ⟨vTilesOf base c run, MatchDirection.Vertical, run.2⟩

theorem contains_eq_false_of_not_mem {l : List (Nat × Nat)} {p : Nat × Nat}
    (h : p ∉ l) : l.contains p = false := by
  cases hx : l.contains p with
  | false => rfl
  | true => exact absurd (List.mem_of_elem_eq_true hx) h

theorem foldl_flushRunT_chars (c : Nat) (base : List (Nat × Nat)) :
    ∀ (runs : List (Nat × Nat)) (st : List Match × List (Nat × Nat))
      (extra : List (Nat × Nat)),
      st.2 = base ++ extra →
      (∀ q ∈ extra, q.2 = c →
        ∀ run ∈ runs, ¬(run.1 ≤ q.1 ∧ q.1 < run.1 + run.2)) →
      runs.Pairwise (fun a b => a.1 < b.1 ∧ a.1 + a.2 ≤ b.1) →
      (runs.foldl (flushRun (fun r => (r, c)) MatchDirection.Vertical true) st).1
          = st.1 ++ runs.filterMap (vMatchOf base c) ∧
        ∃ ext, (runs.foldl (flushRun (fun r => (r, c)) MatchDirection.Vertical true) st).2
            = st.2 ++ ext ∧ ∀ q ∈ ext, q.2 = c := by
  intro runs
  induction runs with
  | nil =>
    intro st extra hst hfresh hpw
    refine ⟨by simp, [], by simp, ?_⟩
    intro q hq
    cases hq
  | cons run rest ih =>
    intro st extra hst hfresh hpw
    rw [List.foldl_cons]
    have htiles : (runCells (fun r => (r, c)) run).filter
        (fun p => !(st.2.contains p)) = vTilesOf base c run := by
      unfold vTilesOf
      apply List.filter_congr
      intro p hp
      obtain ⟨k, hk, rfl⟩ := (runCells_mem _ _ _).mp hp
      have hcont : st.2.contains (run.1 + k, c) = base.contains (run.1 + k, c) := by
        cases hb : base.contains (run.1 + k, c) with
        | true =>
          have hm : ((run.1 + k, c) : Nat × Nat) ∈ st.2 := by
            rw [hst]
            exact List.mem_append_left _ (List.mem_of_elem_eq_true hb)
          exact List.elem_eq_true_of_mem hm
        | false =>
          apply contains_eq_false_of_not_mem
          rw [hst]
          intro hm
          rcases List.mem_append.mp hm with hm | hm
          · have hb2 : base.contains (run.1 + k, c) = true :=
              List.elem_eq_true_of_mem hm
            rw [hb] at hb2
            cases hb2
          · exact hfresh _ hm rfl run (List.mem_cons_self _ _) ⟨by omega, by omega⟩
      rw [hcont]
    have hfl := flushRun_true (fun r => (r, c)) MatchDirection.Vertical st run
    rw [htiles] at hfl
    by_cases hemp : (vTilesOf base c run).isEmpty = true
    · have hv : vMatchOf base c run = none := by
        unfold vMatchOf
        rw [if_pos hemp]
      have hte : vTilesOf base c run = [] := List.isEmpty_iff.mp hemp
      have hfr : flushRun (fun r => (r, c)) MatchDirection.Vertical true st run
          = (st.1, st.2) := by
        rw [hfl, if_pos hemp, hte]
        simp
      rw [hfr]
      have hfresh2 : ∀ q ∈ extra, q.2 = c →
          ∀ run' ∈ rest, ¬(run'.1 ≤ q.1 ∧ q.1 < run'.1 + run'.2) :=
        fun q hq hqc run' hr' => hfresh q hq hqc run' (List.mem_cons_of_mem _ hr')
      obtain ⟨h1, ext, h2, h3⟩ := ih (st.1, st.2) extra hst hfresh2
        (List.pairwise_cons.mp hpw).2
      refine ⟨?_, ext, h2, h3⟩
      rw [h1]
      have hfm : (run :: rest).filterMap (vMatchOf base c)
          = rest.filterMap (vMatchOf base c) := by
        rw [List.filterMap_cons, hv]
      rw [hfm]
    · have hv : vMatchOf base c run
          = some ⟨vTilesOf base c run, MatchDirection.Vertical, run.2⟩ := by
        unfold vMatchOf
        rw [if_neg hemp]
      have hfr : flushRun (fun r => (r, c)) MatchDirection.Vertical true st run
          = (st.1 ++ [⟨vTilesOf base c run, MatchDirection.Vertical, run.2⟩],
             st.2 ++ vTilesOf base c run) := by
        rw [hfl, if_neg hemp]
      rw [hfr]
      have hst2 : (st.2 ++ vTilesOf base c run)
          = base ++ (extra ++ vTilesOf base c run) := by
        rw [hst, List.append_assoc]
      have hfresh2 : ∀ q ∈ extra ++ vTilesOf base c run, q.2 = c →
          ∀ run' ∈ rest, ¬(run'.1 ≤ q.1 ∧ q.1 < run'.1 + run'.2) := by
        intro q hq hqc run' hr' hin
        rcases List.mem_append.mp hq with hq | hq
        · exact hfresh q hq hqc run' (List.mem_cons_of_mem _ hr') hin
        · have hq' : q ∈ runCells (fun r => (r, c)) run := List.mem_of_mem_filter hq
          obtain ⟨k, hk, rfl⟩ := (runCells_mem _ _ _).mp hq'
          have hord := (List.pairwise_cons.mp hpw).1 run' hr'
          omega
      obtain ⟨h1, ext, h2, h3⟩ := ih
        (st.1 ++ [⟨vTilesOf base c run, MatchDirection.Vertical, run.2⟩],
         st.2 ++ vTilesOf base c run)
        (extra ++ vTilesOf base c run) hst2 hfresh2 (List.pairwise_cons.mp hpw).2
      constructor
      · rw [h1]
        show st.1 ++ [_] ++ _ = _
        rw [List.append_assoc]
        have hfm : (run :: rest).filterMap (vMatchOf base c)
            = ⟨vTilesOf base c run, MatchDirection.Vertical, run.2⟩
              :: rest.filterMap (vMatchOf base c) := by
          rw [List.filterMap_cons, hv]
        rw [hfm]
        rfl
      · refine ⟨vTilesOf base c run ++ ext, ?_, ?_⟩
        · rw [h2]
          show st.2 ++ _ ++ ext = st.2 ++ (_ ++ ext)
          rw [List.append_assoc]
        · intro q hq
          rcases List.mem_append.mp hq with hq | hq
          · have hq' : q ∈ runCells (fun r => (r, c)) run := List.mem_of_mem_filter hq
            obtain ⟨k, hk, rfl⟩ := (runCells_mem _ _ _).mp hq'
            rfl
          · exact h3 q hq

theorem foldl_vStep_chars (b : Board) :
    ∀ (cols : List Nat) (st : List Match × List (Nat × Nat))
      (extra : List (Nat × Nat)),
      st.2 = (hPass b).2 ++ extra →
      (∀ q ∈ extra, q.2 ∉ cols) →
      cols.Nodup →
      (cols.foldl (vStep b) st).1
        = st.1 ++ (cols.map (fun c =>
            (vRuns b c).filterMap (vMatchOf (hPass b).2 c))).flatten := by
  intro cols
  induction cols with
  | nil =>
    intro st extra h1 h2 h3
    simp
  | cons c rest ih =>
    intro st extra hst hfr hnd
    rw [List.foldl_cons]
    have hvs : vStep b st c = (vRuns b c).foldl
        (flushRun (fun r => (r, c)) MatchDirection.Vertical true) st := by
      unfold vStep vRuns
      rw [scanFrom_eq_foldl]
    have hfresh0 : ∀ q ∈ extra, q.2 = c →
        ∀ run ∈ vRuns b c, ¬(run.1 ≤ q.1 ∧ q.1 < run.1 + run.2) := by
      intro q hq hqc run hrun
      exact absurd (by rw [hqc]; exact List.mem_cons_self _ _) (hfr q hq)
    obtain ⟨h1, ext, h2, h3⟩ := foldl_flushRunT_chars c (hPass b).2 (vRuns b c)
      st extra hst hfresh0 (vRuns_sorted b c)
    rw [← hvs] at h1 h2
    have hfr2 : ∀ q ∈ extra ++ ext, q.2 ∉ rest := by
      intro q hq
      rcases List.mem_append.mp hq with hq | hq
      · intro hmem
        exact hfr q hq (List.mem_cons_of_mem _ hmem)
      · rw [h3 q hq]
        exact (List.nodup_cons.mp hnd).1
    have ih2 := ih (vStep b st c) (extra ++ ext)
      (by rw [h2, hst, List.append_assoc]) hfr2 (List.nodup_cons.mp hnd).2
    rw [ih2, h1]
    rw [List.map_cons, List.flatten_cons, List.append_assoc]

/-- `findMatches` decomposed: the horizontal matches (full runs) are
followed, column by column, by the vertical matches, whose tiles lists
are filtered against the horizontal `matched` marks and which are
suppressed when every cell is already claimed. -/
theorem findMatches_eq (b : Board) :
    findMatches b = (hPass b).1 ++
      ((List.range BOARD_COLS).map (fun c =>
        (vRuns b c).filterMap (vMatchOf (hPass b).2 c))).flatten := by
  unfold findMatches
  rw [vPass_eq_foldl]
  exact foldl_vStep_chars b (List.range BOARD_COLS) (hPass b) []
    (by simp) (by simp) (List.nodup_range _)

/-- C1 (original claim, refuted): on the cross board the tile (0,0)
lies in both a horizontal and a vertical run of length 3; both matches
are reported with independently computed lengths, but the vertical
match's tiles list holds only two cells — the shared cell (0,0) is
omitted from the reported match itself, not merely de-duplicated in the
destroy set. -/
theorem cross_shared_tile_omitted :
    findMatches crossBoard
      = [⟨[(0, 0), (0, 1), (0, 2)], MatchDirection.Horizontal, 3⟩,
         ⟨[(1, 0), (2, 0)], MatchDirection.Vertical, 3⟩] ∧
      ¬ ∃ m ∈ findMatches crossBoard, m.direction = MatchDirection.Vertical ∧
          ((0, 0) : Nat × Nat) ∈ m.tiles :=
  ⟨by decide, by decide⟩

/-- C1 (amended): when a tile lies both in a horizontal and in a
vertical qualifying run, the pass reports the horizontal match with all
tiles of its run, and reports a vertical match whose `length` is the
full independently computed run length but whose tiles list omits every
cell the horizontal pass already claimed — in particular the shared
tile — the vertical match being suppressed entirely when all its cells
are claimed. -/
theorem cross_matches_reported (b : Board) (r c c0 r0 lenH lenV : Nat)
    (hr : r < BOARD_ROWS) (hc : c < BOARD_COLS)
    (hH : MaxRun (rowLine b r) c0 lenH) (hlenH : MIN_MATCH_LENGTH ≤ lenH)
    (hcin : c0 ≤ c ∧ c < c0 + lenH)
    (hV : MaxRun (colLine b c) r0 lenV) (hlenV : MIN_MATCH_LENGTH ≤ lenV)
    (hrin : r0 ≤ r ∧ r < r0 + lenV) :
    ((⟨runCells (fun cc => (r, cc)) (c0, lenH), MatchDirection.Horizontal, lenH⟩ : Match)
        ∈ findMatches b) ∧
      (((r, c) : Nat × Nat) ∈ runCells (fun cc => (r, cc)) (c0, lenH)) ∧
      (((r, c) : Nat × Nat) ∉ vTilesOf (hPass b).2 c (r0, lenV)) ∧
      (vTilesOf (hPass b).2 c (r0, lenV) ≠ [] →
        (⟨vTilesOf (hPass b).2 c (r0, lenV), MatchDirection.Vertical, lenV⟩ : Match)
          ∈ findMatches b) := by
  have h3H : (3 : Nat) ≤ lenH := hlenH
  have hHmem : (⟨runCells (fun cc => (r, cc)) (c0, lenH),
      MatchDirection.Horizontal, lenH⟩ : Match) ∈ (hPass b).1 := by
    rw [hPass_fst_mem]
    refine ⟨r, hr, ?_⟩
    unfold hMatchesRow
    exact List.mem_map.mpr ⟨(c0, lenH), (hRuns_mem b r c0 lenH).mpr ⟨hH, hlenH⟩, rfl⟩
  have hcell : ((r, c) : Nat × Nat) ∈ runCells (fun cc => (r, cc)) (c0, lenH) :=
    (runCells_mem _ _ _).mpr ⟨c - c0, by
        show c - c0 < lenH
        omega,
      by
        show ((r, c) : Nat × Nat) = (r, c0 + (c - c0))
        have he : c0 + (c - c0) = c := by omega
        rw [he]⟩
  have hmarked : ((r, c) : Nat × Nat) ∈ (hPass b).2 := by
    rw [hPass_snd_iff]
    exact ⟨hr, c0, lenH, hlenH, hH, hcin.1, hcin.2⟩
  have hnot : ((r, c) : Nat × Nat) ∉ vTilesOf (hPass b).2 c (r0, lenV) := by
    intro hmem
    have h2 := (List.mem_filter.mp hmem).2
    have hct : (hPass b).2.contains (r, c) = true :=
      List.elem_eq_true_of_mem hmarked
    rw [hct] at h2
    simp at h2
  have hfm := findMatches_eq b
  refine ⟨?_, hcell, hnot, ?_⟩
  · rw [hfm]
    exact List.mem_append_left _ hHmem
  · intro hne
    rw [hfm]
    apply List.mem_append_right
    rw [List.mem_flatten]
    refine ⟨(vRuns b c).filterMap (vMatchOf (hPass b).2 c), ?_, ?_⟩
    · exact List.mem_map.mpr ⟨c, List.mem_range.mpr hc, rfl⟩
    · apply List.mem_filterMap.mpr
      refine ⟨(r0, lenV), (vRuns_mem b c r0 lenV).mpr ⟨hV, hlenV⟩, ?_⟩
      unfold vMatchOf
      rw [if_neg (fun hcon => hne (List.isEmpty_iff.mp hcon))]

/-- Witness for the amended overlap behaviour, on the cross board: the
horizontal match carries its three cells including (0,0); the vertical
match exists but (0,0) is omitted from its tiles. -/
theorem cross_matches_reported_witness :
    ((⟨runCells (fun cc => ((0 : Nat), cc)) (0, 3), MatchDirection.Horizontal, 3⟩ : Match)
        ∈ findMatches crossBoard) ∧
      (((0, 0) : Nat × Nat) ∉ vTilesOf (hPass crossBoard).2 0 (0, 3)) ∧
      ((⟨vTilesOf (hPass crossBoard).2 0 (0, 3), MatchDirection.Vertical, 3⟩ : Match)
        ∈ findMatches crossBoard) := by
  have h := cross_matches_reported crossBoard 0 0 0 0 3 3 (by decide) (by decide)
    ⟨0, by decide⟩ (by decide) (by decide) ⟨0, by decide⟩ (by decide) (by decide)
  exact ⟨h.1, h.2.2.1, h.2.2.2 (by decide)⟩

/-! ## C10: position coherence across operations -/

theorem gridGet_some_bounds {g : Grid} {r c : Nat} {t : Tile}
    (h : gridGet g r c = some t) :
    r < g.length ∧ c < ((g.get? r).getD []).length := by
  unfold gridGet at h
  cases hr : g.get? r with
  | none =>
    rw [hr] at h
    simp at h
  | some row =>
    rw [hr] at h
    have h' : ((row.get? c).getD none) = some t := h
    have h2 : c < row.length := by
      cases hc : row.get? c with
      | none =>
        rw [hc] at h'
        exact Option.noConfusion h'
      | some x => exact get?_some_lt hc
    exact ⟨get?_some_lt hr, h2⟩

theorem gridSet_row_length (g : Grid) (r0 c0 : Nat) (v : Option Tile) (r : Nat) :
    (((gridSet g r0 c0 v).get? r).getD []).length
      = ((g.get? r).getD []).length := by
  unfold gridSet
  by_cases hrr : r0 = r
  · subst hrr
    by_cases hlt : r0 < g.length
    · rw [List.get?_set_eq_of_lt _ hlt]
      show ((((g.get? r0).getD []).set c0 v)).length = _
      rw [List.length_set]
    · have h1 : (g.set r0 (((g.get? r0).getD []).set c0 v)).get? r0 = none :=
        List.get?_eq_none.mpr (by rw [List.length_set]; omega)
      have h2 : g.get? r0 = none := List.get?_eq_none.mpr (by omega)
      rw [h1, h2]
  · rw [List.get?_set_ne _ _ hrr]

theorem gridGet_gridSet_same (g : Grid) (r c : Nat) (v : Option Tile)
    (hr : r < g.length) (hc : c < ((g.get? r).getD []).length) :
    gridGet (gridSet g r c v) r c = v := by
  unfold gridGet gridSet
  rw [List.get?_set_eq_of_lt _ hr]
  show ((((g.get? r).getD []).set c v).get? c).getD none = v
  rw [List.get?_set_eq_of_lt _ hc]
  rfl

theorem gridGet_gridSet_other (g : Grid) (r c : Nat) (v : Option Tile)
    (r' c' : Nat) (hne : ¬(r' = r ∧ c' = c)) :
    gridGet (gridSet g r c v) r' c' = gridGet g r' c' := by
  unfold gridGet gridSet
  by_cases hrr : r' = r
  · subst hrr
    have hcc : ¬(c' = c) := fun h => hne ⟨rfl, h⟩
    by_cases hlt : r' < g.length
    · rw [List.get?_set_eq_of_lt _ hlt]
      show ((((g.get? r').getD []).set c v).get? c').getD none = _
      rw [List.get?_set_ne _ _ (fun h => hcc h.symm)]
    · have h1 : (g.set r' (((g.get? r').getD []).set c v)).get? r' = none :=
        List.get?_eq_none.mpr (by rw [List.length_set]; omega)
      have h2 : g.get? r' = none := List.get?_eq_none.mpr (by omega)
      rw [h1, h2]
  · rw [List.get?_set_ne _ _ (fun h => hrr h.symm)]

theorem markStateAt_coherent (g : Grid) (r0 c0 : Nat) (s : TileState)
    (hco : ∀ r c t, gridGet g r c = some t → t.row = r ∧ t.col = c) :
    ∀ r c t, gridGet (markStateAt g r0 c0 s) r c = some t →
      t.row = r ∧ t.col = c := by
  intro r c t h
  unfold markStateAt at h
  cases hx : gridGet g r0 c0 with
  | none =>
    rw [hx] at h
    have h' : gridGet g r c = some t := h
    exact hco r c t h'
  | some t0 =>
    rw [hx] at h
    have h' : gridGet (gridSet g r0 c0 (some { t0 with state := s })) r c
        = some t := h
    by_cases hsame : r = r0 ∧ c = c0
    · obtain ⟨he1, he2⟩ := hsame
      rw [he1, he2] at h' ⊢
      obtain ⟨hb1, hb2⟩ := gridGet_some_bounds hx
      rw [gridGet_gridSet_same g r0 c0 _ hb1 hb2] at h'
      injection h' with h'
      subst h'
      exact hco r0 c0 t0 hx
    · rw [gridGet_gridSet_other g r0 c0 _ r c hsame] at h'
      exact hco r c t h'

theorem deselectTile_coherent (b : Board) (hco : Coherent b) :
    Coherent (deselectTile b) := by
  unfold deselectTile
  cases hs : b.selected with
  | none => exact hco
  | some p =>
    obtain ⟨r, c⟩ := p
    exact markStateAt_coherent b.grid r c TileState.Idle hco

theorem selectTile_coherent (b : Board) (row col : Int) (hco : Coherent b) :
    Coherent (selectTile b row col) := by
  unfold selectTile
  cases hgt : b.getTile row col with
  | none => exact hco
  | some t =>
    dsimp only
    by_cases hproc : b.isProcessing = true
    · rw [if_pos hproc]
      exact hco
    · rw [if_neg hproc]
      cases hsel : b.selected with
      | none =>
        exact markStateAt_coherent b.grid t.row t.col TileState.Selected hco
      | some p =>
        obtain ⟨r, c⟩ := p
        exact markStateAt_coherent _ t.row t.col TileState.Selected
          (markStateAt_coherent b.grid r c TileState.Idle hco)

theorem swapTilesLogical_coherent (g : Grid) (t1 t2 : Tile)
    (hco : ∀ r c t, gridGet g r c = some t → t.row = r ∧ t.col = c)
    (h1 : gridGet g t1.row t1.col = some t1)
    (h2 : gridGet g t2.row t2.col = some t2) :
    ∀ r c t, gridGet (swapTilesLogical g t1 t2) r c = some t →
      t.row = r ∧ t.col = c := by
  intro r c t h
  have h' : gridGet (gridSet (gridSet g t1.row t1.col
      (some { t2 with row := t1.row, col := t1.col })) t2.row t2.col
      (some { t1 with row := t2.row, col := t2.col })) r c = some t := h
  obtain ⟨hb1r, hb1c⟩ := gridGet_some_bounds h1
  obtain ⟨hb2r, hb2c⟩ := gridGet_some_bounds h2
  by_cases hcell2 : r = t2.row ∧ c = t2.col
  · obtain ⟨he1, he2⟩ := hcell2
    rw [he1, he2] at h' ⊢
    have hlen : t2.row < (gridSet g t1.row t1.col
        (some { t2 with row := t1.row, col := t1.col })).length := by
      unfold gridSet
      rw [List.length_set]
      exact hb2r
    have hlenc : t2.col < (((gridSet g t1.row t1.col
        (some { t2 with row := t1.row, col := t1.col })).get? t2.row).getD []).length := by
      rw [gridSet_row_length]
      exact hb2c
    rw [gridGet_gridSet_same _ _ _ _ hlen hlenc] at h'
    injection h' with h'
    subst h'
    exact ⟨rfl, rfl⟩
  · rw [gridGet_gridSet_other _ _ _ _ _ _ hcell2] at h'
    by_cases hcell1 : r = t1.row ∧ c = t1.col
    · obtain ⟨he1, he2⟩ := hcell1
      rw [he1, he2] at h' ⊢
      rw [gridGet_gridSet_same g t1.row t1.col _ hb1r hb1c] at h'
      injection h' with h'
      subst h'
      exact ⟨rfl, rfl⟩
    · rw [gridGet_gridSet_other _ _ _ _ _ _ hcell1] at h'
      exact hco r c t h'

theorem getTile_eq (b : Board) (row col : Int) (t : Tile)
    (h : b.getTile row col = some t) :
    gridGet b.grid row.toNat col.toNat = some t ∧
      0 ≤ row ∧ row < (BOARD_ROWS : Int) ∧ 0 ≤ col ∧ col < (BOARD_COLS : Int) := by
  unfold Board.getTile at h
  by_cases hb : (row < 0 || row ≥ (BOARD_ROWS : Int) || col < 0
      || col ≥ (BOARD_COLS : Int)) = true
  · rw [if_pos hb] at h
    cases h
  · rw [if_neg hb] at h
    simp only [Bool.or_eq_true, decide_eq_true_eq, not_or] at hb
    obtain ⟨⟨⟨hb1, hb2⟩, hb3⟩, hb4⟩ := hb
    exact ⟨h, by omega, by omega, by omega, by omega⟩

theorem adjacentReq_ne (p1 p2 : Int × Int) (h : adjacentReq p1 p2 = true) :
    p1 ≠ p2 := by
  intro he
  rw [he] at h
  unfold adjacentReq at h
  simp at h

theorem toNat_pairs_ne (p1 p2 : Int × Int) (h1 : 0 ≤ p1.1) (h2 : 0 ≤ p1.2)
    (h3 : 0 ≤ p2.1) (h4 : 0 ≤ p2.2) (hne : p1 ≠ p2) :
    ¬(p1.1.toNat = p2.1.toNat ∧ p1.2.toNat = p2.2.toNat) := by
  intro hand
  obtain ⟨ha, hb⟩ := hand
  apply hne
  have e1 : p1.1 = p2.1 := by omega
  have e2 : p1.2 = p2.2 := by omega
  have hp : p1 = (p1.1, p1.2) := rfl
  have hq : p2 = (p2.1, p2.2) := rfl
  rw [hp, hq, e1, e2]

theorem trySwap_snd_cases (b : Board) (p1 p2 : Int × Int) :
    (trySwap b p1 p2).2 = b ∨
      ∃ t1 t2, b.getTile p1.1 p1.2 = some t1 ∧ b.getTile p2.1 p2.2 = some t2 ∧
        adjacentReq p1 p2 = true ∧
        ((trySwap b p1 p2).2
            = { b with
                grid := markStateAt (markStateAt
                  (swapTilesLogical (swapTilesLogical b.grid t1 t2)
                    { t1 with row := t2.row, col := t2.col }
                    { t2 with row := t1.row, col := t1.col })
                  t1.row t1.col TileState.Swapping) t2.row t2.col TileState.Swapping,
                selected := swapSel (swapSel b.selected (t1.row, t1.col) (t2.row, t2.col))
                  (t2.row, t2.col) (t1.row, t1.col) } ∨
          (trySwap b p1 p2).2
            = { deselectTile { b with
                  grid := swapTilesLogical b.grid t1 t2,
                  selected := swapSel b.selected (t1.row, t1.col) (t2.row, t2.col),
                  isProcessing := true, comboCount := 0 } with
                grid := markStateAt (markStateAt
                  (deselectTile { b with
                    grid := swapTilesLogical b.grid t1 t2,
                    selected := swapSel b.selected (t1.row, t1.col) (t2.row, t2.col),
                    isProcessing := true, comboCount := 0 }).grid
                  t2.row t2.col TileState.Swapping) t1.row t1.col TileState.Swapping }) := by
  unfold trySwap
  by_cases h1 : b.isProcessing = true
  · rw [if_pos h1]
    exact Or.inl rfl
  rw [if_neg h1]
  by_cases h2 : (!(adjacentReq p1 p2)) = true
  · rw [if_pos h2]
    exact Or.inl rfl
  rw [if_neg h2]
  have hadj : adjacentReq p1 p2 = true := by
    cases hx : adjacentReq p1 p2 with
    | true => rfl
    | false =>
      rw [hx] at h2
      simp at h2
  cases hg1 : b.getTile p1.1 p1.2 with
  | none => exact Or.inl rfl
  | some t1 =>
    cases hg2 : b.getTile p2.1 p2.2 with
    | none => exact Or.inl rfl
    | some t2 =>
      dsimp only
      by_cases hms : (findMatches
          { b with
            grid := swapTilesLogical b.grid t1 t2,
            selected := swapSel b.selected (t1.row, t1.col) (t2.row, t2.col) }).isEmpty = true
      · rw [if_pos hms]
        exact Or.inr ⟨t1, t2, rfl, rfl, hadj, Or.inl rfl⟩
      · rw [if_neg hms]
        exact Or.inr ⟨t1, t2, rfl, rfl, hadj, Or.inr rfl⟩

theorem trySwap_coherent (b : Board) (p1 p2 : Int × Int) (hco : Coherent b) :
    Coherent (trySwap b p1 p2).2 := by
  rcases trySwap_snd_cases b p1 p2 with h | ⟨t1, t2, hg1, hg2, hadj, h | h⟩
  · rw [h]
    exact hco
  · obtain ⟨hga1, hp1a, hp1b, hp1c, hp1d⟩ := getTile_eq b p1.1 p1.2 t1 hg1
    obtain ⟨hga2, hp2a, hp2b, hp2c, hp2d⟩ := getTile_eq b p2.1 p2.2 t2 hg2
    obtain ⟨ht1r, ht1c⟩ := hco _ _ _ hga1
    obtain ⟨ht2r, ht2c⟩ := hco _ _ _ hga2
    have hga1s : gridGet b.grid t1.row t1.col = some t1 := by
      rw [ht1r, ht1c]
      exact hga1
    have hga2s : gridGet b.grid t2.row t2.col = some t2 := by
      rw [ht2r, ht2c]
      exact hga2
    have hco1 := swapTilesLogical_coherent b.grid t1 t2 hco hga1s hga2s
    have hne : ¬(t1.row = t2.row ∧ t1.col = t2.col) := by
      have hnp := adjacentReq_ne p1 p2 hadj
      have hpp := toNat_pairs_ne p1 p2 hp1a hp1c hp2a hp2c hnp
      intro hand
      apply hpp
      constructor
      · rw [← ht1r, ← ht2r]
        exact hand.1
      · rw [← ht1c, ← ht2c]
        exact hand.2
    obtain ⟨hb1r, hb1c⟩ := gridGet_some_bounds hga1s
    obtain ⟨hb2r, hb2c⟩ := gridGet_some_bounds hga2s
    have hlen2 : t2.row < (gridSet b.grid t1.row t1.col
        (some { t2 with row := t1.row, col := t1.col })).length := by
      unfold gridSet
      rw [List.length_set]
      exact hb2r
    have hlenc2 : t2.col < (((gridSet b.grid t1.row t1.col
        (some { t2 with row := t1.row, col := t1.col })).get? t2.row).getD []).length := by
      rw [gridSet_row_length]
      exact hb2c
    have hg1s : gridGet (swapTilesLogical b.grid t1 t2) t2.row t2.col
        = some { t1 with row := t2.row, col := t2.col } := by
      show gridGet (gridSet (gridSet b.grid t1.row t1.col
        (some { t2 with row := t1.row, col := t1.col })) t2.row t2.col
        (some { t1 with row := t2.row, col := t2.col })) t2.row t2.col = _
      rw [gridGet_gridSet_same _ _ _ _ hlen2 hlenc2]
    have hg2s : gridGet (swapTilesLogical b.grid t1 t2) t1.row t1.col
        = some { t2 with row := t1.row, col := t1.col } := by
      show gridGet (gridSet (gridSet b.grid t1.row t1.col
        (some { t2 with row := t1.row, col := t1.col })) t2.row t2.col
        (some { t1 with row := t2.row, col := t2.col })) t1.row t1.col = _
      rw [gridGet_gridSet_other _ _ _ _ _ _ hne]
      rw [gridGet_gridSet_same b.grid t1.row t1.col _ hb1r hb1c]
    have hco2 := swapTilesLogical_coherent (swapTilesLogical b.grid t1 t2)
      { t1 with row := t2.row, col := t2.col }
      { t2 with row := t1.row, col := t1.col }
      hco1 hg1s hg2s
    rw [h]
    exact markStateAt_coherent _ t2.row t2.col TileState.Swapping
      (markStateAt_coherent _ t1.row t1.col TileState.Swapping hco2)
  · obtain ⟨hga1, hp1a, hp1b, hp1c, hp1d⟩ := getTile_eq b p1.1 p1.2 t1 hg1
    obtain ⟨hga2, hp2a, hp2b, hp2c, hp2d⟩ := getTile_eq b p2.1 p2.2 t2 hg2
    obtain ⟨ht1r, ht1c⟩ := hco _ _ _ hga1
    obtain ⟨ht2r, ht2c⟩ := hco _ _ _ hga2
    have hga1s : gridGet b.grid t1.row t1.col = some t1 := by
      rw [ht1r, ht1c]
      exact hga1
    have hga2s : gridGet b.grid t2.row t2.col = some t2 := by
      rw [ht2r, ht2c]
      exact hga2
    have hco1 := swapTilesLogical_coherent b.grid t1 t2 hco hga1s hga2s
    have hcodesel : Coherent (deselectTile { b with
        grid := swapTilesLogical b.grid t1 t2,
        selected := swapSel b.selected (t1.row, t1.col) (t2.row, t2.col),
        isProcessing := true, comboCount := 0 }) :=
      deselectTile_coherent _ hco1
    rw [h]
    exact markStateAt_coherent _ t1.row t1.col TileState.Swapping
      (markStateAt_coherent _ t2.row t2.col TileState.Swapping hcodesel)

theorem shuffle_shape_eq (rng : Nat → Nat) (k : Nat) (b : Board) :
    (shuffle rng k b).grid.map (fun row => row.map (Option.map Tile.shape))
      = b.grid.map (fun row => row.map (Option.map Tile.shape)) := by
  have hperm := fisherYates_perm rng ((collectTypes b.grid).length - 1) k
    (collectTypes b.grid)
  have hlen : (collectTypes b.grid).length
      ≤ (fisherYates rng k ((collectTypes b.grid).length - 1)
          (collectTypes b.grid)).length := le_of_eq hperm.length_eq.symm
  exact (assignTypes_spec b.grid _ hlen).2

theorem coherent_of_shape_eq (g1 g2 : Grid)
    (h : g1.map (fun row => row.map (Option.map Tile.shape))
       = g2.map (fun row => row.map (Option.map Tile.shape)))
    (hco : ∀ r c t, gridGet g2 r c = some t → t.row = r ∧ t.col = c) :
    ∀ r c t, gridGet g1 r c = some t → t.row = r ∧ t.col = c := by
  intro r c t ht
  have e1 := gridGet_cellMap (Option.map Tile.shape) rfl g1 r c
  have e2 := gridGet_cellMap (Option.map Tile.shape) rfl g2 r c
  rw [h] at e1
  rw [e2] at e1
  rw [ht] at e1
  cases hx : gridGet g2 r c with
  | none =>
    rw [hx] at e1
    exact Option.noConfusion e1
  | some t0 =>
    rw [hx] at e1
    have e1s : some (Tile.shape t0) = some (Tile.shape t) := e1
    injection e1s with e1s
    have hrow0 := congrArg Tile.row e1s
    have hcol0 := congrArg Tile.col e1s
    have hrow : t0.row = t.row := hrow0
    have hcol : t0.col = t.col := hcol0
    obtain ⟨hr0, hc0⟩ := hco r c t0 hx
    constructor
    · rw [← hrow]
      exact hr0
    · rw [← hcol]
      exact hc0

theorem cascadeRun_coherent (rng : Nat → Nat) (fuel : Nat) :
    ∀ (k : Nat) (b : Board) (ms : List Match), WellFormed b → Coherent b →
      Coherent (cascadeRun rng fuel k b ms).board := by
  induction fuel with
  | zero =>
    intro k b ms hW hco
    exact hco
  | succ fuel ih =>
    intro k b ms hW hco
    obtain ⟨hWq, hFq, hNAq, hcoq⟩ :=
      cascadePass_spec rng k { b with comboCount := b.comboCount + 1 } ms hW
    by_cases hemp : (findMatches
        (cascadePass rng k { b with comboCount := b.comboCount + 1 } ms).1).isEmpty = true
    · rw [cascadeRun_succ_board, if_pos hemp]
      exact hcoq hco
    · rw [cascadeRun_succ_board, if_neg hemp]
      exact ih _ _ _ hWq (hcoq hco)

theorem mkBoard_coherent (f : Nat → Nat → Nat) : Coherent (mkBoard f) := by
  intro r c t h
  unfold mkBoard gridGet at h
  rw [List.get?_map] at h
  cases hr : (List.range BOARD_ROWS).get? r with
  | none =>
    rw [hr] at h
    simp at h
  | some rv =>
    rw [hr] at h
    have hrv : rv = r := by
      have hlt : r < BOARD_ROWS := by
        have := get?_some_lt hr
        simpa using this
      rw [List.get?_range hlt] at hr
      injection hr with hr
      exact hr.symm
    subst hrv
    have h1 : (((List.range BOARD_COLS).map
        (fun c => some (⟨f rv c, TileState.Idle, rv, c⟩ : Tile))).get? c).getD none
        = some t := h
    rw [List.get?_map] at h1
    cases hc : (List.range BOARD_COLS).get? c with
    | none =>
      rw [hc] at h1
      simp at h1
    | some cv =>
      rw [hc] at h1
      have hcv : cv = c := by
        have hlt : c < BOARD_COLS := by
          have := get?_some_lt hc
          simpa using this
        rw [List.get?_range hlt] at hc
        injection hc with hc
        exact hc.symm
      subst hcv
      have h2 : some (⟨f rv cv, TileState.Idle, rv, cv⟩ : Tile) = some t := h1
      injection h2 with h2
      subst h2
      exact ⟨rfl, rfl⟩

/-- C10: position coherence — every occupied cell holds a tile whose
`row`/`col` fields name that cell, and hence no tile value sits in two
distinct cells — is an invariant: it is preserved by every
synchronously completed public operation (`trySwap`, `selectTile`,
`deselectTile`, `shuffle`, `hasValidMoves`) and by every completed
phase step (destroy marking, destroyed-tile removal, gravity with
spawn, animation completion, one cascade pass, and the whole cascade
loop). -/
theorem position_coherence (b : Board) (hW : WellFormed b) (hco : Coherent b) :
    (∀ p1 p2 : Int × Int, Coherent (trySwap b p1 p2).2) ∧
      (∀ row col : Int, Coherent (selectTile b row col)) ∧
      Coherent (deselectTile b) ∧
      (∀ rng k, Coherent (shuffle rng k b)) ∧
      Coherent (hasValidMovesS b).2 ∧
      (∀ ms, Coherent (markDestroy b ms)) ∧
      Coherent (removeDestroyedTiles b) ∧
      (∀ rng k, Coherent (applyGravity rng k b).1) ∧
      Coherent (finishAnimations b) ∧
      (∀ rng k ms, Coherent (cascadePass rng k b ms).1) ∧
      (∀ rng fuel k ms, Coherent (cascadeRun rng fuel k b ms).board) ∧
      (∀ r c r' c' t, gridGet b.grid r c = some t →
        gridGet b.grid r' c' = some t → r = r' ∧ c = c') := by
  refine ⟨fun p1 p2 => trySwap_coherent b p1 p2 hco,
    fun row col => selectTile_coherent b row col hco,
    deselectTile_coherent b hco,
    fun rng k => coherent_of_shape_eq _ _ (shuffle_shape_eq rng k b) hco,
    hco,
    fun ms => markDestroy_coherent b ms hco,
    removeDestroyedTiles_coherent b hco,
    fun rng k => (applyGravity_spec rng k b hW).2.2.1 hco,
    finishAnimations_coherent b hco,
    fun rng k ms => (cascadePass_spec rng k b ms hW).2.2.2 hco,
    fun rng fuel k ms => cascadeRun_coherent rng fuel k b ms hW hco,
    ?_⟩
  intro r c r' c' t h1 h2
  obtain ⟨e1, e2⟩ := hco r c t h1
  obtain ⟨e3, e4⟩ := hco r' c' t h2
  constructor
  · rw [← e1, ← e3]
  · rw [← e2, ← e4]

/-- Witness for the coherence invariant on a concrete board, through a
swap attempt and a deselection. -/
theorem position_coherence_witness :
    Coherent (trySwap (mkBoard baseTy) (0, 0) (0, 1)).2 ∧
      Coherent (deselectTile (mkBoard baseTy)) := by
  have h := position_coherence (mkBoard baseTy) ⟨rfl, by decide⟩
    (mkBoard_coherent baseTy)
  exact ⟨h.1 (0, 0) (0, 1), h.2.2.1⟩

end AnyPang
